import Mathlib

/-!
# Byte-pair encoding core of bytephase (`_bpe.c`)

A shallow embedding of the trie, the encoders and the training loop of
`src/bytephase/_bpe.c`, and theorems about them. Definitions keep the names of
the C functions they embed; the definitions come first, the theorems follow.
-/

namespace Bytephase

/-! ## Definitions -/

/-- A `trie_node*` of `_bpe.h`: either NULL or a node holding its child
pointers (indexed by byte value) and its `token_id`. -/
inductive trie_node where
  | null : trie_node
  | node (children : Nat → trie_node) (token_id : Int) : trie_node

/-- Source `create_node`: all child pointers NULL (calloc), `token_id = -1`. -/
def create_node : trie_node := trie_node.node (fun _ => trie_node.null) (-1)

/-- Source `create_trie`: the root is a fresh node. -/
def create_trie : trie_node := create_node

/-- The loop of `insert_trie` from the node `current`: for each byte a missing
child is created, then the walk descends; the last node gets `token_id`. -/
def insert_node : trie_node → List Nat → Int → trie_node
  | trie_node.null, _, _ => trie_node.null
  | trie_node.node children _, [], token_id => trie_node.node children token_id
  | trie_node.node children tid, b :: rest, token_id =>
    let child := match children b with
      | trie_node.null => create_node
      | c => c
    trie_node.node (fun x => if x = b then insert_node child rest token_id else children x) tid

/-- Source `insert_trie(trie, token, token_length, token_id)`; the trie is its root. -/
def insert_trie (trie : trie_node) (token : List Nat) (token_id : Int) : trie_node :=
  insert_node trie token token_id

/-- The loop of `search_trie`: `current`, the rest of the text, the running
`*match_length`, `last_valid_match` and `last_valid_match_length`. -/
def search_loop : trie_node → List Nat → Nat → Int → Nat → Int × Nat
  | _, [], _, last_valid_match, last_valid_match_length =>
    (last_valid_match, last_valid_match_length)
  | trie_node.null, _ :: _, _, last_valid_match, last_valid_match_length =>
    (last_valid_match, last_valid_match_length)
  | trie_node.node children _, b :: rest, match_length, last_valid_match,
      last_valid_match_length =>
    match children b with
    | trie_node.null => (last_valid_match, last_valid_match_length)
    | trie_node.node c tid =>
      if tid ≠ -1 then
        search_loop (trie_node.node c tid) rest (match_length + 1) tid (match_length + 1)
      else
        search_loop (trie_node.node c tid) rest (match_length + 1) last_valid_match
          last_valid_match_length

/-- Source `search_trie(trie, text, text_length, &match_length)`: the returned id and
the final `*match_length`; `text` is the `text_length` bytes the pointer
addresses. -/
def search_trie (trie : trie_node) (text : List Nat) : Int × Nat :=
  search_loop trie text 0 (-1) 0

/-- The `while (i < text_length)` loop shared by `encode_train` and
`encode_inference`, on the bytes from position `i` on. Every pass of the C loop
spends one unit of `fuel`; `none` means the fuel ran out before the loop ended. -/
def encode_loop (trie : trie_node) : Nat → List Nat → Option (List Int)
  | _, [] => some []
  | 0, _ :: _ => none
  | fuel + 1, b :: rest =>
    let r := search_trie trie (b :: rest)
    if r.1 ≠ -1 then
      (encode_loop trie fuel ((b :: rest).drop r.2)).map (fun out => r.1 :: out)
    else
      (encode_loop trie fuel rest).map (fun out => (b : Int) :: out)

/-- The per-chunk loop of `encode_train`: the length is the explicit
`text_length` of `PyUnicode_AsUTF8AndSize`. -/
def encode_train_chunk (trie : trie_node) (text : List Nat) : Option (List Int) :=
  encode_loop trie text.length text

/-- Source `strlen`: the number of bytes before the first NUL of the buffer (the
buffer of a Python string is NUL-terminated after its last byte). -/
def strlen (text : List Nat) : Nat := (text.takeWhile (fun b => b ≠ 0)).length

/-- The per-chunk loop of `encode_inference`: the length is `strlen(text)`. -/
def encode_inference_chunk (trie : trie_node) (text : List Nat) : Option (List Int) :=
  encode_loop trie (strlen text) (text.take (strlen text))

/-- The chunk loop of both encoders: one `encoded_list` receives the ids of all
chunks in order. -/
def encode_chunks (f : List Nat → Option (List Int)) : List (List Nat) → Option (List Int)
  | [] => some []
  | c :: cs =>
    match f c, encode_chunks f cs with
    | some a, some b => some (a ++ b)
    | _, _ => none

/-- Source `encode_train(text_iterator, trie)` on the byte strings of the chunks. -/
def encode_train (trie : trie_node) (chunks : List (List Nat)) : Option (List Int) :=
  encode_chunks (encode_train_chunk trie) chunks

/-- Source `encode_inference(input_chunks, trie)` on the byte strings of the chunks. -/
def encode_inference (trie : trie_node) (chunks : List (List Nat)) : Option (List Int) :=
  encode_chunks (encode_inference_chunk trie) chunks

/-- The value an `int` holds when the exact result is `x`: the 32-bit
two's-complement wrap, which is what the compiled code computes on an addition
that leaves the range and on a narrowing conversion from `long`. -/
def wrap_int32 (x : Int) : Int := (x + 2147483648) % 4294967296 - 2147483648

/-- The CPython call `PyLong_AsLong` on a Python integer: the value itself when
it fits the 64-bit `long`, otherwise -1 (the callers in `_bpe.c` never look at
the error indicator). -/
def PyLong_AsLong (v : Int) : Int :=
  if -9223372036854775808 ≤ v ∧ v < 9223372036854775808 then v else -1

/-- The trie after a sequence of `insert_trie` calls on the fresh trie of
`create_trie`, each call given as `(token_id, token)`. -/
def insert_all (calls : List (Int × List Nat)) : trie_node :=
  calls.foldl (fun trie e => insert_trie trie e.2 e.1) create_trie

/-- Source `build_trie(decode_dict)`: one `insert_trie` per dictionary entry
`(token id, bytes)`, in the dictionary's iteration order. The id passes through
`int token_id = PyLong_AsLong(key)`, so it reaches `insert_trie` narrowed to a
32-bit `int`. -/
def build_trie (decode_dict : List (Int × List Nat)) : trie_node :=
  decode_dict.foldl
    (fun trie e => insert_trie trie e.2 (wrap_int32 (PyLong_AsLong e.1))) create_trie

/-- The pointer reached from `n` along the bytes of `path` (NULL once a child
is missing). -/
def walk : trie_node → List Nat → trie_node
  | n, [] => n
  | trie_node.null, _ :: _ => trie_node.null
  | trie_node.node children _, b :: rest => walk (children b) rest

/-- The `token_id` field behind a pointer, with the sentinel `-1` for NULL. -/
def node_token_id : trie_node → Int
  | trie_node.null => -1
  | trie_node.node _ tid => tid

/-- The id stored at the end of `path`, `-1` when there is none. -/
def trie_get (n : trie_node) (path : List Nat) : Int := node_token_id (walk n path)

/-- The id the last `insert_trie` call with the byte string `key` carried
(`none` when `key` was never inserted). -/
def key_id : List (Int × List Nat) → List Nat → Option Int
  | [], _ => none
  | e :: rest, key =>
    match key_id rest key with
    | some v => some v
    | none => if e.2 = key then some e.1 else none

/-- Modelled from the spec: the dictionary lookup `decode_dict[id]` of the
decoder, which lives in the Python layer; the dictionary is the list of its
`(id, bytes)` items. -/
def dict_get (decode_dict : List (Int × List Nat)) (id : Int) : Option (List Nat) :=
  (decode_dict.find? (fun e => e.1 = id)).map (fun e => e.2)

/-- Modelled from the spec: `decode(ids) = concat(decode_dict[id] for id in ids)`;
`none` when an id is not in the dictionary. -/
def decode (decode_dict : List (Int × List Nat)) : List Int → Option (List Nat)
  | [] => some []
  | id :: ids =>
    match dict_get decode_dict id, decode decode_dict ids with
    | some a, some b => some (a ++ b)
    | _, _ => none

/-- The 256 base entries `b -> [b]` of a decode dictionary. -/
def base_dict : List (Int × List Nat) :=
  (List.range 256).map (fun b : Nat => ((b : Int), [b]))

/-- The dictionary of scenario S4: the base bytes, `256 -> "ab"`, `257 -> "abc"`. -/
def s4_dict : List (Int × List Nat) := base_dict ++ [(256, [97, 98]), (257, [97, 98, 99])]

/-- Source `BIGRAM_TABLE_SIZE` of `_bpe.h`. -/
def BIGRAM_TABLE_SIZE : Nat := 1048576

/-- Source `hash_text`: the values stay far below 2^64, so `unsigned long` never wraps. -/
def hash_text (unigram1 unigram2 : Nat) : Nat :=
  let hash := 5381
  let hash := ((hash * 32) + hash) + unigram1
  let hash := ((hash * 32) + hash) + unigram2
  hash % BIGRAM_TABLE_SIZE

/-- A `bigram_node_t`; the `next` pointer is the rest of the chain's list. The
`int freq` is a 32-bit `int`: every value stored in it is a value of
`wrap_int32`, or the 0 of a reset. -/
structure bigram_node where
  bigram0 : Nat
  bigram1 : Nat
  freq : Int
deriving DecidableEq, Repr

/-- A `token_node_t`. -/
structure token_node where
  token0 : Nat
  token1 : Nat
deriving DecidableEq, Repr

/-- A `text_chunk_node_t`: `bytes` is the whole flexible array as allocated. -/
structure text_chunk_node where
  count : Nat
  array_size : Nat
  num_elements : Nat
  bytes : List Nat
deriving DecidableEq, Repr

/-- The `bigram_node_t**` bucket array: the non-NULL buckets as
`(index, chain)` in ascending index order; an index that is absent is a NULL
bucket. -/
abbrev bigram_table := List (Nat × List bigram_node)

/-- The `token_node_t**` array: `none` is a NULL slot. -/
abbrev token_table := Nat → Option token_node

/-- Source `create_bigram_node(unigram1, unigram2, freq)`; the parameter is an `int`,
so the node holds the value as a 32-bit `int`. -/
def create_bigram_node (unigram1 unigram2 : Nat) (freq : Int) : bigram_node :=
  { bigram0 := unigram1, bigram1 := unigram2, freq := wrap_int32 freq }

/-- The chain `bigram_table[hash]` (empty for a NULL bucket). -/
def bucket_get : bigram_table → Nat → List bigram_node
  | [], _ => []
  | (i, chain) :: rest, hash => if i = hash then chain else bucket_get rest hash

/-- Store a chain as `bigram_table[hash]`. -/
def bucket_set : bigram_table → Nat → List bigram_node → bigram_table
  | [], hash, chain => [(hash, chain)]
  | (i, c) :: rest, hash, chain =>
    if hash < i then (hash, chain) :: (i, c) :: rest
    else if i = hash then (i, chain) :: rest
    else (i, c) :: bucket_set rest hash chain

/-- The chain walk of `update_bigram_table`: the first node with this bigram
gets `freq += count`, an addition of two `int`s that wraps at 32 bits; when the
walk reaches the end a new node is appended. -/
def chain_update (unigram1 unigram2 : Nat) (count : Int) : List bigram_node → List bigram_node
  | [] => [create_bigram_node unigram1 unigram2 count]
  | check :: next =>
    if check.bigram0 = unigram1 ∧ check.bigram1 = unigram2 then
      { check with freq := wrap_int32 (check.freq + count) } :: next
    else check :: chain_update unigram1 unigram2 count next

/-- Source `update_bigram_table(unigram1, unigram2, count, bigram_table)`. -/
def update_bigram_table (unigram1 unigram2 : Nat) (count : Int) (tbl : bigram_table) :
    bigram_table :=
  let hash := hash_text unigram1 unigram2
  bucket_set tbl hash (chain_update unigram1 unigram2 count (bucket_get tbl hash))

/-- Source `word_to_ints(word)`: the bytes up to `strlen(word)`, widened, then a 0. -/
def word_to_ints (word : List Nat) : List Nat := word.takeWhile (fun b => b ≠ 0) ++ [0]

/-- Source `get_array_size(array)`. -/
def get_array_size (array : List Nat) : Nat :=
  (1 + (array.takeWhile (fun b => b ≠ 0)).length) * 2

/-- Source `create_text_chunk_node(word, size, count)`: `size` bytes of zeroed array,
then the symbols of `word` up to its terminator; `count` is an
`unsigned short`. -/
def create_text_chunk_node (word : List Nat) (size : Nat) (count : Nat) : text_chunk_node :=
  let symbols := word.takeWhile (fun b => b ≠ 0)
  { count := count % 65536
    array_size := size
    num_elements := size / 2
    bytes := symbols ++ List.replicate (size / 2 - symbols.length) 0 }

/-- The loop of `init_stats`: `k` passes are left, `element` is the loop
counter, index of `unigram_1`; `unigram_2` is read only when `*unigram_1 != 0`. -/
def init_stats_loop (text_node : text_chunk_node) : Nat → Nat → bigram_table → bigram_table
  | 0, _, tbl => tbl
  | k + 1, element, tbl =>
    let unigram_1 := text_node.bytes.getD element 0
    let unigram_2 := text_node.bytes.getD (element + 1) 0
    init_stats_loop text_node k (element + 1)
      (if unigram_1 ≠ 0 ∧ unigram_2 ≠ 0 then
        update_bigram_table unigram_1 unigram_2 text_node.count tbl
      else tbl)

/-- Source `init_stats(text_node, bigram_table)`. -/
def init_stats (text_node : text_chunk_node) (tbl : bigram_table) : bigram_table :=
  init_stats_loop text_node text_node.num_elements 0 tbl

/-- Source `build_bigram_table(text_table, text_table_len)`. -/
def build_bigram_table (text_table : List text_chunk_node) : bigram_table :=
  text_table.foldl (fun tbl node => init_stats node tbl) []

/-- Source `memmove(dst, src, n)` inside one array, with indices for pointers and
`n` counted in elements. -/
def memmove (bytes : List Nat) (dst src n : Nat) : List Nat :=
  bytes.take dst ++ (bytes.drop src).take n ++ bytes.drop (dst + n)

/-- The local state of `word_retokenize`: the node, the table, the loop counter
`element` (`unigram_1` is at index `element - 1`, `unigram_2` at `element`)
and the index of `unigram_L`. -/
structure retokenize_state where
  node : text_chunk_node
  tbl : bigram_table
  element : Nat
  unigram_L : Nat
deriving DecidableEq, Repr

/-- One pass of the `while` body of `word_retokenize`. -/
def word_retokenize_step (max0 max1 token_idx : Nat) (s : retokenize_state) : retokenize_state :=
  let unigram_1 := s.element - 1
  let unigram_2 := unigram_1 + 1
  let count : Int := s.node.count
  let s1 : retokenize_state :=
    if s.node.bytes.getD unigram_1 0 = max0 ∧ s.node.bytes.getD unigram_2 0 = max1 then
      let s2 : retokenize_state :=
        if s.unigram_L ≠ unigram_1 then
          let unigram_L := unigram_1 - 1
          let vL := s.node.bytes.getD unigram_L 0
          { s with
            unigram_L := unigram_L
            tbl := update_bigram_table vL token_idx count
              (update_bigram_table vL (s.node.bytes.getD unigram_1 0) (-1 * count) s.tbl) }
        else s
      let unigram_R := unigram_2 + 1
      let vR := s.node.bytes.getD unigram_R 0
      let tbl3 :=
        if vR ≠ 0 then
          update_bigram_table token_idx vR count
            (update_bigram_table (s.node.bytes.getD unigram_2 0) vR (-1 * count) s2.tbl)
        else s2.tbl
      let bytes1 := s.node.bytes.set unigram_1 token_idx
      let remaining := s.node.num_elements - s.element - 2
      let bytes2 := memmove bytes1 unigram_2 unigram_R remaining
      let bytes3 := bytes2.set (unigram_2 + remaining) 0
      { node := { s.node with
            bytes := bytes3
            array_size := s.node.array_size - 2
            num_elements := s.node.num_elements - 1 }
        tbl := tbl3
        element := s.element
        unigram_L := s2.unigram_L }
    else s
  { s1 with
    unigram_L := if unigram_1 ≠ 0 then s1.unigram_L + 1 else s1.unigram_L
    element := s1.element + 1 }

/-- The `while (element < num_elements)` loop of `word_retokenize`; each pass
spends one unit of fuel. -/
def word_retokenize_loop (max0 max1 token_idx : Nat) : Nat → retokenize_state → retokenize_state
  | 0, s => s
  | fuel + 1, s =>
    if s.element < s.node.num_elements then
      word_retokenize_loop max0 max1 token_idx fuel (word_retokenize_step max0 max1 token_idx s)
    else s

/-- Source `word_retokenize(text_chunk_node, max_node, bigram_table, token_idx)` with
the bigram of `*max_node` passed by value. The counter rises by one in every
pass while `num_elements` does not grow, so `num_elements` passes suffice. -/
def word_retokenize (node : text_chunk_node) (max0 max1 : Nat) (tbl : bigram_table)
    (token_idx : Nat) : text_chunk_node × bigram_table :=
  let s := word_retokenize_loop max0 max1 token_idx node.num_elements
    { node := node, tbl := tbl, element := 1, unigram_L := 0 }
  (s.node, s.tbl)

/-- Source `retokenize`: `word_retokenize` on every word in table order, threading the
pair table. -/
def retokenize : List text_chunk_node → Nat → Nat → bigram_table → Nat →
    List text_chunk_node × bigram_table
  | [], _, _, tbl, _ => ([], tbl)
  | node :: rest, max0, max1, tbl, token_idx =>
    let r := word_retokenize node max0 max1 tbl token_idx
    let rs := retokenize rest max0 max1 r.2 token_idx
    (r.1 :: rs.1, rs.2)

/-- The node `*max_node` points to: `in_table = false` is `init_max_node`, the
separately allocated start node whose bigram is never initialised; otherwise it
is the table node with this bigram (nodes are never freed or moved during
training, and a bigram has one node). -/
structure max_ref where
  in_table : Bool
  bigram0 : Nat
  bigram1 : Nat
deriving DecidableEq, Repr

/-- Write `freq = 0` to the chain node with this bigram. -/
def chain_reset (unigram1 unigram2 : Nat) : List bigram_node → List bigram_node
  | [] => []
  | check :: next =>
    if check.bigram0 = unigram1 ∧ check.bigram1 = unigram2 then
      { check with freq := 0 } :: next
    else check :: chain_reset unigram1 unigram2 next

/-- Source `(*max_node)->freq = 0`: a write into the table when `max_node` points into
it, a write to `init_max_node` (whose `freq` is 0 already) otherwise. -/
def reset_max_freq (max_node : max_ref) (tbl : bigram_table) : bigram_table :=
  if max_node.in_table then
    let hash := hash_text max_node.bigram0 max_node.bigram1
    bucket_set tbl hash (chain_reset max_node.bigram0 max_node.bigram1 (bucket_get tbl hash))
  else tbl

/-- All nodes in the order the scan of `update_max_node` visits them:
ascending bucket index, then chain order. -/
def scan_order (tbl : bigram_table) : List bigram_node :=
  (tbl.map (fun b => b.2)).flatten

/-- The scan of `update_max_node` over the nodes in visiting order, with the
current `*max_node` and its `freq`: a node replaces it when its `freq` is
strictly greater. -/
def scan_max : List bigram_node → max_ref → Int → max_ref × Int
  | [], max_node, max_freq => (max_node, max_freq)
  | check :: next, max_node, max_freq =>
    if check.freq > max_freq then
      scan_max next { in_table := true, bigram0 := check.bigram0, bigram1 := check.bigram1 }
        check.freq
    else scan_max next max_node max_freq

/-- Source `create_token(max_node)`. -/
def create_token (max_node : max_ref) : token_node :=
  { token0 := max_node.bigram0, token1 := max_node.bigram1 }

/-- Source `update_max_node`: reset the old winner's `freq`, scan for the first node of
highest `freq`, record its bigram as `token_table[token_idx]`. -/
def update_max_node (max_node : max_ref) (tbl : bigram_table) (tt : token_table)
    (token_idx : Nat) : max_ref × bigram_table × token_table :=
  let tbl1 := reset_max_freq max_node tbl
  let m := (scan_max (scan_order tbl1) max_node 0).1
  (m, tbl1, fun i => if i = token_idx then some (create_token m) else tt i)

/-- The state the merge loop of `train` carries. -/
structure train_state where
  text_table : List text_chunk_node
  tbl : bigram_table
  max_node : max_ref
  tt : token_table
  token_idx : Nat

/-- One pass of the merge loop of `train`; `token_idx` is an `unsigned short`. -/
def merge_step (s : train_state) : train_state :=
  let u := update_max_node s.max_node s.tbl s.tt s.token_idx
  let r := retokenize s.text_table u.1.bigram0 u.1.bigram1 u.2.1 s.token_idx
  { text_table := r.1
    tbl := r.2
    max_node := u.1
    tt := u.2.2
    token_idx := (s.token_idx + 1) % 65536 }

/-- The merge loop `for (i = 0; i < num_merges; i++)`. -/
def merge_loop : Nat → train_state → train_state
  | 0, s => s
  | n + 1, s => merge_loop n (merge_step s)

/-- Source `dfs(token, index, token_table, &result_count, token_idx_end, max_size)`.
The state is the written part of `token` (its length is `*result_count`) and a
flag telling whether the error branch was taken. `none`: the recursion did not
end within `fuel` nested calls. -/
def dfs (tt : token_table) (token_idx_end max_size : Nat) :
    Nat → Nat → List Nat × Bool → Option (List Nat × Bool)
  | 0, _, _ => none
  | fuel + 1, index, (token, err) =>
    if index > token_idx_end ∨ (tt index).isNone ∨ token.length ≥ max_size then
      some (token, true)
    else
      match tt index with
      | none => some (token, true)
      | some node =>
        let r0 :=
          if node.token0 < 256 then some (token ++ [node.token0], err)
          else dfs tt token_idx_end max_size fuel node.token0 (token, err)
        match r0 with
        | none => none
        | some (token1, err1) =>
          if node.token1 < 256 then some (token1 ++ [node.token1], err1)
          else dfs tt token_idx_end max_size fuel node.token1 (token1, err1)

/-- The `unsigned short count` a word record gets for the supplied count:
`long count = PyLong_AsLong(value)` narrowed to 16 bits on the way into
`create_text_chunk_node`. -/
def stored_count (c : Nat) : Nat := ((PyLong_AsLong (c : Int)) % 65536).toNat

/-- The word table `train` builds from the dictionary items `(word, count)`:
`size` is an `unsigned short`; the count is `PyLong_AsLong(value)` narrowed to
the `unsigned short count` of `create_text_chunk_node`. -/
def build_text_table (words : List (List Nat × Nat)) : List text_chunk_node :=
  words.map (fun w =>
    let byte_word := word_to_ints w.1
    let size := get_array_size byte_word % 65536
    create_text_chunk_node byte_word size (stored_count w.2))

/-- The `max_size` of `train`: the largest `size` seen. -/
def train_max_size (words : List (List Nat × Nat)) : Nat :=
  words.foldl (fun max_size w =>
    let size := get_array_size (word_to_ints w.1) % 65536
    if size > max_size then size else max_size) 0

/-- The state of `train` after its `num_merges` merge steps. `init_bigram` is
the content of the uninitialised bigram of `init_max_node`. -/
def train_merges (init_bigram : Nat × Nat) (words : List (List Nat × Nat)) (num_merges : Nat) :
    train_state :=
  let text_table := build_text_table words
  merge_loop num_merges
    { text_table := text_table
      tbl := build_bigram_table text_table
      max_node := { in_table := false, bigram0 := init_bigram.1, bigram1 := init_bigram.2 }
      tt := fun _ => none
      token_idx := 256 }

/-- The output loop of `train` from slot `i` on, `k` slots left: a NULL slot is
skipped, every other slot yields the list `dfs` wrote. -/
def train_output (tt : token_table) (token_idx_end max_size fuel : Nat) :
    Nat → Nat → Option (List (List Nat))
  | 0, _ => some []
  | k + 1, i =>
    match tt i with
    | none => train_output tt token_idx_end max_size fuel k (i + 1)
    | some _ =>
      match dfs tt (token_idx_end % 65536) max_size fuel (i % 65536) ([], false),
        train_output tt token_idx_end max_size fuel k (i + 1) with
      | some r, some rest => some (r.1 :: rest)
      | _, _ => none

/-- Source `train(dict, text_table_len, num_merges)` on the dictionary items in
iteration order, with `text_table_len` the number of items. A terminating run
of `dfs` never nests deeper than `num_merges * max_size + 1` calls (a nested
call that repeats the index and `result_count` of a pending one recurses
forever), so `none` stands for a run whose recursion does not end. -/
def train (init_bigram : Nat × Nat) (words : List (List Nat × Nat)) (num_merges : Nat) :
    Option (List (List Nat)) :=
  let s := train_merges init_bigram words num_merges
  let max_size := train_max_size words
  train_output s.tt (256 + num_merges) max_size (num_merges * max_size + 2) num_merges 256

/-- The chain walk of a lookup: the first node of the chain with this bigram. -/
def chain_find (unigram1 unigram2 : Nat) : List bigram_node → Option bigram_node
  | [] => none
  | check :: next =>
    if check.bigram0 = unigram1 ∧ check.bigram1 = unigram2 then some check
    else chain_find unigram1 unigram2 next

/-- The node of a bigram, looked up the way `update_bigram_table` does: in the
chain of the bucket `hash_text` names. -/
def find_node (tbl : bigram_table) (unigram1 unigram2 : Nat) : Option bigram_node :=
  chain_find unigram1 unigram2 (bucket_get tbl (hash_text unigram1 unigram2))

/-- The frequency the pair index stores for a bigram, 0 when it has no node. -/
def get_freq (tbl : bigram_table) (unigram1 unigram2 : Nat) : Int :=
  match find_node tbl unigram1 unigram2 with
  | some n => n.freq
  | none => 0

/-- The number of positions at which `(a, b)` occurs adjacently in a symbol
sequence. -/
def pair_count (a b : Nat) : List Nat → Nat
  | x :: y :: rest => (if x = a ∧ y = b then 1 else 0) + pair_count a b (y :: rest)
  | _ => 0

/-- The weighted frequency of `(a, b)` in a word map: the sum over the words of
the word's count times the number of adjacent occurrences of `(a, b)` in it. -/
def weighted_freq (words : List (List Nat × Nat)) (a b : Nat) : Int :=
  (words.map (fun w => (w.2 : Int) * (pair_count a b w.1 : Int))).sum

/-- The live symbols of a word record: the `num_elements - 1` symbols before
the terminator. -/
def live_symbols (node : text_chunk_node) : List Nat := node.bytes.take (node.num_elements - 1)

/-- The bigram of a node. -/
def node_key (n : bigram_node) : Nat × Nat := (n.bigram0, n.bigram1)

/-- A chain as `update_bigram_table` keeps it in bucket `h`: every node hashes
to `h` and no bigram has two nodes. -/
def chain_wf (h : Nat) (chain : List bigram_node) : Prop :=
  (∀ n ∈ chain, hash_text n.bigram0 n.bigram1 = h) ∧ (chain.map node_key).Nodup

/-- Every `freq` of the table is a value of a 32-bit `int`. -/
def table_range (tbl : bigram_table) : Prop :=
  ∀ e ∈ tbl, ∀ n ∈ e.2, -2147483648 ≤ n.freq ∧ n.freq < 2147483648

/-- The representation invariant of the bucket array: indices strictly
ascending, every chain well formed for its index. -/
def table_wf (tbl : bigram_table) : Prop :=
  (tbl.map Prod.fst).Pairwise (fun i j => i < j) ∧ ∀ e ∈ tbl, chain_wf e.1 e.2

/-- The word record `node` holds the symbol sequence `w`: the symbols are
non-zero, a NUL follows them (the rest of the array is zero as well),
`num_elements` counts the symbols and the terminator, and `array_size` is the
byte size of that many `unsigned short`s. -/
def node_repr (node : text_chunk_node) (w : List Nat) : Prop :=
  (∀ s ∈ w, s ≠ 0) ∧ node.num_elements = w.length + 1 ∧
    node.array_size = 2 * node.num_elements ∧
    ∃ k, node.bytes = w ++ List.replicate (k + 1) 0

/-- What `init_stats` does to the table, on the symbol sequence of the word:
one `update_bigram_table` per adjacent pair, left to right. -/
def stats_pairs (count : Int) : List Nat → bigram_table → bigram_table
  | x :: y :: rest, tbl => stats_pairs count (y :: rest) (update_bigram_table x y count tbl)
  | _, tbl => tbl

/-- The inputs the embedding covers: the words are NUL-free byte strings whose
array size `2 * (length + 1)` fits the `unsigned short size` of `train`
(at most 32766 bytes), and the counts fit the 16-bit `count` field. -/
def valid_words (words : List (List Nat × Nat)) : Prop :=
  ∀ w ∈ words, (∀ b ∈ w.1, 1 ≤ b ∧ b ≤ 255) ∧ w.1.length ≤ 32766 ∧ w.2 ≤ 65535

/-- The word table holds the corpus `ws`, a list of `(symbols, count)`: record
by record, the symbols and the count. -/
def table_repr (text_table : List text_chunk_node) (ws : List (List Nat × Nat)) : Prop :=
  List.Forall₂ (fun node w => node_repr node w.1 ∧ node.count = w.2) text_table ws

/-- The left-neighbour patch of a match: with a symbol `l` before the pair,
`(l, a)` loses the word's count and `(l, t)` gains it. -/
def patch_left (a t : Nat) (c : Int) (prev : Option Nat) (tbl : bigram_table) : bigram_table :=
  match prev with
  | some l => update_bigram_table l t c (update_bigram_table l a (-1 * c) tbl)
  | none => tbl

/-- The right-neighbour patch of a match: with a symbol `r` behind the pair,
`(b, r)` loses the word's count and `(t, r)` gains it. -/
def patch_right (b t : Nat) (c : Int) (tail : List Nat) (tbl : bigram_table) : bigram_table :=
  match tail with
  | r :: _ => update_bigram_table t r c (update_bigram_table b r (-1 * c) tbl)
  | [] => tbl

/-- What `word_retokenize` does, on the symbol sequence of the word: a walk
from the left with `prev` the symbol before the current one (`none` at the
start of the word); at a match the neighbour patches are made and the walk goes
on behind the merged pair. -/
def merge_word (a b t : Nat) (c : Int) :
    Option Nat → List Nat → bigram_table → List Nat × bigram_table
  | prev, x :: y :: tail, tbl =>
    if x = a ∧ y = b then
      let res := merge_word a b t c (some t) tail
        (patch_right b t c tail (patch_left a t c prev tbl))
      (t :: res.1, res.2)
    else
      let res := merge_word a b t c (some x) (y :: tail) tbl
      (x :: res.1, res.2)
  | _, w, tbl => (w, tbl)

/-- The loop invariant of `word_retokenize`: `pre` are the symbols before
`unigram_1` (already rewritten), `rest` the symbols from `unigram_1` on, then
zeros; `unigram_L` is one before `unigram_1` except at the start. -/
def retok_inv (s : retokenize_state) (pre rest : List Nat) (k : Nat) : Prop :=
  s.node.bytes = pre ++ rest ++ List.replicate (k + 1) 0 ∧
    s.node.num_elements = pre.length + rest.length + 1 ∧
    s.element = pre.length + 1 ∧
    s.unigram_L = pre.length - 1 ∧
    s.node.array_size = 2 * s.node.num_elements

/-- What `retokenize` does, on the corpus: `merge_word` on every word in
order, threading the table. -/
def merge_corpus (a b t : Nat) :
    List (List Nat × Nat) → bigram_table → List (List Nat × Nat) × bigram_table
  | [], tbl => ([], tbl)
  | w :: rest, tbl =>
    let r := merge_word a b t w.2 none w.1 tbl
    let rs := merge_corpus a b t rest r.2
    ((r.1, w.2) :: rs.1, rs.2)

/-- The greedy left-to-right, non-overlapping merge of the pair `(a, b)` into
the token `t`. -/
def merge_symbols (a b t : Nat) : List Nat → List Nat
  | x :: y :: r =>
    if x = a ∧ y = b then t :: merge_symbols a b t r
    else x :: merge_symbols a b t (y :: r)
  | w => w

/-- The indicator of a proposition, as an integer. -/
def ind (p : Prop) [Decidable p] : Int := if p then 1 else 0

/-- Modelled from the spec: the expansion `expand(t, out)` of section 4.5, "if
`t < 256` append `t`, else expand the left child, then the right child", with
the recursion depth bounded by `fuel`. -/
def expand (tt : token_table) : Nat → Nat → List Nat
  | 0, _ => []
  | fuel + 1, t =>
    if t < 256 then [t]
    else
      match tt t with
      | some node => expand tt fuel node.token0 ++ expand tt fuel node.token1
      | none => []

/-- Modelled from the spec: the byte expansion of the symbol `t`; `t + 1` levels
of recursion are enough when every token records smaller children. -/
def expansion (tt : token_table) (t : Nat) : List Nat := expand tt (t + 1) t

/-- The merge table holds exactly the tokens `256 .. n - 1`, and every token
records two non-zero children smaller than itself. -/
def tt_wf (tt : token_table) (n : Nat) : Prop :=
  (∀ i, (tt i).isSome = true ↔ 256 ≤ i ∧ i < n) ∧
    ∀ i node, tt i = some node →
      node.token0 < i ∧ node.token0 ≠ 0 ∧ node.token1 < i ∧ node.token1 ≠ 0

/-- The bytes a symbol sequence stands for under a merge table. -/
def expand_word (tt : token_table) (w : List Nat) : List Nat := (w.map (expansion tt)).flatten

/-- The total weighted pair count of a word map: the sum over the words of
count times the number of adjacent positions. While it stays below 2^31 every
weighted frequency fits the `int freq` of the pair index. -/
def total_pair_weight (words : List (List Nat × Nat)) : Nat :=
  (words.map (fun w => w.2 * (w.1.length - 1))).sum

/-- The invariant of the merge loop of `train` after `k` steps on the word map
`words`, with `ws` the corpus the word table holds: the pair index stores the
weighted frequency of every pair except the last winner, which has no
occurrence left; every stored frequency is a value of a 32-bit `int` and the
total weighted pair count of the corpus is below 2^31; the merge table is well
founded; the words still stand for their original bytes; every minted token
expands to a piece of a word. -/
structure train_inv (words : List (List Nat × Nat)) (k : Nat) (s : train_state)
    (ws : List (List Nat × Nat)) : Prop where
  token_idx : s.token_idx = 256 + k
  repr : table_repr s.text_table ws
  wf : table_wf s.tbl
  range : table_range s.tbl
  bound : total_pair_weight ws < 2147483648
  freq : ∀ x y,
    ¬ (s.max_node.in_table = true ∧ s.max_node.bigram0 = x ∧ s.max_node.bigram1 = y) →
      get_freq s.tbl x y = weighted_freq ws x y
  gone : s.max_node.in_table = true →
    weighted_freq ws s.max_node.bigram0 s.max_node.bigram1 = 0
  init : s.max_node.in_table = false → k = 0
  ttwf : tt_wf s.tt (256 + k)
  symbols : ∀ w ∈ ws, ∀ x ∈ w.1, x ≠ 0 ∧ x < 256 + k
  expansions : List.Forall₂ (fun w w0 => expand_word s.tt w.1 = w0.1 ∧ w.2 = w0.2) ws words
  minted : ∀ i, 256 ≤ i → i < 256 + k → ∃ w0 ∈ words, expansion s.tt i <:+: w0.1
  last : 1 ≤ k →
    s.tt (256 + k - 1) =
      some { token0 := s.max_node.bigram0, token1 := s.max_node.bigram1 }

/-- The `while (i < text_length)` loop of the encoders once more, with every
pass recorded: the id the pass appends and the number of bytes by which it
advances `i` (`match_length` after a match, 1 in the fallback branch). -/
def encode_trace (trie : trie_node) : Nat → List Nat → Option (List (Int × Nat))
  | _, [] => some []
  | 0, _ :: _ => none
  | fuel + 1, b :: rest =>
    let r := search_trie trie (b :: rest)
    if r.1 ≠ -1 then
      (encode_trace trie fuel ((b :: rest).drop r.2)).map (fun out => (r.1, r.2) :: out)
    else
      (encode_trace trie fuel rest).map (fun out => ((b : Int), 1) :: out)

/-- The array offsets (in elements, from `bytes`) that one pass of the `while`
body of `word_retokenize` reads or writes, in program order. An offset is an
integer, so that an access before the start of the array would show as
negative. `*unigram_2` is read only when `*unigram_1` equals the first symbol
of the pair (`&&`); at a match come the reads of the left patch
(`*unigram_L`, `*unigram_1`, `*unigram_L`), the read of `*unigram_R`, the reads
of the right patch, the write of `*unigram_1`, the source and the destination
of `memmove` and the write of the terminator. `remaining_bytes` is computed in
`size_t` (64 bits). -/
def word_retokenize_step_indices (max0 max1 : Nat) (s : retokenize_state) : List Int :=
  let unigram_1 : Int := (s.element : Int) - 1
  let unigram_2 : Int := unigram_1 + 1
  let first : List Int :=
    if s.node.bytes.getD (s.element - 1) 0 = max0 then [unigram_1, unigram_2] else [unigram_1]
  if s.node.bytes.getD (s.element - 1) 0 = max0 ∧
      s.node.bytes.getD (s.element - 1 + 1) 0 = max1 then
    let left : List Int :=
      if s.unigram_L ≠ s.element - 1 then [unigram_1 - 1, unigram_1, unigram_1 - 1] else []
    let unigram_R : Int := unigram_2 + 1
    let right : List Int :=
      if s.node.bytes.getD (s.element - 1 + 1 + 1) 0 ≠ 0 then [unigram_2, unigram_R, unigram_R]
      else []
    let remaining_bytes : Nat :=
      ((s.node.num_elements + 18446744073709551616 - s.element - 2) % 18446744073709551616 * 2) %
        18446744073709551616
    let moved : List Int := (List.range (remaining_bytes / 2)).map (fun j : Nat => (j : Int))
    first ++ left ++ [unigram_R] ++ right ++ [unigram_1] ++
      moved.map (fun j => unigram_R + j) ++ moved.map (fun j => unigram_2 + j) ++
      [unigram_2 + ((remaining_bytes / 2 : Nat) : Int)]
  else first

/-- The offsets the `while` loop of `word_retokenize` touches, pass by pass. -/
def word_retokenize_loop_indices (max0 max1 token_idx : Nat) :
    Nat → retokenize_state → List Int
  | 0, _ => []
  | fuel + 1, s =>
    if s.element < s.node.num_elements then
      word_retokenize_step_indices max0 max1 s ++
        word_retokenize_loop_indices max0 max1 token_idx fuel
          (word_retokenize_step max0 max1 token_idx s)
    else []

/-- The offsets `word_retokenize` reads or writes in the array of the word. -/
def word_retokenize_indices (node : text_chunk_node) (max0 max1 : Nat) (tbl : bigram_table)
    (token_idx : Nat) : List Int :=
  word_retokenize_loop_indices max0 max1 token_idx node.num_elements
    { node := node, tbl := tbl, element := 1, unigram_L := 0 }

/-- The offsets the loop of `init_stats` reads: `*unigram_1` in every pass,
`*unigram_2` only when `*unigram_1 != 0` (`&&`), and both once more as the
arguments of `update_bigram_table` when the test holds. -/
def init_stats_loop_indices (text_node : text_chunk_node) : Nat → Nat → List Int
  | 0, _ => []
  | k + 1, element =>
    (if text_node.bytes.getD element 0 ≠ 0 then
      [(element : Int), (element : Int) + 1] ++
        (if text_node.bytes.getD (element + 1) 0 ≠ 0 then [(element : Int), (element : Int) + 1]
          else [])
      else [(element : Int)]) ++
      init_stats_loop_indices text_node k (element + 1)

/-- The offsets `init_stats` reads in the array of the word. -/
def init_stats_indices (text_node : text_chunk_node) : List Int :=
  init_stats_loop_indices text_node text_node.num_elements 0

/-- The adjacent pairs of a symbol sequence, left to right. -/
def word_pairs : List Nat → List (Nat × Nat)
  | x :: y :: rest => (x, y) :: word_pairs (y :: rest)
  | _ => []

/-- The adjacent pairs of a word map in the order `build_bigram_table` meets
them: word by word in the order of the map, left to right inside a word. -/
def input_pairs (words : List (List Nat × Nat)) : List (Nat × Nat) :=
  (words.map (fun w => word_pairs w.1)).flatten

/-- The pair `p` is met before the pair `q` in the sequence `seq`: `p` occurs
at a place before which `q` does not occur. -/
def met_before (seq : List (Nat × Nat)) (p q : Nat × Nat) : Prop :=
  ∃ l1 l2, seq = l1 ++ p :: l2 ∧ q ∉ l1

/-- The chains of the pair index after the calls of `update_bigram_table` for
the pairs of `seq`, in that order: a chain holds the pairs of `seq` that hash
to its bucket, each once, in the order in which they were first met (a new node
is appended at the end of its chain). -/
def chain_order (seq : List (Nat × Nat)) (tbl : bigram_table) : Prop :=
  ∀ h : Nat,
    ((bucket_get tbl h).map node_key).Pairwise (met_before seq) ∧
    (∀ k ∈ (bucket_get tbl h).map node_key, k ∈ seq) ∧
    ∀ k ∈ seq, hash_text k.1 k.2 = h → k ∈ (bucket_get tbl h).map node_key

/-- Words the records of `train` can hold: NUL-free byte strings whose array
size `2 * (length + 1)` fits the `unsigned short size` of `train` (at most
32766 bytes). The counts are free. -/
def nul_free_words (words : List (List Nat × Nat)) : Prop :=
  ∀ w ∈ words, (∀ b ∈ w.1, 1 ≤ b ∧ b ≤ 255) ∧ w.1.length ≤ 32766

/-- The part of the invariant of the merge loop that holds whatever the stored
frequencies are, after `k` steps, with `ws` the corpus the word table holds:
the records are well formed and hold symbols below the next token id, no entry
of the pair index has a NUL second symbol, and once a step has been made the
last winner has a non-zero second symbol, has no occurrence left in any word
and is recorded as the last token. -/
structure run_inv (k : Nat) (s : train_state) (ws : List (List Nat × Nat)) : Prop where
  token_idx : s.token_idx = 256 + k
  repr : table_repr s.text_table ws
  wf : table_wf s.tbl
  range : table_range s.tbl
  symbols : ∀ w ∈ ws, ∀ x ∈ w.1, x ≠ 0 ∧ x < 256 + k
  keys : ∀ x y, (find_node s.tbl x y).isSome = true → y ≠ 0
  started : s.max_node.in_table = true → 1 ≤ k
  second : 1 ≤ k → s.max_node.bigram1 ≠ 0
  gone : 1 ≤ k → ∀ w ∈ ws, pair_count s.max_node.bigram0 s.max_node.bigram1 w.1 = 0
  last : 1 ≤ k →
    s.tt (256 + k - 1) =
      some { token0 := s.max_node.bigram0, token1 := s.max_node.bigram1 }

/-! ## Theorems -/

theorem walk_null (p : List Nat) : walk trie_node.null p = trie_node.null := by
  cases p <;> rfl

theorem trie_get_null (p : List Nat) : trie_get trie_node.null p = -1 := by
  simp [trie_get, walk_null, node_token_id]

theorem trie_get_create_node (p : List Nat) : trie_get create_node p = -1 := by
  cases p with
  | nil => rfl
  | cons b rest => simp [trie_get, create_node, walk, walk_null, node_token_id]

theorem trie_get_cons (children : Nat → trie_node) (tid : Int) (b : Nat) (rest : List Nat) :
    trie_get (trie_node.node children tid) (b :: rest) = trie_get (children b) rest := by
  simp [trie_get, walk]

theorem insert_node_ne_null (children : Nat → trie_node) (tid : Int) (key : List Nat) (id : Int) :
    insert_node (trie_node.node children tid) key id ≠ trie_node.null := by
  cases key <;> simp [insert_node]

/-- Reading a trie after one insertion: the inserted key holds the new id and
every other path holds what it held before. -/
theorem trie_get_insert_node (key : List Nat) (id : Int) :
    ∀ (children : Nat → trie_node) (tid : Int) (p : List Nat),
      trie_get (insert_node (trie_node.node children tid) key id) p =
        if p = key then id else trie_get (trie_node.node children tid) p := by
  induction key with
  | nil =>
    intro children tid p
    cases p with
    | nil => simp [insert_node, trie_get, walk, node_token_id]
    | cons c q => simp [insert_node, trie_get, walk]
  | cons b rest ih =>
    intro children tid p
    cases p with
    | nil => simp [insert_node, trie_get, walk, node_token_id]
    | cons c q =>
      simp only [insert_node, trie_get_cons]
      by_cases hc : c = b
      · subst hc
        simp only [if_true, List.cons.injEq, true_and]
        cases hch : children c with
        | null =>
          simp only [create_node]
          rw [ih]
          have hc := trie_get_create_node q
          simp only [create_node] at hc
          rw [hc, trie_get_null]
        | node ch2 t2 =>
          simp only []
          rw [ih]
      · simp [hc]

theorem insert_node_is_node (children : Nat → trie_node) (tid : Int) (key : List Nat) (id : Int) :
    ∃ c t, insert_node (trie_node.node children tid) key id = trie_node.node c t := by
  cases key with
  | nil => exact ⟨children, id, rfl⟩
  | cons b rest => exact ⟨_, _, rfl⟩

theorem trie_get_foldl_insert (decode_dict : List (Int × List Nat)) (p : List Nat) :
    ∀ (children : Nat → trie_node) (tid : Int),
      trie_get (decode_dict.foldl (fun trie e => insert_trie trie e.2 e.1)
          (trie_node.node children tid)) p =
        (key_id decode_dict p).getD (trie_get (trie_node.node children tid) p) := by
  induction decode_dict with
  | nil => intro children tid; rfl
  | cons e rest ih =>
    intro children tid
    obtain ⟨c, t, hct⟩ := insert_node_is_node children tid e.2 e.1
    simp only [List.foldl_cons, insert_trie, hct]
    have h := ih c t
    simp only [insert_trie] at h
    rw [h, ← hct, trie_get_insert_node]
    cases hk : key_id rest p with
    | some v => simp [key_id, hk]
    | none =>
      by_cases hp : p = e.2
      · subst hp; simp [key_id, hk]
      · have hp2 : ¬ e.2 = p := fun h => hp h.symm
        simp [key_id, hk, hp, hp2]

/-- The trie `insert_all` returns, read as a map: a path holds the id of the
last call with these bytes, and `-1` when there is none. -/
theorem trie_get_insert_all (decode_dict : List (Int × List Nat)) (p : List Nat) :
    trie_get (insert_all decode_dict) p = (key_id decode_dict p).getD (-1) := by
  have h := trie_get_foldl_insert decode_dict p (fun _ => trie_node.null) (-1)
  have hc := trie_get_create_node p
  simp only [create_node] at hc
  rw [hc] at h
  exact h

theorem insert_all_is_node (decode_dict : List (Int × List Nat)) :
    ∃ c t, insert_all decode_dict = trie_node.node c t := by
  have : ∀ (l : List (Int × List Nat)) (c : Nat → trie_node) (t : Int),
      ∃ c2 t2, l.foldl (fun trie e => insert_trie trie e.2 e.1) (trie_node.node c t) =
        trie_node.node c2 t2 := by
    intro l
    induction l with
    | nil => intro c t; exact ⟨c, t, rfl⟩
    | cons e rest ih =>
      intro c t
      obtain ⟨c1, t1, h1⟩ := insert_node_is_node c t e.2 e.1
      simp only [List.foldl_cons, insert_trie, h1]
      exact ih c1 t1
  exact this decode_dict _ _

/-- What `search_loop` returns from a node: either no prefix of the remaining
text ends on a terminal and the carried best is returned, or the longest such
prefix, of length `k`, decides the result. -/
theorem search_loop_spec (text : List Nat) :
    ∀ (n : trie_node) (ml : Nat) (last : Int) (ll : Nat),
      (search_loop n text ml last ll = (last, ll) ∧
        ∀ j, 1 ≤ j → j ≤ text.length → trie_get n (text.take j) = -1) ∨
      (∃ k, 1 ≤ k ∧ k ≤ text.length ∧ trie_get n (text.take k) ≠ -1 ∧
        search_loop n text ml last ll = (trie_get n (text.take k), ml + k) ∧
        ∀ j, k < j → j ≤ text.length → trie_get n (text.take j) = -1) := by
  induction text with
  | nil =>
    intro n ml last ll
    left
    refine ⟨by cases n <;> rfl, ?_⟩
    intro j h1 h2
    simp at h2
    omega
  | cons b rest ih =>
    intro n ml last ll
    cases n with
    | null =>
      left
      refine ⟨rfl, ?_⟩
      intro j _ _
      exact trie_get_null _
    | node children tid =>
      cases hch : children b with
      | null =>
        left
        refine ⟨by simp [search_loop, hch], ?_⟩
        intro j h1 _
        obtain ⟨j', rfl⟩ : ∃ j', j = j' + 1 := ⟨j - 1, by omega⟩
        simp [List.take_succ_cons, trie_get_cons, hch, trie_get_null]
      | node c t =>
        have hget : ∀ j, trie_get (trie_node.node children tid) ((b :: rest).take (j + 1)) =
            trie_get (trie_node.node c t) (rest.take j) := by
          intro j
          simp [List.take_succ_cons, trie_get_cons, hch]
        have hroot : trie_get (trie_node.node c t) (rest.take 0) = t := by
          simp [trie_get, walk, node_token_id]
        by_cases ht : t = -1
        · have hs : search_loop (trie_node.node children tid) (b :: rest) ml last ll =
              search_loop (trie_node.node c t) rest (ml + 1) last ll := by
            simp [search_loop, hch, ht]
          rcases ih (trie_node.node c t) (ml + 1) last ll with ⟨h1, h2⟩ | ⟨k, hk1, hk2, hk3, hk4, hk5⟩
          · left
            refine ⟨by rw [hs, h1], ?_⟩
            intro j hj1 hj2
            obtain ⟨j', rfl⟩ : ∃ j', j = j' + 1 := ⟨j - 1, by omega⟩
            rw [hget]
            by_cases hj0 : j' = 0
            · subst hj0; rw [hroot]; exact ht
            · exact h2 j' (by omega) (by simpa using hj2)
          · right
            refine ⟨k + 1, by omega, by simpa using hk2, by rw [hget]; exact hk3, ?_, ?_⟩
            · rw [hs, hk4, hget]
              congr 1
              omega
            · intro j hj1 hj2
              obtain ⟨j', rfl⟩ : ∃ j', j = j' + 1 := ⟨j - 1, by omega⟩
              rw [hget]
              exact hk5 j' (by omega) (by simpa using hj2)
        · have hs : search_loop (trie_node.node children tid) (b :: rest) ml last ll =
              search_loop (trie_node.node c t) rest (ml + 1) t (ml + 1) := by
            simp [search_loop, hch, ht]
          right
          rcases ih (trie_node.node c t) (ml + 1) t (ml + 1) with
            ⟨h1, h2⟩ | ⟨k, hk1, hk2, hk3, hk4, hk5⟩
          · refine ⟨1, le_refl _, by simp, by rw [hget, hroot]; exact ht, ?_, ?_⟩
            · rw [hs, h1, hget, hroot]
            · intro j hj1 hj2
              obtain ⟨j', rfl⟩ : ∃ j', j = j' + 1 := ⟨j - 1, by omega⟩
              rw [hget]
              exact h2 j' (by omega) (by simpa using hj2)
          · refine ⟨k + 1, by omega, by simpa using hk2, by rw [hget]; exact hk3, ?_, ?_⟩
            · rw [hs, hk4, hget]
              congr 1
              omega
            · intro j hj1 hj2
              obtain ⟨j', rfl⟩ : ∃ j', j = j' + 1 := ⟨j - 1, by omega⟩
              rw [hget]
              exact hk5 j' (by omega) (by simpa using hj2)

/-- The result of `search_trie` in terms of the ids stored along the text. -/
theorem search_trie_spec (n : trie_node) (text : List Nat) :
    (search_trie n text = (-1, 0) ∧
      ∀ j, 1 ≤ j → j ≤ text.length → trie_get n (text.take j) = -1) ∨
    (∃ k, 1 ≤ k ∧ k ≤ text.length ∧ trie_get n (text.take k) ≠ -1 ∧
      search_trie n text = (trie_get n (text.take k), k) ∧
      ∀ j, k < j → j ≤ text.length → trie_get n (text.take j) = -1) := by
  rcases search_loop_spec text n 0 (-1) 0 with h | ⟨k, h1, h2, h3, h4, h5⟩
  · exact Or.inl h
  · exact Or.inr ⟨k, h1, h2, h3, by simpa [search_trie] using h4, h5⟩

theorem key_id_mem (decode_dict : List (Int × List Nat)) (p : List Nat) (id : Int)
    (h : key_id decode_dict p = some id) : (id, p) ∈ decode_dict := by
  induction decode_dict with
  | nil => simp [key_id] at h
  | cons e rest ih =>
    cases hk : key_id rest p with
    | some v =>
      simp only [key_id, hk, Option.some.injEq] at h
      subst h
      exact List.mem_cons_of_mem _ (ih hk)
    | none =>
      simp only [key_id, hk] at h
      by_cases he : e.2 = p
      · simp only [he, if_true, Option.some.injEq] at h
        have : e = (id, p) := Prod.ext h he
        rw [this]
        exact List.mem_cons_self _ _
      · simp [he] at h

theorem key_id_none (decode_dict : List (Int × List Nat)) (p : List Nat)
    (h : key_id decode_dict p = none) : ∀ e ∈ decode_dict, e.2 ≠ p := by
  induction decode_dict with
  | nil => simp
  | cons e rest ih =>
    cases hk : key_id rest p with
    | some v => simp [key_id, hk] at h
    | none =>
      simp only [key_id, hk] at h
      intro x hx
      rcases List.mem_cons.1 hx with rfl | hx
      · intro hxp
        simp [hxp] at h
      · exact ih hk x hx

theorem dict_get_of_mem (decode_dict : List (Int × List Nat))
    (hnodup : (decode_dict.map Prod.fst).Nodup) (id : Int) (p : List Nat)
    (h : (id, p) ∈ decode_dict) : dict_get decode_dict id = some p := by
  induction decode_dict with
  | nil => simp at h
  | cons e rest ih =>
    simp only [List.map_cons, List.nodup_cons] at hnodup
    rcases List.mem_cons.1 h with h | h
    · subst h
      simp [dict_get]
    · have hne : e.1 ≠ id := by
        intro he
        apply hnodup.1
        rw [he]
        exact List.mem_map.2 ⟨(id, p), h, rfl⟩
      have := ih hnodup.2 h
      simp only [dict_get] at this ⊢
      simp [List.find?_cons, hne, this]

/-- Enough fuel always ends the chunk loop: every pass consumes at least one
byte. -/
theorem encode_loop_some (trie : trie_node) :
    ∀ (fuel : Nat) (text : List Nat), text.length ≤ fuel →
      ∃ ids, encode_loop trie fuel text = some ids := by
  intro fuel
  induction fuel with
  | zero =>
    intro text h
    cases text with
    | nil => exact ⟨[], rfl⟩
    | cons b rest => simp at h
  | succ fuel ih =>
    intro text h
    cases text with
    | nil => exact ⟨[], rfl⟩
    | cons b rest =>
      simp only [List.length_cons] at h
      rcases search_trie_spec trie (b :: rest) with ⟨hs, _⟩ | ⟨k, hk1, hk2, hk3, hs, _⟩
      · obtain ⟨ids, hids⟩ := ih rest (by omega)
        exact ⟨(b : Int) :: ids, by simp [encode_loop, hs, hids]⟩
      · obtain ⟨ids, hids⟩ := ih ((b :: rest).drop k) (by
          simp only [List.length_drop, List.length_cons] at hk2 ⊢
          omega)
        refine ⟨trie_get trie ((b :: rest).take k) :: ids, ?_⟩
        simp only [encode_loop, hs, hids]
        simp [hk3]

theorem encode_loop_round_trip (decode_dict : List (Int × List Nat))
    (hnodup : (decode_dict.map Prod.fst).Nodup)
    (hbase : ∀ b : Nat, b < 256 → dict_get decode_dict (b : Int) = some [b]) :
    ∀ (fuel : Nat) (text : List Nat), text.length ≤ fuel → (∀ b ∈ text, b < 256) →
      ∃ ids, encode_loop (insert_all decode_dict) fuel text = some ids ∧
        decode decode_dict ids = some text := by
  intro fuel
  induction fuel with
  | zero =>
    intro text h _
    cases text with
    | nil => exact ⟨[], rfl, rfl⟩
    | cons b rest => simp at h
  | succ fuel ih =>
    intro text h hb
    cases text with
    | nil => exact ⟨[], rfl, rfl⟩
    | cons b rest =>
      simp only [List.length_cons] at h
      rcases search_trie_spec (insert_all decode_dict) (b :: rest) with
        ⟨hs, _⟩ | ⟨k, hk1, hk2, hk3, hs, _⟩
      · obtain ⟨ids, hids, hdec⟩ := ih rest (by omega)
          (fun x hx => hb x (List.mem_cons_of_mem _ hx))
        refine ⟨(b : Int) :: ids, by simp [encode_loop, hs, hids], ?_⟩
        simp [decode, hbase b (hb b (List.mem_cons_self _ _)), hdec]
      · obtain ⟨ids, hids, hdec⟩ := ih ((b :: rest).drop k) (by
          simp only [List.length_drop, List.length_cons] at hk2 ⊢
          omega) (fun x hx => hb x (List.mem_of_mem_drop hx))
        refine ⟨trie_get (insert_all decode_dict) ((b :: rest).take k) :: ids, ?_, ?_⟩
        · simp only [encode_loop, hs, hids]
          simp [hk3]
        · rw [trie_get_insert_all] at hk3 ⊢
          cases hkid : key_id decode_dict ((b :: rest).take k) with
          | none => simp [hkid] at hk3
          | some v =>
            have hmem := key_id_mem _ _ _ hkid
            have hget := dict_get_of_mem decode_dict hnodup _ _ hmem
            simp only [Option.getD_some, decode, hget, hdec]
            rw [List.take_append_drop]

theorem wrap_int32_of_range (x : Int) (h1 : -2147483648 ≤ x) (h2 : x < 2147483648) :
    wrap_int32 x = x := by
  unfold wrap_int32
  omega

theorem wrap_int32_range (x : Int) :
    -2147483648 ≤ wrap_int32 x ∧ wrap_int32 x < 2147483648 := by
  unfold wrap_int32
  omega

theorem PyLong_AsLong_of_range (v : Int) (h1 : -9223372036854775808 ≤ v)
    (h2 : v < 9223372036854775808) : PyLong_AsLong v = v := by
  simp [PyLong_AsLong, h1, h2]

/-- Source `build_trie` is the insert sequence of the dictionary entries with their
ids narrowed. -/
theorem build_trie_eq_map (decode_dict : List (Int × List Nat)) :
    build_trie decode_dict =
      insert_all (decode_dict.map (fun e => (wrap_int32 (PyLong_AsLong e.1), e.2))) := by
  simp [build_trie, insert_all, List.foldl_map]

/-- Ids in the range of a 32-bit `int` reach `insert_trie` unchanged. -/
theorem build_trie_eq_insert_all (decode_dict : List (Int × List Nat))
    (h : ∀ e ∈ decode_dict, -2147483648 ≤ e.1 ∧ e.1 < 2147483648) :
    build_trie decode_dict = insert_all decode_dict := by
  rw [build_trie_eq_map]
  congr 1
  conv_rhs => rw [← List.map_id decode_dict]
  apply List.map_congr_left
  intro e he
  obtain ⟨h1, h2⟩ := h e he
  rw [PyLong_AsLong_of_range _ (by omega) (by omega), wrap_int32_of_range _ h1 h2]
  rfl

theorem trie_get_eq_neg_one_iff (ins : List (Int × List Nat)) (hids : ∀ e ∈ ins, e.1 ≠ -1)
    (p : List Nat) : trie_get (insert_all ins) p = -1 ↔ key_id ins p = none := by
  rw [trie_get_insert_all]
  cases hk : key_id ins p with
  | none => simp
  | some v =>
    have := hids _ (key_id_mem _ _ _ hk)
    simp at this
    simp [this]

theorem key_id_of_trie_get (ins : List (Int × List Nat)) (p : List Nat)
    (h : trie_get (insert_all ins) p ≠ -1) :
    key_id ins p = some (trie_get (insert_all ins) p) := by
  rw [trie_get_insert_all] at h ⊢
  cases hk : key_id ins p with
  | none => simp [hk] at h
  | some v => simp

theorem snd_unique_of_nodup_fst (l : List (Int × List Nat)) (h : (l.map Prod.fst).Nodup)
    (i : Int) (a b : List Nat) (ha : (i, a) ∈ l) (hb : (i, b) ∈ l) : a = b := by
  have h1 := dict_get_of_mem l h i a ha
  have h2 := dict_get_of_mem l h i b hb
  rw [h1] at h2
  exact Option.some.inj h2

theorem base_dict_fst_nodup : (s4_dict.map Prod.fst).Nodup := by
  have h1 : s4_dict.map Prod.fst = (List.range 256).map (fun b : Nat => (b : Int)) ++ [256, 257] := by
    simp [s4_dict, base_dict, Function.comp_def]
  rw [h1, List.nodup_append]
  refine ⟨(List.nodup_range 256).map Nat.cast_injective, by decide, ?_⟩
  intro x hx hx2
  obtain ⟨b, hb, rfl⟩ := List.mem_map.1 hx
  have hb := List.mem_range.1 hb
  simp at hx2
  omega

theorem s4_dict_base (b : Nat) (hb : b < 256) : dict_get s4_dict (b : Int) = some [b] := by
  apply dict_get_of_mem _ base_dict_fst_nodup
  exact List.mem_append_left _ (List.mem_map.2 ⟨b, List.mem_range.2 hb, rfl⟩)

theorem s4_dict_ids (e : Int × List Nat) (he : e ∈ s4_dict) : e.1 ≠ -1 := by
  rcases List.mem_append.1 he with h | h
  · obtain ⟨b, _, rfl⟩ := List.mem_map.1 h
    simp
  · simp at h
    rcases h with rfl | rfl <;> decide

theorem s4_dict_range (e : Int × List Nat) (he : e ∈ s4_dict) :
    -2147483648 ≤ e.1 ∧ e.1 < 2147483648 := by
  rcases List.mem_append.1 he with h | h
  · obtain ⟨b, hb, rfl⟩ := List.mem_map.1 h
    have := List.mem_range.1 hb
    simp only
    omega
  · simp at h
    rcases h with rfl | rfl <;> decide

/-- C1 (round trip), as amended. For a decode dictionary with pairwise distinct
ids, all in the range -2^31 .. 2^31 - 1 of the `int token_id` of `build_trie`,
that maps every base byte `b` in 0..255 to `[b]`, and every byte string `s`,
the length-explicit encoder run on the trie `build_trie` makes from the
dictionary returns a list of ids, and concatenating `decode_dict[id]` over it
gives `s`. -/
theorem encode_decode_round_trip (decode_dict : List (Int × List Nat))
    (hnodup : (decode_dict.map Prod.fst).Nodup)
    (hrange : ∀ e ∈ decode_dict, -2147483648 ≤ e.1 ∧ e.1 < 2147483648)
    (hbase : ∀ b : Nat, b < 256 → dict_get decode_dict (b : Int) = some [b])
    (s : List Nat) (hs : ∀ b ∈ s, b < 256) :
    ∃ ids, encode_train (build_trie decode_dict) [s] = some ids ∧
      decode decode_dict ids = some s := by
  obtain ⟨ids, h1, h2⟩ :=
    encode_loop_round_trip decode_dict hnodup hbase s.length s (le_refl _) hs
  refine ⟨ids, ?_, h2⟩
  rw [build_trie_eq_insert_all decode_dict hrange]
  simp [encode_train, encode_chunks, encode_train_chunk, h1]

theorem encode_decode_round_trip_witness :
    (s4_dict.map Prod.fst).Nodup ∧
    (∀ e ∈ s4_dict, -2147483648 ≤ e.1 ∧ e.1 < 2147483648) ∧
    (∀ b : Nat, b < 256 → dict_get s4_dict (b : Int) = some [b]) ∧
    (∀ b ∈ [97, 98, 99, 97, 98], b < 256) ∧
    ∃ ids, encode_train (build_trie s4_dict) [[97, 98, 99, 97, 98]] = some ids ∧
      decode s4_dict ids = some [97, 98, 99, 97, 98] :=
  ⟨base_dict_fst_nodup, s4_dict_range, s4_dict_base, by decide,
    encode_decode_round_trip s4_dict base_dict_fst_nodup s4_dict_range s4_dict_base
      [97, 98, 99, 97, 98] (by decide)⟩

theorem wide_dict_fst_nodup :
    ((base_dict ++ [((4294967393 : Int), [122, 122])]).map Prod.fst).Nodup := by
  have h1 : (base_dict ++ [((4294967393 : Int), [122, 122])]).map Prod.fst =
      (List.range 256).map (fun b : Nat => (b : Int)) ++ [4294967393] := by
    simp [base_dict, Function.comp_def]
  rw [h1, List.nodup_append]
  refine ⟨(List.nodup_range 256).map Nat.cast_injective, by decide, ?_⟩
  intro x hx hx2
  obtain ⟨b, hb, rfl⟩ := List.mem_map.1 hx
  have hb := List.mem_range.1 hb
  simp at hx2
  omega

set_option maxRecDepth 100000 in
/-- C1, the claim as written fails for an id outside the range of `int`. The
dictionary of the 256 base bytes plus `4294967393 -> "zz"` has pairwise
distinct ids and maps every base byte to itself; `build_trie` narrows the id
4294967393 to 97, so "zz" is encoded as `[97]`, which decodes to "a". -/
theorem round_trip_fails_on_wide_id :
    ((base_dict ++ [((4294967393 : Int), [122, 122])]).map Prod.fst).Nodup ∧
    (∀ b : Nat, b < 256 →
      dict_get (base_dict ++ [((4294967393 : Int), [122, 122])]) (b : Int) = some [b]) ∧
    encode_train (build_trie (base_dict ++ [((4294967393 : Int), [122, 122])])) [[122, 122]] =
      some [97] ∧
    decode (base_dict ++ [((4294967393 : Int), [122, 122])]) [97] = some [97] ∧
    ([97] : List Nat) ≠ [122, 122] := by
  refine ⟨wide_dict_fst_nodup, ?_, by decide, by decide, by decide⟩
  intro b hb
  apply dict_get_of_mem _ wide_dict_fst_nodup
  exact List.mem_append_left _ (List.mem_map.2 ⟨b, List.mem_range.2 hb, rfl⟩)

set_option maxRecDepth 100000 in
/-- C2 (longest match), as amended. For a trie built by `insert_trie` calls
(`insert_all`) with ids other than -1 and every text: `search_trie` returns `(-1, 0)` exactly when
no non-empty prefix of the text is an inserted key, and otherwise `(id, k)`
with `k` the largest length in `1..text_length` whose prefix is an inserted key
and `id` that key's id. When the trie holds `p` and `p ++ q` with `q` non-empty,
the first token of `p ++ q ++ tail` is the id of a key of at least
`len (p ++ q)` bytes; it differs from the id of `p` when the inserted ids are
pairwise distinct. S4: "abcab" encodes to `[257, 256]`. -/
theorem search_trie_longest_match (ins : List (Int × List Nat))
    (hids : ∀ e ∈ ins, e.1 ≠ -1) (text : List Nat) :
    ((search_trie (insert_all ins) text = (-1, 0) ↔
        ∀ k, 1 ≤ k → k ≤ text.length → key_id ins (text.take k) = none) ∧
      (search_trie (insert_all ins) text = (-1, 0) ∨
        ∃ id k, search_trie (insert_all ins) text = (id, k) ∧ id ≠ -1 ∧ 1 ≤ k ∧
          k ≤ text.length ∧ key_id ins (text.take k) = some id ∧
          ∀ j, k < j → j ≤ text.length → key_id ins (text.take j) = none)) ∧
    (∀ p q tail idp, text = p ++ q ++ tail → key_id ins p = some idp →
      (key_id ins (p ++ q)).isSome → q ≠ [] →
      ∃ id rest k, encode_train_chunk (insert_all ins) text = some (id :: rest) ∧
        (p ++ q).length ≤ k ∧ k ≤ text.length ∧ key_id ins (text.take k) = some id ∧
        ((ins.map Prod.fst).Nodup → id ≠ idp)) ∧
    encode_inference (build_trie s4_dict) [[97, 98, 99, 97, 98]] = some [257, 256] := by
  have hspec := search_trie_spec (insert_all ins) text
  have key : ∀ p, trie_get (insert_all ins) p = -1 ↔ key_id ins p = none :=
    trie_get_eq_neg_one_iff ins hids
  refine ⟨⟨?_, ?_⟩, ?_, by decide⟩
  · rcases hspec with ⟨hs, hall⟩ | ⟨k, hk1, hk2, hk3, hs, hall⟩
    · refine ⟨fun _ j hj1 hj2 => (key _).1 (hall j hj1 hj2), fun _ => hs⟩
    · constructor
      · intro h
        rw [hs] at h
        have := (Prod.ext_iff.1 h).2
        simp at this
        omega
      · intro h
        exact absurd ((key _).2 (h k hk1 hk2)) hk3
  · rcases hspec with ⟨hs, _⟩ | ⟨k, hk1, hk2, hk3, hs, hall⟩
    · exact Or.inl hs
    · right
      exact ⟨_, k, hs, hk3, hk1, hk2, key_id_of_trie_get ins _ hk3,
        fun j hj1 hj2 => (key _).1 (hall j hj1 hj2)⟩
  · intro p q tail idp htext hp hpq hq
    have hqlen : 0 < q.length := List.length_pos.2 hq
    have hlen : (p ++ q).length ≤ text.length := by
      rw [htext]; simp
    have htake : text.take (p ++ q).length = p ++ q := by
      rw [htext, List.append_assoc p q tail, ← List.append_assoc p q tail]
      exact List.take_left' rfl
    have hpqne : trie_get (insert_all ins) (text.take (p ++ q).length) ≠ -1 := by
      rw [htake]
      intro h
      rw [(key _).1 h] at hpq
      simp at hpq
    have hpos : 1 ≤ (p ++ q).length := by simp; omega
    rcases hspec with ⟨_, hall⟩ | ⟨k, hk1, hk2, hk3, hs, hall⟩
    · exact absurd (hall _ hpos hlen) hpqne
    · have hk : (p ++ q).length ≤ k := by
        by_contra hlt
        exact hpqne (hall _ (by omega) hlen)
      cases htx : text with
      | nil => rw [htx] at hk2; simp at hk2; omega
      | cons b rest =>
        obtain ⟨ids, hids2⟩ := encode_loop_some (insert_all ins) rest.length
          ((b :: rest).drop k) (by simp only [List.length_drop, List.length_cons]; omega)
        rw [htx] at hs hk3
        refine ⟨trie_get (insert_all ins) ((b :: rest).take k), ids, k, ?_, hk, ?_, ?_, ?_⟩
        · simp only [encode_train_chunk, List.length_cons, encode_loop, hs, hids2]
          simp [hk3]
        · rw [← htx]; exact hk2
        · exact key_id_of_trie_get ins _ hk3
        · intro hnodup heq
          have h1 := key_id_mem _ _ _ (key_id_of_trie_get ins _ hk3)
          have h2 := key_id_mem _ _ _ hp
          rw [heq] at h1
          have h3 := snd_unique_of_nodup_fst ins hnodup _ _ _ h1 h2
          have h4 : ((b :: rest).take k).length = k := by
            rw [List.length_take]
            rw [htx] at hk2
            omega
          rw [h3] at h4
          simp at hk
          omega

set_option maxRecDepth 100000 in
theorem search_trie_longest_match_witness :
    (∀ e ∈ s4_dict, e.1 ≠ -1) ∧
    ∃ id rest k, encode_train_chunk (insert_all s4_dict) [97, 98, 99, 97, 98] = some (id :: rest) ∧
      ([97, 98] ++ [99]).length ≤ k ∧ k ≤ [97, 98, 99, 97, 98].length ∧
      key_id s4_dict ([97, 98, 99, 97, 98].take k) = some id ∧
      ((s4_dict.map Prod.fst).Nodup → id ≠ 256) :=
  ⟨s4_dict_ids,
    (search_trie_longest_match s4_dict s4_dict_ids [97, 98, 99, 97, 98]).2.1
      [97, 98] [99] [97, 98] 256 (by decide) (by decide) (by decide) (by decide)⟩

/-- C2, the claim as written fails when two keys carry one id: after
`insert_trie("a", 5)` and `insert_trie("ab", 5)` the trie holds `p = "a"` and
`p ++ q = "ab"`, and the first (and only) token emitted for "ab" is 5, the id
of `p`. -/
theorem search_trie_first_token_shared_id :
    (∀ e ∈ [((5 : Int), [97]), (5, [97, 98])], e.1 ≠ -1) ∧
    key_id [(5, [97]), (5, [97, 98])] [97] = some 5 ∧
    key_id [(5, [97]), (5, [97, 98])] ([97] ++ [98]) = some 5 ∧
    search_trie (build_trie [(5, [97]), (5, [97, 98])]) ([97] ++ [98] ++ []) = (5, 2) ∧
    encode_train_chunk (build_trie [(5, [97]), (5, [97, 98])]) ([97] ++ [98] ++ []) = some [5] ∧
    encode_inference (build_trie [(5, [97]), (5, [97, 98])]) [[97] ++ [98] ++ []] = some [5] := by
  decide

theorem strlen_of_nul_free (text : List Nat) (h : ∀ b ∈ text, b ≠ 0) :
    strlen text = text.length := by
  unfold strlen
  congr 1
  rw [List.takeWhile_eq_self_iff]
  intro b hb
  simpa using h b hb

/-- On chunks without a NUL byte `strlen` is the explicit length, so both
encoders run the same loop on the same bytes. -/
theorem encode_forms_agree_nul_free (trie : trie_node) (chunks : List (List Nat))
    (h : ∀ c ∈ chunks, ∀ b ∈ c, b ≠ 0) :
    encode_inference trie chunks = encode_train trie chunks := by
  induction chunks with
  | nil => rfl
  | cons c cs ih =>
    have hc : encode_inference_chunk trie c = encode_train_chunk trie c := by
      simp only [encode_inference_chunk, encode_train_chunk,
        strlen_of_nul_free c (h c (List.mem_cons_self _ _)), List.take_length]
    have ih2 := ih (fun c2 hc2 => h c2 (List.mem_cons_of_mem _ hc2))
    simp only [encode_inference, encode_train] at ih2 ⊢
    simp only [encode_chunks, hc, ih2]

/-- C7: the two encoders differ on a chunk with an embedded NUL byte. For the
chunk "a\0b" `encode_train` (explicit length 3) emits `[97, 0, 98]`, while
`encode_inference` (length from `strlen`, which is 1) emits `[97]`. -/
theorem encode_forms_differ_on_nul :
    encode_train (build_trie [(97, [97]), (98, [98])]) [[97, 0, 98]] = some [97, 0, 98] ∧
    encode_inference (build_trie [(97, [97]), (98, [98])]) [[97, 0, 98]] = some [97] := by
  decide

theorem single_byte_dict_key (bs : List Nat) (p : List Nat) (id : Int)
    (h : key_id (bs.map (fun b : Nat => ((b : Int), [b]))) p = some id) :
    ∃ b ∈ bs, id = (b : Int) ∧ p = [b] := by
  have hm := key_id_mem _ _ _ h
  obtain ⟨b, hb, heq⟩ := List.mem_map.1 hm
  simp only [Prod.mk.injEq] at heq
  exact ⟨b, hb, heq.1.symm, heq.2.symm⟩

theorem single_byte_search (bs : List Nat) (b : Nat) (rest : List Nat) :
    (b ∈ bs → search_trie (insert_all (bs.map (fun b : Nat => ((b : Int), [b])))) (b :: rest) =
      ((b : Int), 1)) ∧
    (b ∉ bs → search_trie (insert_all (bs.map (fun b : Nat => ((b : Int), [b])))) (b :: rest) =
      (-1, 0)) := by
  have hids : ∀ e ∈ bs.map (fun b : Nat => ((b : Int), [b])), e.1 ≠ -1 := by
    intro e he
    obtain ⟨x, _, rfl⟩ := List.mem_map.1 he
    simp
  have key := trie_get_eq_neg_one_iff _ hids
  rcases search_trie_spec (insert_all (bs.map (fun b : Nat => ((b : Int), [b])))) (b :: rest) with
    ⟨hs, hall⟩ | ⟨k, hk1, hk2, hk3, hs, _⟩
  · refine ⟨fun hb => ?_, fun _ => hs⟩
    have h1 := (key _).1 (hall 1 (le_refl _) (by simp))
    have h2 := key_id_none _ _ h1 ((b : Int), [b]) (List.mem_map.2 ⟨b, hb, rfl⟩)
    simp at h2
  · have hk := key_id_of_trie_get _ _ hk3
    obtain ⟨x, hx, hid, hp⟩ := single_byte_dict_key bs _ _ hk
    have hlen : ((b :: rest).take k).length = 1 := by rw [hp]; rfl
    have hk1' : k = 1 := by
      rw [List.length_take] at hlen
      omega
    subst hk1'
    simp only [List.take_succ_cons, List.take_zero, List.cons.injEq, and_true] at hp
    subst hp
    rw [hid] at hs
    refine ⟨fun _ => hs, fun hnb => absurd hx hnb⟩

theorem single_byte_encode_loop (bs : List Nat) :
    ∀ (fuel : Nat) (text : List Nat), text.length ≤ fuel →
      encode_loop (insert_all (bs.map (fun b : Nat => ((b : Int), [b])))) fuel text =
        some (text.map (fun b : Nat => (b : Int))) := by
  intro fuel
  induction fuel with
  | zero =>
    intro text h
    cases text with
    | nil => rfl
    | cons b rest => simp at h
  | succ fuel ih =>
    intro text h
    cases text with
    | nil => rfl
    | cons b rest =>
      simp only [List.length_cons] at h
      have hrest := ih rest (by omega)
      by_cases hb : b ∈ bs
      · have hs := (single_byte_search bs b rest).1 hb
        simp only [encode_loop, hs]
        have : ((b : Int) ≠ -1) := by omega
        simp [this, hrest]
      · have hs := (single_byte_search bs b rest).2 hb
        simp [encode_loop, hs, hrest]

/-- C10 (single-byte fallback). For a trie whose only keys are single-byte
strings `[b]` carrying id `b` (any list of bytes 1..255, also the empty one)
and every NUL-free chunk, both encoders emit exactly the chunk's byte values in
order, one id per byte: a byte with a key is matched with length 1, a byte
without one makes `search_trie` return `(-1, 0)` and is emitted as its own
value. S5: the trie of `{97: "a"}` encodes "ab" to `[97, 98]`. -/
theorem single_byte_fallback (bs : List Nat) (hbs : ∀ b ∈ bs, 1 ≤ b ∧ b ≤ 255)
    (chunk : List Nat) (hchunk : ∀ b ∈ chunk, 1 ≤ b ∧ b ≤ 255) :
    encode_inference (build_trie (bs.map (fun b : Nat => ((b : Int), [b])))) [chunk] =
      some (chunk.map (fun b : Nat => (b : Int))) ∧
    encode_train (build_trie (bs.map (fun b : Nat => ((b : Int), [b])))) [chunk] =
      some (chunk.map (fun b : Nat => (b : Int))) ∧
    (∀ b rest, b ∈ bs →
      search_trie (build_trie (bs.map (fun b : Nat => ((b : Int), [b])))) (b :: rest) =
        ((b : Int), 1)) ∧
    (∀ b rest, b ∉ bs →
      search_trie (build_trie (bs.map (fun b : Nat => ((b : Int), [b])))) (b :: rest) =
        (-1, 0)) ∧
    encode_inference (build_trie [(97, [97])]) [[97, 98]] = some [97, 98] := by
  have hnul : ∀ c ∈ [chunk], ∀ b ∈ c, b ≠ 0 := by
    intro c hc b hb
    simp only [List.mem_singleton] at hc
    subst hc
    have := (hchunk b hb).1
    omega
  have hb : build_trie (bs.map (fun b : Nat => ((b : Int), [b]))) =
      insert_all (bs.map (fun b : Nat => ((b : Int), [b]))) := by
    apply build_trie_eq_insert_all
    intro e he
    obtain ⟨x, hx, rfl⟩ := List.mem_map.1 he
    have := hbs x hx
    simp only
    omega
  rw [hb]
  have htrain : encode_train (insert_all (bs.map (fun b : Nat => ((b : Int), [b])))) [chunk] =
      some (chunk.map (fun b : Nat => (b : Int))) := by
    simp [encode_train, encode_chunks, encode_train_chunk,
      single_byte_encode_loop bs chunk.length chunk (le_refl _)]
  refine ⟨?_, htrain, fun b rest => (single_byte_search bs b rest).1,
    fun b rest => (single_byte_search bs b rest).2, by decide⟩
  rw [encode_forms_agree_nul_free _ _ hnul]
  exact htrain

theorem single_byte_fallback_witness :
    (∀ b ∈ [97], 1 ≤ b ∧ b ≤ 255) ∧ (∀ b ∈ [97, 98], 1 ≤ b ∧ b ≤ 255) ∧
    encode_inference (build_trie ([97].map (fun b : Nat => ((b : Int), [b])))) [[97, 98]] =
      some ([97, 98].map (fun b : Nat => (b : Int))) :=
  ⟨by decide, by decide, (single_byte_fallback [97] (by decide) [97, 98] (by decide)).1⟩

theorem bucket_get_set_same (tbl : bigram_table) (h : Nat) (chain : List bigram_node) :
    bucket_get (bucket_set tbl h chain) h = chain := by
  induction tbl with
  | nil => simp [bucket_set, bucket_get]
  | cons e rest ih =>
    obtain ⟨i, c⟩ := e
    simp only [bucket_set]
    by_cases h1 : h < i
    · simp [h1, bucket_get]
    · by_cases h2 : i = h
      · simp [h1, h2, bucket_get]
      · simp [h1, h2, bucket_get, ih]

theorem bucket_get_set_other (tbl : bigram_table) (h h2 : Nat) (chain : List bigram_node)
    (hne : h2 ≠ h) : bucket_get (bucket_set tbl h chain) h2 = bucket_get tbl h2 := by
  induction tbl with
  | nil =>
    have : ¬ h = h2 := fun e => hne e.symm
    simp [bucket_set, bucket_get, this]
  | cons e rest ih =>
    obtain ⟨i, c⟩ := e
    have hne2 : ¬ h = h2 := fun e => hne e.symm
    simp only [bucket_set]
    by_cases h1 : h < i
    · simp [h1, bucket_get, hne2]
    · by_cases h3 : i = h
      · subst h3
        simp [bucket_get, hne2]
      · simp [h1, h3, bucket_get, ih]

theorem chain_find_update (a b : Nat) (d : Int) (x y : Nat) (chain : List bigram_node) :
    chain_find x y (chain_update a b d chain) =
      if x = a ∧ y = b then
        some (match chain_find a b chain with
          | some n => { n with freq := wrap_int32 (n.freq + d) }
          | none => create_bigram_node a b d)
      else chain_find x y chain := by
  induction chain with
  | nil =>
    by_cases hxy : x = a ∧ y = b
    · obtain ⟨rfl, rfl⟩ := hxy
      simp [chain_update, chain_find, create_bigram_node]
    · have : ¬ (a = x ∧ b = y) := fun h => hxy ⟨h.1.symm, h.2.symm⟩
      simp [chain_update, chain_find, create_bigram_node, hxy, this]
  | cons n rest ih =>
    simp only [chain_update]
    by_cases hn : n.bigram0 = a ∧ n.bigram1 = b
    · obtain ⟨rfl, rfl⟩ := hn
      by_cases hxy : x = n.bigram0 ∧ y = n.bigram1
      · obtain ⟨rfl, rfl⟩ := hxy
        simp [chain_find]
      · have : ¬ (n.bigram0 = x ∧ n.bigram1 = y) := fun h => hxy ⟨h.1.symm, h.2.symm⟩
        simp [chain_find, hxy, this]
    · simp only [hn, if_false, chain_find]
      by_cases hxy : x = a ∧ y = b
      · obtain ⟨rfl, rfl⟩ := hxy
        simp [hn, ih]
      · simp only [hxy, if_false] at ih ⊢
        rw [ih]

theorem chain_find_key (x y : Nat) (chain : List bigram_node) (n : bigram_node)
    (h : chain_find x y chain = some n) : n ∈ chain ∧ n.bigram0 = x ∧ n.bigram1 = y := by
  induction chain with
  | nil => simp [chain_find] at h
  | cons c rest ih =>
    simp only [chain_find] at h
    by_cases hc : c.bigram0 = x ∧ c.bigram1 = y
    · simp only [hc, and_self, if_true, Option.some.injEq] at h
      subst h
      exact ⟨List.mem_cons_self _ _, hc⟩
    · simp only [hc, if_false] at h
      obtain ⟨h1, h2⟩ := ih h
      exact ⟨List.mem_cons_of_mem _ h1, h2⟩

/-- Frame property of `update_bigram_table`, read through `get_freq`: the
frequency of the updated bigram becomes the 32-bit wrap of the old one plus
`d`, every other one is unchanged. -/
theorem get_freq_update (tbl : bigram_table) (a b : Nat) (d : Int) (x y : Nat) :
    get_freq (update_bigram_table a b d tbl) x y =
      if x = a ∧ y = b then wrap_int32 (get_freq tbl x y + d) else get_freq tbl x y := by
  unfold get_freq find_node update_bigram_table
  by_cases hh : hash_text x y = hash_text a b
  · simp only [hh, bucket_get_set_same, chain_find_update]
    by_cases hxy : x = a ∧ y = b
    · obtain ⟨rfl, rfl⟩ := hxy
      simp only [and_self, if_true]
      cases chain_find x y (bucket_get tbl (hash_text x y)) with
      | none => simp [create_bigram_node]
      | some n => simp
    · simp [hxy]
  · have hxy : ¬ (x = a ∧ y = b) := by
      rintro ⟨rfl, rfl⟩
      exact hh rfl
    simp only [bucket_get_set_other _ _ _ _ hh, hxy, if_false]

/-- The 32-bit wrap does not change a value modulo 2^32. -/
theorem wrap_int32_cast (x : Int) :
    ((wrap_int32 x : Int) : ZMod 4294967296) = (x : ZMod 4294967296) := by
  rw [ZMod.intCast_eq_intCast_iff]
  unfold wrap_int32 Int.ModEq
  push_cast
  omega

/-- Two values of a 32-bit `int` that agree modulo 2^32 are equal. -/
theorem eq_of_cast_eq (u v : Int) (h : (u : ZMod 4294967296) = (v : ZMod 4294967296))
    (hu1 : -2147483648 ≤ u) (hu2 : u < 2147483648)
    (hv1 : -2147483648 ≤ v) (hv2 : v < 2147483648) : u = v := by
  rw [ZMod.intCast_eq_intCast_iff] at h
  unfold Int.ModEq at h
  push_cast at h
  omega

/-- The frame property of `update_bigram_table` modulo 2^32: the frequency of
the updated bigram grows by `d`. -/
theorem get_freq_update_cast (tbl : bigram_table) (a b : Nat) (d : Int) (x y : Nat) :
    ((get_freq (update_bigram_table a b d tbl) x y : Int) : ZMod 4294967296) =
      (get_freq tbl x y : ZMod 4294967296) +
        ((if x = a ∧ y = b then d else 0 : Int) : ZMod 4294967296) := by
  rw [get_freq_update]
  by_cases hxy : x = a ∧ y = b
  · simp only [hxy, and_self, if_true, wrap_int32_cast]
    push_cast
    rfl
  · simp [hxy]

theorem chain_find_reset (a b x y : Nat) (chain : List bigram_node) :
    chain_find x y (chain_reset a b chain) =
      if x = a ∧ y = b then (chain_find a b chain).map (fun n => { n with freq := 0 })
      else chain_find x y chain := by
  induction chain with
  | nil => simp [chain_reset, chain_find]
  | cons n rest ih =>
    simp only [chain_reset]
    by_cases hn : n.bigram0 = a ∧ n.bigram1 = b
    · obtain ⟨rfl, rfl⟩ := hn
      by_cases hxy : x = n.bigram0 ∧ y = n.bigram1
      · obtain ⟨rfl, rfl⟩ := hxy
        simp [chain_find]
      · have : ¬ (n.bigram0 = x ∧ n.bigram1 = y) := fun h => hxy ⟨h.1.symm, h.2.symm⟩
        simp [chain_find, hxy, this]
    · simp only [hn, if_false, chain_find]
      by_cases hxy : x = a ∧ y = b
      · obtain ⟨rfl, rfl⟩ := hxy
        simp [hn, ih]
      · simp only [hxy, if_false] at ih ⊢
        rw [ih]

/-- Resetting the old winner writes 0 to its frequency and nothing else. -/
theorem get_freq_reset (tbl : bigram_table) (m : max_ref) (x y : Nat) :
    get_freq (reset_max_freq m tbl) x y =
      if m.in_table = true ∧ x = m.bigram0 ∧ y = m.bigram1 then 0 else get_freq tbl x y := by
  unfold reset_max_freq
  by_cases hm : m.in_table = true
  · simp only [hm, if_true, true_and]
    unfold get_freq find_node
    by_cases hh : hash_text x y = hash_text m.bigram0 m.bigram1
    · simp only [hh, bucket_get_set_same, chain_find_reset]
      by_cases hxy : x = m.bigram0 ∧ y = m.bigram1
      · obtain ⟨rfl, rfl⟩ := hxy
        simp only [and_self, if_true]
        cases chain_find m.bigram0 m.bigram1
            (bucket_get tbl (hash_text m.bigram0 m.bigram1)) with
        | none => simp
        | some n => simp
      · simp [hxy]
    · have hxy : ¬ (x = m.bigram0 ∧ y = m.bigram1) := by
        rintro ⟨rfl, rfl⟩
        exact hh rfl
      simp only [bucket_get_set_other _ _ _ _ hh, hxy, if_false]
  · simp [hm]

theorem mem_bucket_set (tbl : bigram_table) (h : Nat) (chain : List bigram_node)
    (hs : (tbl.map Prod.fst).Pairwise (fun i j => i < j)) (e : Nat × List bigram_node) :
    e ∈ bucket_set tbl h chain ↔ e = (h, chain) ∨ (e ∈ tbl ∧ e.1 ≠ h) := by
  induction tbl with
  | nil => simp [bucket_set]
  | cons x rest ih =>
    obtain ⟨i, c⟩ := x
    simp only [List.map_cons, List.pairwise_cons] at hs
    obtain ⟨hlt, hrest⟩ := hs
    have hlt2 : ∀ e2 ∈ rest, i < e2.1 := fun e2 he2 => hlt _ (List.mem_map.2 ⟨e2, he2, rfl⟩)
    simp only [bucket_set]
    by_cases h1 : h < i
    · simp only [h1, if_true, List.mem_cons]
      constructor
      · rintro (he | he | he)
        · exact Or.inl he
        · subst he
          exact Or.inr ⟨Or.inl rfl, by simp; omega⟩
        · exact Or.inr ⟨Or.inr he, by have := hlt2 e he; omega⟩
      · rintro (he | ⟨he, _⟩)
        · exact Or.inl he
        · exact Or.inr he
    · by_cases h3 : i = h
      · subst h3
        simp only [lt_irrefl, if_false, if_true, List.mem_cons]
        constructor
        · rintro (he | he)
          · exact Or.inl he
          · exact Or.inr ⟨Or.inr he, by have := hlt2 e he; omega⟩
        · rintro (he | ⟨he | he, hne⟩)
          · exact Or.inl he
          · subst he
            simp at hne
          · exact Or.inr he
      · simp only [h1, h3, if_false, List.mem_cons, ih hrest]
        constructor
        · rintro (he | he | ⟨he, hne⟩)
          · subst he
            exact Or.inr ⟨Or.inl rfl, h3⟩
          · exact Or.inl he
          · exact Or.inr ⟨Or.inr he, hne⟩
        · rintro (he | ⟨he | he, hne⟩)
          · exact Or.inr (Or.inl he)
          · exact Or.inl he
          · exact Or.inr (Or.inr ⟨he, hne⟩)

theorem bucket_set_sorted (tbl : bigram_table) (h : Nat) (chain : List bigram_node)
    (hs : (tbl.map Prod.fst).Pairwise (fun i j => i < j)) :
    ((bucket_set tbl h chain).map Prod.fst).Pairwise (fun i j => i < j) := by
  induction tbl with
  | nil => simp [bucket_set]
  | cons x rest ih =>
    obtain ⟨i, c⟩ := x
    have hs0 := hs
    simp only [List.map_cons, List.pairwise_cons] at hs
    obtain ⟨hlt, hrest⟩ := hs
    simp only [bucket_set]
    by_cases h1 : h < i
    · simp only [h1, if_true, List.map_cons, List.pairwise_cons]
      refine ⟨?_, hlt, hrest⟩
      intro j hj
      rcases List.mem_cons.1 hj with hj | hj
      · omega
      · have := hlt j hj
        omega
    · by_cases h3 : i = h
      · subst h3
        simpa using hs0
      · simp only [h1, h3, if_false, List.map_cons, List.pairwise_cons]
        refine ⟨?_, ih hrest⟩
        intro j hj
        obtain ⟨e, he, rfl⟩ := List.mem_map.1 hj
        rcases (mem_bucket_set rest h chain hrest e).1 he with he | ⟨he, _⟩
        · subst he
          simp
          omega
        · exact hlt _ (List.mem_map.2 ⟨e, he, rfl⟩)

theorem bucket_get_of_mem (tbl : bigram_table)
    (hs : (tbl.map Prod.fst).Pairwise (fun i j => i < j)) (e : Nat × List bigram_node)
    (he : e ∈ tbl) : bucket_get tbl e.1 = e.2 := by
  induction tbl with
  | nil => simp at he
  | cons x rest ih =>
    obtain ⟨i, c⟩ := x
    simp only [List.map_cons, List.pairwise_cons] at hs
    rcases List.mem_cons.1 he with he | he
    · subst he
      simp [bucket_get]
    · have := hs.1 _ (List.mem_map.2 ⟨e, he, rfl⟩)
      have hne : ¬ i = e.1 := by omega
      simp only [bucket_get, hne, if_false]
      exact ih hs.2 he

theorem mem_of_bucket_get (tbl : bigram_table) (h : Nat) (n : bigram_node)
    (hn : n ∈ bucket_get tbl h) : (h, bucket_get tbl h) ∈ tbl := by
  induction tbl with
  | nil => simp [bucket_get] at hn
  | cons x rest ih =>
    obtain ⟨i, c⟩ := x
    simp only [bucket_get] at hn ⊢
    by_cases hi : i = h
    · subst hi
      simp
    · simp only [hi, if_false] at hn ⊢
      exact List.mem_cons_of_mem _ (ih hn)

theorem bucket_get_wf (tbl : bigram_table) (hwf : table_wf tbl) (h : Nat) :
    chain_wf h (bucket_get tbl h) := by
  cases hb : bucket_get tbl h with
  | nil => exact ⟨by simp, by simp⟩
  | cons n rest =>
    have hm := mem_of_bucket_get tbl h n (by rw [hb]; exact List.mem_cons_self _ _)
    rw [← hb]
    exact hwf.2 _ hm

theorem chain_update_keys (a b : Nat) (d : Int) (chain : List bigram_node) :
    (chain_update a b d chain).map node_key =
      if (a, b) ∈ chain.map node_key then chain.map node_key
      else chain.map node_key ++ [(a, b)] := by
  induction chain with
  | nil => simp [chain_update, create_bigram_node, node_key]
  | cons n rest ih =>
    simp only [chain_update]
    by_cases hn : n.bigram0 = a ∧ n.bigram1 = b
    · obtain ⟨rfl, rfl⟩ := hn
      simp [node_key]
    · have hk : ¬ (a, b) = node_key n := by
        intro h
        simp only [node_key, Prod.mk.injEq] at h
        exact hn ⟨h.1.symm, h.2.symm⟩
      simp only [hn, if_false, List.map_cons, ih, List.mem_cons, hk, false_or]
      split <;> simp

theorem chain_update_wf (a b : Nat) (d : Int) (chain : List bigram_node)
    (hwf : chain_wf (hash_text a b) chain) :
    chain_wf (hash_text a b) (chain_update a b d chain) := by
  constructor
  · intro n hn
    have hk : node_key n ∈ (chain_update a b d chain).map node_key :=
      List.mem_map.2 ⟨n, hn, rfl⟩
    rw [chain_update_keys] at hk
    have hold : node_key n ∈ chain.map node_key →
        hash_text n.bigram0 n.bigram1 = hash_text a b := by
      intro hk
      obtain ⟨m, hm, hmk⟩ := List.mem_map.1 hk
      have h3 := hwf.1 m hm
      simp only [node_key, Prod.mk.injEq] at hmk
      rw [hmk.1, hmk.2] at h3
      exact h3
    split at hk
    · exact hold hk
    · rcases List.mem_append.1 hk with hk | hk
      · exact hold hk
      · simp only [List.mem_singleton, node_key, Prod.mk.injEq] at hk
        rw [hk.1, hk.2]
  · rw [chain_update_keys]
    split
    · exact hwf.2
    · rename_i hnot
      rw [List.nodup_append]
      refine ⟨hwf.2, by simp, ?_⟩
      intro k hk1 hk2
      simp only [List.mem_singleton] at hk2
      subst hk2
      exact hnot hk1

theorem chain_reset_keys (a b : Nat) (chain : List bigram_node) :
    (chain_reset a b chain).map node_key = chain.map node_key := by
  induction chain with
  | nil => rfl
  | cons n rest ih =>
    simp only [chain_reset]
    split
    · simp [node_key]
    · simp [ih]

theorem chain_reset_wf (a b : Nat) (h : Nat) (chain : List bigram_node)
    (hwf : chain_wf h chain) : chain_wf h (chain_reset a b chain) := by
  constructor
  · intro n hn
    have hk : node_key n ∈ (chain_reset a b chain).map node_key :=
      List.mem_map.2 ⟨n, hn, rfl⟩
    rw [chain_reset_keys] at hk
    obtain ⟨m, hm, hmk⟩ := List.mem_map.1 hk
    have := hwf.1 m hm
    simp only [node_key, Prod.mk.injEq] at hmk
    rw [← hmk.1, ← hmk.2]
    exact this
  · rw [chain_reset_keys]
    exact hwf.2

theorem bucket_set_wf (tbl : bigram_table) (hwf : table_wf tbl) (h : Nat)
    (chain : List bigram_node) (hc : chain_wf h chain) : table_wf (bucket_set tbl h chain) := by
  refine ⟨bucket_set_sorted tbl h chain hwf.1, ?_⟩
  intro e he
  rcases (mem_bucket_set tbl h chain hwf.1 e).1 he with he | ⟨he, _⟩
  · subst he
    exact hc
  · exact hwf.2 e he

theorem table_wf_nil : table_wf [] := ⟨by simp, by simp⟩

/-- Source `update_bigram_table` keeps the bucket array well formed. -/
theorem update_bigram_table_wf (a b : Nat) (d : Int) (tbl : bigram_table) (hwf : table_wf tbl) :
    table_wf (update_bigram_table a b d tbl) :=
  bucket_set_wf tbl hwf _ _ (chain_update_wf a b d _ (bucket_get_wf tbl hwf _))

theorem reset_max_freq_wf (m : max_ref) (tbl : bigram_table) (hwf : table_wf tbl) :
    table_wf (reset_max_freq m tbl) := by
  unfold reset_max_freq
  split
  · exact bucket_set_wf tbl hwf _ _ (chain_reset_wf _ _ _ _ (bucket_get_wf tbl hwf _))
  · exact hwf

theorem mem_scan_order (tbl : bigram_table) (n : bigram_node) :
    n ∈ scan_order tbl ↔ ∃ e ∈ tbl, n ∈ e.2 := by
  simp only [scan_order, List.mem_flatten, List.mem_map]
  constructor
  · rintro ⟨l, ⟨e, he, rfl⟩, hn⟩
    exact ⟨e, he, hn⟩
  · rintro ⟨e, he, hn⟩
    exact ⟨e.2, ⟨e, he, rfl⟩, hn⟩

theorem chain_find_of_mem (chain : List bigram_node) (hnd : (chain.map node_key).Nodup)
    (n : bigram_node) (hn : n ∈ chain) : chain_find n.bigram0 n.bigram1 chain = some n := by
  induction chain with
  | nil => simp at hn
  | cons c rest ih =>
    simp only [List.map_cons, List.nodup_cons] at hnd
    rcases List.mem_cons.1 hn with hn | hn
    · subst hn
      simp [chain_find]
    · have hne : ¬ (c.bigram0 = n.bigram0 ∧ c.bigram1 = n.bigram1) := by
        intro h
        apply hnd.1
        have : node_key c = node_key n := by simp [node_key, h.1, h.2]
        rw [this]
        exact List.mem_map.2 ⟨n, hn, rfl⟩
      simp only [chain_find, hne, if_false]
      exact ih hnd.2 hn

/-- In a well-formed table the scan visits exactly the nodes the lookup finds. -/
theorem mem_scan_order_iff_find (tbl : bigram_table) (hwf : table_wf tbl) (n : bigram_node) :
    n ∈ scan_order tbl ↔ find_node tbl n.bigram0 n.bigram1 = some n := by
  rw [mem_scan_order]
  constructor
  · rintro ⟨e, he, hn⟩
    have hc := hwf.2 e he
    have hh := hc.1 n hn
    unfold find_node
    rw [hh, bucket_get_of_mem tbl hwf.1 e he]
    exact chain_find_of_mem e.2 hc.2 n hn
  · intro h
    have h1 := (chain_find_key _ _ _ _ h).1
    exact ⟨_, mem_of_bucket_get tbl _ n h1, h1⟩

theorem find_node_key (tbl : bigram_table) (x y : Nat) (n : bigram_node)
    (h : find_node tbl x y = some n) : n.bigram0 = x ∧ n.bigram1 = y :=
  (chain_find_key _ _ _ _ h).2

theorem mem_bucket_set_sub (tbl : bigram_table) (h : Nat) (chain : List bigram_node)
    (e : Nat × List bigram_node) (he : e ∈ bucket_set tbl h chain) :
    e ∈ tbl ∨ e = (h, chain) := by
  induction tbl with
  | nil =>
    simp only [bucket_set, List.mem_singleton] at he
    exact Or.inr he
  | cons x rest ih =>
    obtain ⟨i, c⟩ := x
    simp only [bucket_set] at he
    by_cases h1 : h < i
    · simp only [h1, if_true, List.mem_cons] at he
      rcases he with he | he | he
      · exact Or.inr he
      · exact Or.inl (by rw [he]; exact List.mem_cons_self _ _)
      · exact Or.inl (List.mem_cons_of_mem _ he)
    · simp only [h1, if_false] at he
      by_cases h2 : i = h
      · simp only [h2, if_true, List.mem_cons] at he
        rcases he with he | he
        · exact Or.inr he
        · exact Or.inl (List.mem_cons_of_mem _ he)
      · simp only [h2, if_false, List.mem_cons] at he
        rcases he with he | he
        · exact Or.inl (by rw [he]; exact List.mem_cons_self _ _)
        · rcases ih he with h3 | h3
          · exact Or.inl (List.mem_cons_of_mem _ h3)
          · exact Or.inr h3

theorem mem_chain_update (a b : Nat) (d : Int) (chain : List bigram_node) (n : bigram_node)
    (hn : n ∈ chain_update a b d chain) :
    n ∈ chain ∨ (-2147483648 ≤ n.freq ∧ n.freq < 2147483648) := by
  induction chain with
  | nil =>
    simp only [chain_update, List.mem_singleton] at hn
    subst hn
    exact Or.inr (wrap_int32_range d)
  | cons c rest ih =>
    simp only [chain_update] at hn
    by_cases hc : c.bigram0 = a ∧ c.bigram1 = b
    · simp only [hc, and_self, if_true, List.mem_cons] at hn
      rcases hn with hn | hn
      · subst hn
        exact Or.inr (wrap_int32_range _)
      · exact Or.inl (List.mem_cons_of_mem _ hn)
    · simp only [hc, if_false, List.mem_cons] at hn
      rcases hn with hn | hn
      · exact Or.inl (by rw [hn]; exact List.mem_cons_self _ _)
      · rcases ih hn with h | h
        · exact Or.inl (List.mem_cons_of_mem _ h)
        · exact Or.inr h

theorem mem_chain_reset (a b : Nat) (chain : List bigram_node) (n : bigram_node)
    (hn : n ∈ chain_reset a b chain) : n ∈ chain ∨ n.freq = 0 := by
  induction chain with
  | nil => simp [chain_reset] at hn
  | cons c rest ih =>
    simp only [chain_reset] at hn
    by_cases hc : c.bigram0 = a ∧ c.bigram1 = b
    · simp only [hc, and_self, if_true, List.mem_cons] at hn
      rcases hn with hn | hn
      · subst hn
        exact Or.inr rfl
      · exact Or.inl (List.mem_cons_of_mem _ hn)
    · simp only [hc, if_false, List.mem_cons] at hn
      rcases hn with hn | hn
      · exact Or.inl (by rw [hn]; exact List.mem_cons_self _ _)
      · rcases ih hn with h | h
        · exact Or.inl (List.mem_cons_of_mem _ h)
        · exact Or.inr h

theorem table_range_nil : table_range [] := by
  intro e he
  simp at he

theorem bucket_get_range (tbl : bigram_table) (hr : table_range tbl) (h : Nat)
    (n : bigram_node) (hn : n ∈ bucket_get tbl h) :
    -2147483648 ≤ n.freq ∧ n.freq < 2147483648 :=
  hr _ (mem_of_bucket_get tbl h n hn) n hn

/-- Source `update_bigram_table` stores values of a 32-bit `int` only. -/
theorem update_bigram_table_range (a b : Nat) (d : Int) (tbl : bigram_table)
    (hr : table_range tbl) : table_range (update_bigram_table a b d tbl) := by
  intro e he n hn
  rcases mem_bucket_set_sub _ _ _ _ he with h | h
  · exact hr e h n hn
  · subst h
    rcases mem_chain_update _ _ _ _ _ hn with h2 | h2
    · exact bucket_get_range tbl hr _ n h2
    · exact h2

theorem reset_max_freq_range (m : max_ref) (tbl : bigram_table) (hr : table_range tbl) :
    table_range (reset_max_freq m tbl) := by
  unfold reset_max_freq
  split
  · intro e he n hn
    rcases mem_bucket_set_sub _ _ _ _ he with h | h
    · exact hr e h n hn
    · subst h
      rcases mem_chain_reset _ _ _ _ hn with h2 | h2
      · exact bucket_get_range tbl hr _ n h2
      · rw [h2]
        omega
  · exact hr

/-- Every frequency read from a table of 32-bit values is a 32-bit value. -/
theorem get_freq_range (tbl : bigram_table) (hr : table_range tbl) (x y : Nat) :
    -2147483648 ≤ get_freq tbl x y ∧ get_freq tbl x y < 2147483648 := by
  unfold get_freq
  cases hf : find_node tbl x y with
  | none => simp
  | some n =>
    exact bucket_get_range tbl hr _ n (chain_find_key _ _ _ _ hf).1

/-- The scan keeps the start node when no node beats its frequency, and
otherwise ends on the first node of highest frequency. -/
theorem scan_max_spec (l : List bigram_node) :
    ∀ (m0 : max_ref) (f0 : Int),
      (scan_max l m0 f0 = (m0, f0) ∧ ∀ n ∈ l, n.freq ≤ f0) ∨
      (∃ l1 n l2, l = l1 ++ n :: l2 ∧
        scan_max l m0 f0 =
          ({ in_table := true, bigram0 := n.bigram0, bigram1 := n.bigram1 }, n.freq) ∧
        f0 < n.freq ∧ (∀ x ∈ l1, x.freq < n.freq) ∧ (∀ x ∈ l2, x.freq ≤ n.freq)) := by
  induction l with
  | nil => intro m0 f0; exact Or.inl ⟨rfl, by simp⟩
  | cons c rest ih =>
    intro m0 f0
    by_cases hc : c.freq > f0
    · have hs : scan_max (c :: rest) m0 f0 =
          scan_max rest { in_table := true, bigram0 := c.bigram0, bigram1 := c.bigram1 }
            c.freq := by
        simp [scan_max, hc]
      right
      rcases ih { in_table := true, bigram0 := c.bigram0, bigram1 := c.bigram1 } c.freq with
        ⟨h1, h2⟩ | ⟨l1, n, l2, h1, h2, h3, h4, h5⟩
      · exact ⟨[], c, rest, rfl, by rw [hs, h1], hc, by simp, h2⟩
      · refine ⟨c :: l1, n, l2, by rw [h1]; rfl, by rw [hs, h2], by omega, ?_, h5⟩
        intro x hx
        rcases List.mem_cons.1 hx with hx | hx
        · subst hx; exact h3
        · exact h4 x hx
    · have hs : scan_max (c :: rest) m0 f0 = scan_max rest m0 f0 := by
        simp [scan_max, hc]
      rcases ih m0 f0 with ⟨h1, h2⟩ | ⟨l1, n, l2, h1, h2, h3, h4, h5⟩
      · left
        refine ⟨by rw [hs, h1], ?_⟩
        intro x hx
        rcases List.mem_cons.1 hx with hx | hx
        · subst hx; omega
        · exact h2 x hx
      · right
        refine ⟨c :: l1, n, l2, by rw [h1]; rfl, by rw [hs, h2], h3, ?_, h5⟩
        intro x hx
        rcases List.mem_cons.1 hx with hx | hx
        · subst hx; omega
        · exact h4 x hx

theorem getD_append_len (pre : List Nat) (x : Nat) (l : List Nat) (d : Nat) :
    (pre ++ x :: l).getD pre.length d = x := by
  induction pre with
  | nil => rfl
  | cons p pre ih => simpa using ih

theorem getD_append_len_add (pre l : List Nat) (i d : Nat) :
    (pre ++ l).getD (pre.length + i) d = l.getD i d := by
  induction pre with
  | nil => simp
  | cons p pre ih =>
    have : (p :: pre).length + i = (pre.length + i) + 1 := by simp; omega
    rw [this]
    simpa using ih

theorem getD_replicate_zero (k i : Nat) : (List.replicate k 0).getD i 0 = 0 := by
  induction k generalizing i with
  | zero => simp
  | succ k ih =>
    cases i with
    | zero => rfl
    | succ i => simpa [List.replicate_succ] using ih i

/-- The index loop of `init_stats` from position `|pre|` on the array
`pre ++ rest ++ zeros` makes the updates of `stats_pairs` on `rest`. -/
theorem init_stats_loop_eq (node : text_chunk_node) (rest : List Nat) :
    ∀ (pre : List Nat) (k : Nat) (tbl : bigram_table),
      node.bytes = pre ++ rest ++ List.replicate k 0 → (∀ s ∈ rest, s ≠ 0) →
      init_stats_loop node (rest.length + 1) pre.length tbl =
        stats_pairs node.count rest tbl := by
  induction rest with
  | nil =>
    intro pre k tbl hb _
    have h0 : node.bytes.getD pre.length 0 = 0 := by
      rw [hb, List.append_nil]
      have := getD_append_len_add pre (List.replicate k 0) 0 0
      simp only [Nat.add_zero] at this
      rw [this, getD_replicate_zero]
    show init_stats_loop node (0 + 1) pre.length tbl = stats_pairs node.count [] tbl
    simp only [init_stats_loop, h0, ne_eq, not_true_eq_false, false_and, if_false, stats_pairs]
  | cons x rest ih =>
    intro pre k tbl hb hnz
    have hx : node.bytes.getD pre.length 0 = x := by
      rw [hb, List.append_assoc]
      exact getD_append_len pre x _ 0
    have hb2 : node.bytes = (pre ++ [x]) ++ rest ++ List.replicate k 0 := by
      rw [hb]; simp
    have hnz2 : ∀ s ∈ rest, s ≠ 0 := fun s hs => hnz s (List.mem_cons_of_mem _ hs)
    have hlen : (pre ++ [x]).length = pre.length + 1 := by simp
    have ih2 := fun tbl => ih (pre ++ [x]) k tbl hb2 hnz2
    simp only [hlen] at ih2
    have hxnz : x ≠ 0 := hnz x (List.mem_cons_self _ _)
    cases rest with
    | nil =>
      have hy : node.bytes.getD (pre.length + 1) 0 = 0 := by
        rw [hb2, List.append_nil]
        have := getD_append_len_add (pre ++ [x]) (List.replicate k 0) 0 0
        simp only [Nat.add_zero, hlen] at this
        rw [this, getD_replicate_zero]
      have := ih2 tbl
      simp only [List.length_nil, Nat.zero_add] at this
      show init_stats_loop node ((0 + 1) + 1) pre.length tbl = stats_pairs node.count [x] tbl
      rw [init_stats_loop]
      simp only [hx, hy, ne_eq, not_true_eq_false, and_false, if_false]
      rw [this]
      simp only [stats_pairs]
    | cons y rest =>
      have hy : node.bytes.getD (pre.length + 1) 0 = y := by
        rw [hb2, List.append_assoc]
        have := getD_append_len (pre ++ [x]) y (rest ++ List.replicate k 0) 0
        simp only [hlen] at this
        simpa using this
      have hynz : y ≠ 0 := hnz y (by simp)
      have := ih2 (update_bigram_table x y node.count tbl)
      simp only [List.length_cons] at this ⊢
      rw [init_stats_loop]
      simp only [hx, hy, ne_eq, hxnz, hynz, not_false_eq_true, and_self, if_true]
      rw [this]
      simp only [stats_pairs]

theorem live_symbols_of_repr (node : text_chunk_node) (w : List Nat) (h : node_repr node w) :
    live_symbols node = w := by
  obtain ⟨_, hn, _, k, hb⟩ := h
  simp [live_symbols, hn, hb]

/-- Source `init_stats` on a well-formed word record makes the updates of
`stats_pairs` on its symbols. -/
theorem init_stats_eq (node : text_chunk_node) (w : List Nat) (h : node_repr node w)
    (tbl : bigram_table) : init_stats node tbl = stats_pairs node.count w tbl := by
  obtain ⟨hnz, hn, _, k, hb⟩ := h
  have := init_stats_loop_eq node w [] (k + 1) tbl (by simpa using hb) hnz
  simpa [init_stats, hn] using this

/-- Modulo 2^32 the updates of `stats_pairs` add the count once per adjacent
occurrence. -/
theorem get_freq_stats_pairs (count : Int) (w : List Nat) :
    ∀ (tbl : bigram_table) (x y : Nat),
      ((get_freq (stats_pairs count w tbl) x y : Int) : ZMod 4294967296) =
        (get_freq tbl x y : ZMod 4294967296) +
          ((count * pair_count x y w : Int) : ZMod 4294967296) := by
  induction w with
  | nil => intro tbl x y; simp only [stats_pairs, pair_count]; simp
  | cons a rest ih =>
    intro tbl x y
    cases rest with
    | nil => simp only [stats_pairs, pair_count]; simp
    | cons b rest =>
      simp only [stats_pairs, pair_count]
      rw [ih, get_freq_update_cast]
      by_cases hab : x = a ∧ y = b
      · obtain ⟨rfl, rfl⟩ := hab
        simp only [and_self, if_true]
        push_cast
        ring
      · have hab2 : ¬ (a = x ∧ b = y) := fun h => hab ⟨h.1.symm, h.2.symm⟩
        simp only [hab, hab2, if_false]
        push_cast
        ring

theorem stats_pairs_range (count : Int) (w : List Nat) :
    ∀ (tbl : bigram_table), table_range tbl → table_range (stats_pairs count w tbl) := by
  induction w with
  | nil => intro tbl h; exact h
  | cons a rest ih =>
    intro tbl h
    cases rest with
    | nil => exact h
    | cons b rest =>
      simp only [stats_pairs]
      exact ih _ (update_bigram_table_range a b count tbl h)

theorem init_stats_loop_range (node : text_chunk_node) :
    ∀ (k element : Nat) (tbl : bigram_table), table_range tbl →
      table_range (init_stats_loop node k element tbl) := by
  intro k
  induction k with
  | zero => intro element tbl h; exact h
  | succ k ih =>
    intro element tbl h
    simp only [init_stats_loop]
    apply ih
    split
    · exact update_bigram_table_range _ _ _ tbl h
    · exact h

theorem init_stats_range (node : text_chunk_node) (tbl : bigram_table) (h : table_range tbl) :
    table_range (init_stats node tbl) :=
  init_stats_loop_range node _ _ tbl h

theorem pair_count_le (a b : Nat) (w : List Nat) : pair_count a b w ≤ w.length - 1 := by
  induction w with
  | nil => simp [pair_count]
  | cons x rest ih =>
    cases rest with
    | nil => simp [pair_count]
    | cons y rest =>
      simp only [pair_count, List.length_cons] at ih ⊢
      split <;> omega

theorem weighted_freq_nonneg (ws : List (List Nat × Nat)) (a b : Nat) :
    0 ≤ weighted_freq ws a b := by
  unfold weighted_freq
  apply List.sum_nonneg
  intro x hx
  obtain ⟨w, _, rfl⟩ := List.mem_map.1 hx
  positivity

/-- No weighted frequency exceeds the total weighted pair count. -/
theorem weighted_freq_le_total (ws : List (List Nat × Nat)) (a b : Nat) :
    weighted_freq ws a b ≤ (total_pair_weight ws : Int) := by
  induction ws with
  | nil => simp [weighted_freq, total_pair_weight]
  | cons w rest ih =>
    simp only [weighted_freq, total_pair_weight, List.map_cons, List.sum_cons] at ih ⊢
    have h1 := pair_count_le a b w.1
    have h2 : (w.2 : Int) * (pair_count a b w.1 : Int) ≤ ((w.2 * (w.1.length - 1) : Nat) : Int) := by
      push_cast
      apply mul_le_mul_of_nonneg_left _ (Int.ofNat_nonneg _)
      exact_mod_cast h1
    push_cast at h2 ih ⊢
    linarith

theorem stats_pairs_wf (count : Int) (w : List Nat) :
    ∀ (tbl : bigram_table), table_wf tbl → table_wf (stats_pairs count w tbl) := by
  induction w with
  | nil => intro tbl h; exact h
  | cons a rest ih =>
    intro tbl h
    cases rest with
    | nil => exact h
    | cons b rest =>
      simp only [stats_pairs]
      exact ih _ (update_bigram_table_wf a b count tbl h)

theorem takeWhile_nul_free (w : List Nat) (rest : List Nat) (h : ∀ b ∈ w, b ≠ 0) :
    (w ++ 0 :: rest).takeWhile (fun b => b ≠ 0) = w := by
  induction w with
  | nil => simp
  | cons a w ih =>
    have ha : a ≠ 0 := h a (List.mem_cons_self _ _)
    have := ih (fun b hb => h b (List.mem_cons_of_mem _ hb))
    simpa [List.takeWhile_cons, ha] using this

theorem create_text_chunk_node_repr (w : List Nat) (c : Nat) (hb : ∀ b ∈ w, 1 ≤ b ∧ b ≤ 255)
    (hl : w.length ≤ 32766) (hc : c ≤ 65535) :
    node_repr (create_text_chunk_node (word_to_ints w)
        (get_array_size (word_to_ints w) % 65536) c) w ∧
      (create_text_chunk_node (word_to_ints w)
        (get_array_size (word_to_ints w) % 65536) c).count = c := by
  have hnz : ∀ b ∈ w, b ≠ 0 := fun b h => by have := (hb b h).1; omega
  have h1 : w.takeWhile (fun b => b ≠ 0) = w := by
    rw [List.takeWhile_eq_self_iff]
    intro b h
    simpa using hnz b h
  have h2 : (word_to_ints w).takeWhile (fun b => b ≠ 0) = w := by
    unfold word_to_ints
    rw [h1]
    exact takeWhile_nul_free w [] hnz
  have h3 : get_array_size (word_to_ints w) % 65536 = (1 + w.length) * 2 := by
    unfold get_array_size
    rw [h2]
    omega
  refine ⟨⟨hnz, ?_, ?_, 0, ?_⟩, ?_⟩
  · simp only [create_text_chunk_node, h3]; omega
  · simp only [create_text_chunk_node, h3]; omega
  · simp only [create_text_chunk_node, h2, h3]
    have : (1 + w.length) * 2 / 2 - w.length = 1 := by omega
    rw [this]
  · simp only [create_text_chunk_node]
    omega

/-- The count `train` stores for a supplied count: the count modulo 65536 while
it fits a `long`, 65535 (the narrowed -1 of `PyLong_AsLong`) from 2^63 on. -/
theorem stored_count_eq (c : Nat) :
    stored_count c = if c < 9223372036854775808 then c % 65536 else 65535 := by
  unfold stored_count PyLong_AsLong
  by_cases hc : c < 9223372036854775808
  · have h1 : (-9223372036854775808 : Int) ≤ (c : Int) ∧ (c : Int) < 9223372036854775808 := by
      constructor <;> omega
    rw [if_pos h1, if_pos hc]
    omega
  · have h1 : ¬ ((-9223372036854775808 : Int) ≤ (c : Int) ∧ (c : Int) < 9223372036854775808) := by
      intro h
      omega
    rw [if_neg h1, if_neg hc]
    decide

theorem stored_count_small (c : Nat) (hc : c ≤ 65535) : stored_count c = c := by
  rw [stored_count_eq, if_pos (by omega)]
  omega

theorem stored_count_le (c : Nat) : stored_count c ≤ 65535 := by
  rw [stored_count_eq]
  split <;> omega

theorem stored_count_idem (c : Nat) : stored_count (stored_count c) = stored_count c :=
  stored_count_small _ (stored_count_le c)

theorem build_text_table_cons (w : List Nat × Nat) (rest : List (List Nat × Nat)) :
    build_text_table (w :: rest) =
      create_text_chunk_node (word_to_ints w.1) (get_array_size (word_to_ints w.1) % 65536)
        (stored_count w.2) :: build_text_table rest := rfl

theorem build_text_table_repr (words : List (List Nat × Nat)) (h : valid_words words) :
    table_repr (build_text_table words) words := by
  induction words with
  | nil => exact List.Forall₂.nil
  | cons w rest ih =>
    have hw := h w (List.mem_cons_self _ _)
    have := create_text_chunk_node_repr w.1 w.2 hw.1 hw.2.1 hw.2.2
    rw [build_text_table_cons, stored_count_small _ hw.2.2]
    exact List.Forall₂.cons this (ih (fun x hx => h x (List.mem_cons_of_mem _ hx)))

theorem get_freq_foldl_init_stats (text_table : List text_chunk_node)
    (ws : List (List Nat × Nat)) (h : table_repr text_table ws) :
    ∀ (tbl : bigram_table) (x y : Nat),
      ((get_freq (text_table.foldl (fun tbl node => init_stats node tbl) tbl) x y : Int) :
          ZMod 4294967296) =
        (get_freq tbl x y : ZMod 4294967296) + ((weighted_freq ws x y : Int) : ZMod 4294967296) := by
  induction h with
  | nil => intro tbl x y; simp [weighted_freq]
  | @cons node w tt ws2 hd _ ih =>
    intro tbl x y
    simp only [List.foldl_cons]
    rw [ih, init_stats_eq node w.1 hd.1, get_freq_stats_pairs, hd.2]
    simp only [weighted_freq, List.map_cons, List.sum_cons]
    push_cast
    ring

theorem foldl_init_stats_range (text_table : List text_chunk_node) :
    ∀ (tbl : bigram_table), table_range tbl →
      table_range (text_table.foldl (fun tbl node => init_stats node tbl) tbl) := by
  induction text_table with
  | nil => intro tbl h; exact h
  | cons node rest ih =>
    intro tbl h
    simp only [List.foldl_cons]
    exact ih _ (init_stats_range node tbl h)

/-- Every frequency `build_bigram_table` stores is a value of a 32-bit `int`. -/
theorem build_bigram_table_range (text_table : List text_chunk_node) :
    table_range (build_bigram_table text_table) :=
  foldl_init_stats_range text_table [] table_range_nil

theorem foldl_init_stats_wf (text_table : List text_chunk_node)
    (ws : List (List Nat × Nat)) (h : table_repr text_table ws) :
    ∀ (tbl : bigram_table), table_wf tbl →
      table_wf (text_table.foldl (fun tbl node => init_stats node tbl) tbl) := by
  induction h with
  | nil => intro tbl h; exact h
  | @cons node w tt ws2 hd _ ih =>
    intro tbl h
    simp only [List.foldl_cons]
    apply ih
    rw [init_stats_eq node w.1 hd.1]
    exact stats_pairs_wf _ _ _ h

theorem get_freq_nil (x y : Nat) : get_freq [] x y = 0 := by
  simp [get_freq, find_node, bucket_get, chain_find]

/-- Initial statistics modulo 2^32: the stored frequency of every pair agrees
with its weighted frequency in the corpus. -/
theorem get_freq_build_bigram_table_cast (text_table : List text_chunk_node)
    (ws : List (List Nat × Nat)) (h : table_repr text_table ws) (x y : Nat) :
    ((get_freq (build_bigram_table text_table) x y : Int) : ZMod 4294967296) =
      ((weighted_freq ws x y : Int) : ZMod 4294967296) := by
  unfold build_bigram_table
  rw [get_freq_foldl_init_stats text_table ws h, get_freq_nil]
  simp

/-- Initial statistics, for every corpus: the stored frequency of a pair is the
32-bit wrap of its weighted frequency. -/
theorem get_freq_build_bigram_table_wrap (text_table : List text_chunk_node)
    (ws : List (List Nat × Nat)) (h : table_repr text_table ws) (x y : Nat) :
    get_freq (build_bigram_table text_table) x y = wrap_int32 (weighted_freq ws x y) := by
  have h1 := get_freq_build_bigram_table_cast text_table ws h x y
  rw [← wrap_int32_cast (weighted_freq ws x y)] at h1
  have h2 := get_freq_range _ (build_bigram_table_range text_table) x y
  have h3 := wrap_int32_range (weighted_freq ws x y)
  exact eq_of_cast_eq _ _ h1 h2.1 h2.2 h3.1 h3.2

/-- Initial statistics: while the total weighted pair count is below 2^31, the
stored frequency of every pair after `build_bigram_table` is its weighted
frequency in the corpus. -/
theorem get_freq_build_bigram_table (text_table : List text_chunk_node)
    (ws : List (List Nat × Nat)) (h : table_repr text_table ws)
    (hb : total_pair_weight ws < 2147483648) (x y : Nat) :
    get_freq (build_bigram_table text_table) x y = weighted_freq ws x y := by
  rw [get_freq_build_bigram_table_wrap text_table ws h]
  have h1 := weighted_freq_nonneg ws x y
  have h2 := weighted_freq_le_total ws x y
  exact wrap_int32_of_range _ (by omega) (by omega)

theorem build_bigram_table_wf (text_table : List text_chunk_node)
    (ws : List (List Nat × Nat)) (h : table_repr text_table ws) :
    table_wf (build_bigram_table text_table) :=
  foldl_init_stats_wf text_table ws h [] table_wf_nil

theorem set_append_len (pre : List Nat) (x v : Nat) (l : List Nat) :
    (pre ++ x :: l).set pre.length v = pre ++ v :: l := by
  induction pre with
  | nil => rfl
  | cons p pre ih => simp [ih]

theorem drop_length_cons (b : Nat) (tail : List Nat) :
    ∃ e, (b :: tail).drop tail.length = [e] := by
  induction tail generalizing b with
  | nil => exact ⟨b, rfl⟩
  | cons c tail ih =>
    obtain ⟨e, he⟩ := ih c
    exact ⟨e, by simpa using he⟩

/-- The array edit of a match: overwrite the first symbol of the pair, move the
symbols behind the pair one place to the left, write the new terminator. -/
theorem match_edit (pre tail : List Nat) (a b t k : Nat) :
    (memmove ((pre ++ a :: b :: tail ++ List.replicate (k + 1) 0).set pre.length t)
        (pre.length + 1) (pre.length + 1 + 1) tail.length).set
        (pre.length + 1 + tail.length) 0 =
      (pre ++ [t]) ++ tail ++ List.replicate (k + 1 + 1) 0 := by
  have h1 : (pre ++ a :: b :: tail ++ List.replicate (k + 1) 0).set pre.length t =
      (pre ++ [t]) ++ (b :: tail ++ List.replicate (k + 1) 0) := by
    have := set_append_len pre a t (b :: tail ++ List.replicate (k + 1) 0)
    simpa using this
  have hP : (pre ++ [t]).length = pre.length + 1 := by simp
  rw [h1]
  unfold memmove
  have h2 : ((pre ++ [t]) ++ (b :: tail ++ List.replicate (k + 1) 0)).take (pre.length + 1) =
      pre ++ [t] := by
    rw [← hP]; exact List.take_left' rfl
  have h3 : ((pre ++ [t]) ++ (b :: tail ++ List.replicate (k + 1) 0)).drop
      (pre.length + 1 + 1) = tail ++ List.replicate (k + 1) 0 := by
    have : (pre ++ [t] ++ [b]).length = pre.length + 1 + 1 := by simp
    rw [← this]
    have h : (pre ++ [t]) ++ (b :: tail ++ List.replicate (k + 1) 0) =
        (pre ++ [t] ++ [b]) ++ (tail ++ List.replicate (k + 1) 0) := by simp
    rw [h]
    exact List.drop_left' rfl
  obtain ⟨e, he⟩ := drop_length_cons b tail
  have h4 : ((pre ++ [t]) ++ (b :: tail ++ List.replicate (k + 1) 0)).drop
      (pre.length + 1 + tail.length) = e :: List.replicate (k + 1) 0 := by
    rw [← hP, List.drop_append]
    have : b :: tail ++ List.replicate (k + 1) 0 = (b :: tail) ++ List.replicate (k + 1) 0 := rfl
    rw [this, List.drop_append_of_le_length (by simp), he]
    rfl
  rw [h2, h3, h4, List.take_left' rfl]
  have h5 : pre ++ [t] ++ tail ++ e :: List.replicate (k + 1) 0 =
      (pre ++ [t] ++ tail) ++ e :: List.replicate (k + 1) 0 := by simp
  have h6 : (pre ++ [t] ++ tail).length = pre.length + 1 + tail.length := by simp; omega
  rw [h5, ← h6, set_append_len]
  simp [List.replicate_succ]

theorem inv_getD_u1 (s : retokenize_state) (pre : List Nat) (x : Nat) (rest : List Nat) (k : Nat)
    (h : retok_inv s pre (x :: rest) k) : s.node.bytes.getD (s.element - 1) 0 = x := by
  obtain ⟨hb, _, he, _, _⟩ := h
  rw [he, hb, Nat.add_sub_cancel, List.append_assoc]
  exact getD_append_len pre x _ 0

theorem inv_getD_u2 (s : retokenize_state) (pre : List Nat) (x : Nat) (rest : List Nat) (k : Nat)
    (h : retok_inv s pre (x :: rest) k) :
    s.node.bytes.getD (s.element - 1 + 1) 0 = rest.headD 0 := by
  obtain ⟨hb, _, he, _, _⟩ := h
  rw [he, hb, Nat.add_sub_cancel]
  have h1 : pre ++ x :: rest ++ List.replicate (k + 1) 0 =
      (pre ++ [x]) ++ (rest ++ List.replicate (k + 1) 0) := by simp
  have h2 : (pre ++ [x]).length = pre.length + 1 := by simp
  rw [h1, ← h2]
  have := getD_append_len_add (pre ++ [x]) (rest ++ List.replicate (k + 1) 0) 0 0
  simp only [Nat.add_zero] at this
  rw [this]
  cases rest with
  | nil => rfl
  | cons y r => rfl

theorem inv_getD_R (s : retokenize_state) (pre : List Nat) (x y : Nat) (tail : List Nat) (k : Nat)
    (h : retok_inv s pre (x :: y :: tail) k) :
    s.node.bytes.getD (s.element - 1 + 1 + 1) 0 = tail.headD 0 := by
  obtain ⟨hb, _, he, _, _⟩ := h
  rw [he, hb, Nat.add_sub_cancel]
  have h1 : pre ++ x :: y :: tail ++ List.replicate (k + 1) 0 =
      (pre ++ [x, y]) ++ (tail ++ List.replicate (k + 1) 0) := by simp
  have h2 : (pre ++ [x, y]).length = pre.length + 1 + 1 := by simp
  rw [h1, ← h2]
  have := getD_append_len_add (pre ++ [x, y]) (tail ++ List.replicate (k + 1) 0) 0 0
  simp only [Nat.add_zero] at this
  rw [this]
  cases tail with
  | nil => rfl
  | cons y r => rfl

theorem inv_getD_L (s : retokenize_state) (pre : List Nat) (l : Nat) (rest : List Nat) (k : Nat)
    (h : retok_inv s (pre ++ [l]) rest k) :
    s.node.bytes.getD (s.element - 1 - 1) 0 = l := by
  obtain ⟨hb, _, he, _, _⟩ := h
  have h2 : (pre ++ [l]).length = pre.length + 1 := by simp
  rw [he, hb, h2, Nat.add_sub_cancel, Nat.add_sub_cancel]
  have h1 : pre ++ [l] ++ rest ++ List.replicate (k + 1) 0 =
      pre ++ l :: (rest ++ List.replicate (k + 1) 0) := by simp
  rw [h1]
  exact getD_append_len pre l _ 0

/-- A pass of the loop without a match moves on by one symbol and changes
neither the word nor the table. -/
theorem step_no_match (a b t : Nat) (s : retokenize_state) (pre : List Nat) (x : Nat)
    (rest : List Nat) (k : Nat) (h : retok_inv s pre (x :: rest) k)
    (hno : ¬ (x = a ∧ rest.headD 0 = b)) :
    retok_inv (word_retokenize_step a b t s) (pre ++ [x]) rest k ∧
      (word_retokenize_step a b t s).tbl = s.tbl ∧
      (word_retokenize_step a b t s).node.count = s.node.count := by
  have h1 := inv_getD_u1 s pre x rest k h
  have h2 := inv_getD_u2 s pre x rest k h
  obtain ⟨hb, hn, he, hl, ha⟩ := h
  unfold word_retokenize_step
  simp only [h1, h2, hno, if_false]
  refine ⟨⟨?_, ?_, ?_, ?_, ?_⟩, trivial, trivial⟩
  · rw [hb]; simp
  · rw [hn]; simp; omega
  · rw [he]; simp
  · simp only [he, hl, Nat.add_sub_cancel, List.length_append, List.length_singleton]
    split <;> omega
  · exact ha

/-- A pass of the loop at a match: the neighbour patches of `merge_word` are
made, the pair is replaced by the new token, and the walk stands behind it. -/
theorem step_match (a b t : Nat) (s : retokenize_state) (pre tail : List Nat) (k : Nat)
    (h : retok_inv s pre (a :: b :: tail) k) (hnz : ∀ v ∈ tail, v ≠ 0) :
    retok_inv (word_retokenize_step a b t s) (pre ++ [t]) tail (k + 1) ∧
      (word_retokenize_step a b t s).tbl =
        patch_right b t s.node.count tail (patch_left a t s.node.count pre.getLast? s.tbl) ∧
      (word_retokenize_step a b t s).node.count = s.node.count := by
  have h1 := inv_getD_u1 s pre a (b :: tail) k h
  have h2 := inv_getD_u2 s pre a (b :: tail) k h
  have h3 := inv_getD_R s pre a b tail k h
  simp only [List.headD_cons] at h2
  have hedit := match_edit pre tail a b t k
  have hrem : s.node.num_elements - s.element - 2 = tail.length := by
    obtain ⟨_, hn, he, _, _⟩ := h
    rw [hn, he]
    simp only [List.length_cons]
    omega
  have hidx : s.element - 1 = pre.length := by
    obtain ⟨_, _, he, _, _⟩ := h
    rw [he]; rfl
  have hbytes : (memmove (s.node.bytes.set (s.element - 1) t) (s.element - 1 + 1)
      (s.element - 1 + 1 + 1) (s.node.num_elements - s.element - 2)).set
        (s.element - 1 + 1 + (s.node.num_elements - s.element - 2)) 0 =
      (pre ++ [t]) ++ tail ++ List.replicate (k + 1 + 1) 0 := by
    rw [hrem, hidx, h.1]
    exact hedit
  rcases List.eq_nil_or_concat pre with hpre | ⟨p0, l, hpre⟩
  · subst hpre
    have hL : s.unigram_L = s.element - 1 := by
      obtain ⟨_, _, he, hl, _⟩ := h
      rw [he, hl]; rfl
    obtain ⟨hb, hn, he, hl, ha⟩ := h
    unfold word_retokenize_step
    simp only [h1, h2, h3, and_self, if_true, hL, ne_eq, not_true_eq_false, if_false, hbytes]
    refine ⟨⟨?_, ?_, ?_, ?_, ?_⟩, ?_, trivial⟩
    · rfl
    · simp only [hn, List.length_cons, List.length_append, List.length_nil]; omega
    · simp only [he, List.length_append, List.length_nil, List.length_singleton]
    · simp only [he, List.length_nil]; rfl
    · simp only [ha, hn]; omega
    · cases tail with
      | nil => simp [patch_right, patch_left]
      | cons r tl =>
        have : r ≠ 0 := hnz r (List.mem_cons_self _ _)
        simp [this, patch_right, patch_left]
  · rw [List.concat_eq_append] at hpre
    subst hpre
    have hLv := inv_getD_L s p0 l (a :: b :: tail) k h
    have hL : s.unigram_L ≠ s.element - 1 := by
      obtain ⟨_, _, he, hl, _⟩ := h
      rw [he, hl]; simp
    have hu0 : s.element - 1 ≠ 0 := by
      obtain ⟨_, _, he, _, _⟩ := h
      rw [he]; simp
    obtain ⟨hb, hn, he, hl, ha⟩ := h
    unfold word_retokenize_step
    simp only [h1, h2, h3, and_self, if_true, hL, ne_eq, not_false_eq_true, hbytes, hLv, hu0]
    refine ⟨⟨?_, ?_, ?_, ?_, ?_⟩, ?_, trivial⟩
    · rfl
    · simp only [hn, List.length_cons, List.length_append, List.length_singleton,
        List.length_nil]
      omega
    · simp only [he, List.length_append, List.length_singleton, List.length_cons,
        List.length_nil]
    · simp only [he, hl, List.length_append, List.length_singleton, List.length_cons,
        List.length_nil]
      omega
    · simp only [ha, hn]; omega
    · cases tail with
      | nil => simp [patch_right, patch_left]
      | cons r tl =>
        have : r ≠ 0 := hnz r (List.mem_cons_self _ _)
        simp [this, patch_right, patch_left]

theorem merge_word_match (a b t : Nat) (c : Int) (prev : Option Nat) (tail : List Nat)
    (tbl : bigram_table) :
    merge_word a b t c prev (a :: b :: tail) tbl =
      (t :: (merge_word a b t c (some t) tail
          (patch_right b t c tail (patch_left a t c prev tbl))).1,
        (merge_word a b t c (some t) tail
          (patch_right b t c tail (patch_left a t c prev tbl))).2) := by
  conv_lhs => unfold merge_word
  simp only [and_self, if_true]

theorem merge_word_no_match (a b t : Nat) (c : Int) (prev : Option Nat) (x y : Nat)
    (tail : List Nat) (tbl : bigram_table) (h : ¬ (x = a ∧ y = b)) :
    merge_word a b t c prev (x :: y :: tail) tbl =
      (x :: (merge_word a b t c (some x) (y :: tail) tbl).1,
        (merge_word a b t c (some x) (y :: tail) tbl).2) := by
  conv_lhs => unfold merge_word
  simp only [h, if_false]

theorem merge_word_nil (a b t : Nat) (c : Int) (prev : Option Nat) (tbl : bigram_table) :
    merge_word a b t c prev [] tbl = ([], tbl) := by
  simp [merge_word]

theorem merge_word_single (a b t : Nat) (c : Int) (prev : Option Nat) (x : Nat)
    (tbl : bigram_table) : merge_word a b t c prev [x] tbl = ([x], tbl) := by
  simp [merge_word]

/-- The loop of `word_retokenize`, from any position it reaches, computes what
`merge_word` computes on the symbols that are left. -/
theorem word_retokenize_loop_eq (a b t : Nat) (hb : b ≠ 0) :
    ∀ (fuel : Nat) (s : retokenize_state) (pre rest : List Nat) (k : Nat),
      retok_inv s pre rest k → (∀ v ∈ rest, v ≠ 0) → rest.length ≤ fuel →
      (word_retokenize_loop a b t fuel s).tbl =
          (merge_word a b t s.node.count pre.getLast? rest s.tbl).2 ∧
        (word_retokenize_loop a b t fuel s).node.count = s.node.count ∧
        ∃ k2, (word_retokenize_loop a b t fuel s).node.bytes =
            pre ++ (merge_word a b t s.node.count pre.getLast? rest s.tbl).1 ++
              List.replicate (k2 + 1) 0 ∧
          (word_retokenize_loop a b t fuel s).node.num_elements =
            pre.length + (merge_word a b t s.node.count pre.getLast? rest s.tbl).1.length + 1 ∧
          (word_retokenize_loop a b t fuel s).node.array_size =
            2 * (word_retokenize_loop a b t fuel s).node.num_elements := by
  intro fuel
  induction fuel with
  | zero =>
    intro s pre rest k h _ hlen
    have : rest = [] := List.length_eq_zero.1 (by omega)
    subst this
    simp only [word_retokenize_loop, merge_word_nil]
    exact ⟨trivial, trivial, k, h.1, h.2.1, h.2.2.2.2⟩
  | succ fuel ih =>
    intro s pre rest k h hnz hlen
    cases rest with
    | nil =>
      have hc : ¬ s.element < s.node.num_elements := by
        rw [h.2.1, h.2.2.1]; simp
      simp only [word_retokenize_loop, hc, if_false, merge_word_nil]
      exact ⟨trivial, trivial, k, h.1, h.2.1, h.2.2.2.2⟩
    | cons x rest =>
      have hc : s.element < s.node.num_elements := by
        rw [h.2.1, h.2.2.1]; simp
      have hlast : (pre ++ [x]).getLast? = some x := by simp
      have hlast2 : (pre ++ [t]).getLast? = some t := by simp
      simp only [word_retokenize_loop, hc, if_true]
      cases rest with
      | nil =>
        have hno : ¬ (x = a ∧ ([] : List Nat).headD 0 = b) := by
          rintro ⟨_, h0⟩
          exact hb h0.symm
        obtain ⟨hi, ht, hcnt⟩ := step_no_match a b t s pre x [] k h hno
        obtain ⟨h1, h2, k2, h3, h4, h5⟩ := ih _ (pre ++ [x]) [] k hi (by simp) (by simp)
        simp only [merge_word_nil, merge_word_single] at h1 h3 h4 ⊢
        refine ⟨by rw [h1, ht], by rw [h2, hcnt], k2, ?_, ?_, h5⟩
        · rw [h3]; simp
        · rw [h4]; simp
      | cons y tail =>
        by_cases hm : x = a ∧ y = b
        · obtain ⟨rfl, rfl⟩ := hm
          have hnz2 : ∀ v ∈ tail, v ≠ 0 := fun v hv =>
            hnz v (List.mem_cons_of_mem _ (List.mem_cons_of_mem _ hv))
          obtain ⟨hi, ht, hcnt⟩ := step_match x y t s pre tail k h hnz2
          obtain ⟨h1, h2, k2, h3, h4, h5⟩ := ih _ (pre ++ [t]) tail (k + 1) hi hnz2
            (by simp only [List.length_cons] at hlen; omega)
          have hmw : merge_word x y t s.node.count pre.getLast? (x :: y :: tail) s.tbl =
              (t :: (merge_word x y t s.node.count (some t) tail
                  (word_retokenize_step x y t s).tbl).1,
                (merge_word x y t s.node.count (some t) tail
                  (word_retokenize_step x y t s).tbl).2) := by
            rw [merge_word_match, ht]
          rw [hlast2, hcnt] at h1 h3 h4
          rw [hmw]
          refine ⟨h1, by rw [h2, hcnt], k2, ?_, ?_, h5⟩
          · rw [h3]; simp
          · rw [h4]; simp; omega
        · have hno : ¬ (x = a ∧ (y :: tail).headD 0 = b) := by simpa using hm
          obtain ⟨hi, ht, hcnt⟩ := step_no_match a b t s pre x (y :: tail) k h hno
          obtain ⟨h1, h2, k2, h3, h4, h5⟩ := ih _ (pre ++ [x]) (y :: tail) k hi
            (fun v hv => hnz v (List.mem_cons_of_mem _ hv))
            (by simp only [List.length_cons] at hlen ⊢; omega)
          have hmw : merge_word a b t s.node.count pre.getLast? (x :: y :: tail) s.tbl =
              (x :: (merge_word a b t s.node.count (some x) (y :: tail) s.tbl).1,
                (merge_word a b t s.node.count (some x) (y :: tail) s.tbl).2) := by
            exact merge_word_no_match a b t _ _ x y tail _ hm
          rw [hlast, hcnt, ht] at h1 h3 h4
          rw [hmw]
          refine ⟨h1, by rw [h2, hcnt], k2, ?_, ?_, h5⟩
          · rw [h3]; simp
          · rw [h4]; simp; omega

theorem get_freq_le_of_scan (tbl : bigram_table) (f : Int) (hf : 0 ≤ f)
    (h : ∀ n ∈ scan_order tbl, n.freq ≤ f) (x y : Nat) : get_freq tbl x y ≤ f := by
  unfold get_freq
  cases hfn : find_node tbl x y with
  | none => exact hf
  | some n =>
    have h1 := (chain_find_key _ _ _ _ hfn).1
    exact h n ((mem_scan_order tbl n).2 ⟨_, mem_of_bucket_get tbl _ n h1, h1⟩)

theorem get_freq_of_mem_scan (tbl : bigram_table) (hwf : table_wf tbl) (n : bigram_node)
    (hn : n ∈ scan_order tbl) : get_freq tbl n.bigram0 n.bigram1 = n.freq := by
  unfold get_freq
  rw [(mem_scan_order_iff_find tbl hwf n).1 hn]

/-- Max-pair selection on a well-formed table, through `get_freq`: when no
frequency is positive the start node stays; otherwise the scan ends on a table
node whose frequency is positive and at least that of every pair. -/
theorem scan_table_spec (tbl : bigram_table) (hwf : table_wf tbl) (m0 : max_ref) :
    ((∀ x y, get_freq tbl x y ≤ 0) ∧ (scan_max (scan_order tbl) m0 0).1 = m0) ∨
    ((scan_max (scan_order tbl) m0 0).1.in_table = true ∧
      0 < get_freq tbl (scan_max (scan_order tbl) m0 0).1.bigram0
        (scan_max (scan_order tbl) m0 0).1.bigram1 ∧
      ∀ x y, get_freq tbl x y ≤
        get_freq tbl (scan_max (scan_order tbl) m0 0).1.bigram0
          (scan_max (scan_order tbl) m0 0).1.bigram1) := by
  rcases scan_max_spec (scan_order tbl) m0 0 with ⟨h1, h2⟩ | ⟨l1, n, l2, h1, h2, h3, h4, h5⟩
  · left
    exact ⟨get_freq_le_of_scan tbl 0 (le_refl _) h2, by rw [h1]⟩
  · right
    have hn : n ∈ scan_order tbl := by rw [h1]; simp
    have hg := get_freq_of_mem_scan tbl hwf n hn
    rw [h2]
    simp only [hg]
    refine ⟨trivial, h3, ?_⟩
    apply get_freq_le_of_scan tbl n.freq (by omega)
    intro x hx
    rw [h1] at hx
    rcases List.mem_append.1 hx with hx | hx
    · have := h4 x hx; omega
    · rcases List.mem_cons.1 hx with hx | hx
      · subst hx; exact le_refl _
      · exact h5 x hx

theorem pair_count_pos_mem (a b : Nat) (w : List Nat) (h : 0 < pair_count a b w) :
    a ∈ w ∧ b ∈ w := by
  induction w with
  | nil => simp [pair_count] at h
  | cons x rest ih =>
    cases rest with
    | nil => simp [pair_count] at h
    | cons y rest =>
      simp only [pair_count] at h
      by_cases hxy : x = a ∧ y = b
      · obtain ⟨rfl, rfl⟩ := hxy
        simp
      · simp only [hxy, if_false, zero_add] at h
        have := ih h
        exact ⟨List.mem_cons_of_mem _ this.1, List.mem_cons_of_mem _ this.2⟩

theorem weighted_freq_pos (ws : List (List Nat × Nat)) (a b : Nat)
    (h : 0 < weighted_freq ws a b) : ∃ w ∈ ws, 0 < w.2 ∧ 0 < pair_count a b w.1 := by
  induction ws with
  | nil => simp [weighted_freq] at h
  | cons w rest ih =>
    simp only [weighted_freq, List.map_cons, List.sum_cons] at h
    by_cases hw : 0 < (w.2 : Int) * (pair_count a b w.1 : Int)
    · refine ⟨w, List.mem_cons_self _ _, ?_, ?_⟩
      · by_contra h0
        have : w.2 = 0 := by omega
        simp [this] at hw
      · by_contra h0
        have : pair_count a b w.1 = 0 := by omega
        simp [this] at hw
    · have h0 : (w.2 : Int) * (pair_count a b w.1 : Int) = 0 := by
        have : 0 ≤ (w.2 : Int) * (pair_count a b w.1 : Int) := by positivity
        omega
      rw [h0, zero_add] at h
      obtain ⟨w2, hw2, h2⟩ := ih h
      exact ⟨w2, List.mem_cons_of_mem _ hw2, h2⟩

/-- The symbols `merge_word` returns are symbols of the word or the new token. -/
theorem merge_word_mem (a b t : Nat) (c : Int) :
    ∀ (n : Nat) (w : List Nat) (prev : Option Nat) (tbl : bigram_table), w.length ≤ n →
      ∀ s ∈ (merge_word a b t c prev w tbl).1, s ∈ w ∨ s = t := by
  intro n
  induction n with
  | zero =>
    intro w prev tbl h s hs
    have : w = [] := List.length_eq_zero.1 (by omega)
    subst this
    rw [merge_word_nil] at hs
    exact Or.inl hs
  | succ n ih =>
    intro w prev tbl h s hs
    cases w with
    | nil => rw [merge_word_nil] at hs; exact Or.inl hs
    | cons x rest =>
      cases rest with
      | nil => rw [merge_word_single] at hs; exact Or.inl hs
      | cons y tail =>
        simp only [List.length_cons] at h
        by_cases hm : x = a ∧ y = b
        · obtain ⟨rfl, rfl⟩ := hm
          rw [merge_word_match] at hs
          rcases List.mem_cons.1 hs with hs | hs
          · exact Or.inr hs
          · rcases ih tail _ _ (by omega) s hs with h1 | h1
            · exact Or.inl (List.mem_cons_of_mem _ (List.mem_cons_of_mem _ h1))
            · exact Or.inr h1
        · rw [merge_word_no_match _ _ _ _ _ _ _ _ _ hm] at hs
          rcases List.mem_cons.1 hs with hs | hs
          · subst hs; exact Or.inl (List.mem_cons_self _ _)
          · rcases ih (y :: tail) _ _ (by simp only [List.length_cons]; omega) s hs with h1 | h1
            · exact Or.inl (List.mem_cons_of_mem _ h1)
            · exact Or.inr h1

/-- Source `word_retokenize` on a well-formed word record computes `merge_word` on its
symbols, and leaves a well-formed record with the same count. -/
theorem word_retokenize_eq (node : text_chunk_node) (w : List Nat) (a b t : Nat)
    (tbl : bigram_table) (hr : node_repr node w) (hb : b ≠ 0) (ht : t ≠ 0) :
    (word_retokenize node a b tbl t).2 = (merge_word a b t node.count none w tbl).2 ∧
      node_repr (word_retokenize node a b tbl t).1 (merge_word a b t node.count none w tbl).1 ∧
      (word_retokenize node a b tbl t).1.count = node.count := by
  obtain ⟨hnz, hn, ha, k, hbytes⟩ := hr
  have hinv : retok_inv { node := node, tbl := tbl, element := 1, unigram_L := 0 } [] w k :=
    ⟨by simpa using hbytes, by simpa using hn, rfl, rfl, ha⟩
  obtain ⟨h1, h2, k2, h3, h4, h5⟩ :=
    word_retokenize_loop_eq a b t hb node.num_elements _ [] w k hinv hnz (by omega)
  simp only [List.getLast?_nil, List.nil_append, List.length_nil, Nat.zero_add] at h1 h3 h4
  refine ⟨h1, ⟨?_, h4, h5, k2, h3⟩, h2⟩
  intro s hs
  rcases merge_word_mem a b t node.count w.length w none tbl (le_refl _) s hs with h | h
  · exact hnz s h
  · rw [h]; exact ht

/-- Source `retokenize` on a word table that holds the corpus `ws` computes
`merge_corpus` on `ws`. -/
theorem retokenize_eq (a b t : Nat) (hb : b ≠ 0) (ht : t ≠ 0)
    (text_table : List text_chunk_node) (ws : List (List Nat × Nat))
    (h : table_repr text_table ws) :
    ∀ tbl : bigram_table,
      (retokenize text_table a b tbl t).2 = (merge_corpus a b t ws tbl).2 ∧
        table_repr (retokenize text_table a b tbl t).1 (merge_corpus a b t ws tbl).1 := by
  induction h with
  | nil => intro tbl; exact ⟨rfl, List.Forall₂.nil⟩
  | @cons node w tt ws2 hd _ ih =>
    intro tbl
    obtain ⟨h1, h2, h3⟩ := word_retokenize_eq node w.1 a b t tbl hd.1 hb ht
    rw [hd.2] at h1 h2
    obtain ⟨h4, h5⟩ := ih (word_retokenize node a b tbl t).2
    simp only [retokenize, merge_corpus]
    rw [← h1]
    refine ⟨h4, List.Forall₂.cons ⟨h2, ?_⟩ h5⟩
    rw [h3, hd.2]

theorem merge_symbols_match (a b t : Nat) (r : List Nat) :
    merge_symbols a b t (a :: b :: r) = t :: merge_symbols a b t r := by
  conv_lhs => unfold merge_symbols
  simp

theorem merge_symbols_no_match (a b t x y : Nat) (r : List Nat) (h : ¬ (x = a ∧ y = b)) :
    merge_symbols a b t (x :: y :: r) = x :: merge_symbols a b t (y :: r) := by
  conv_lhs => unfold merge_symbols
  simp only [h, if_false]

theorem merge_symbols_nil (a b t : Nat) : merge_symbols a b t [] = [] := by
  simp [merge_symbols]

theorem merge_symbols_single (a b t x : Nat) : merge_symbols a b t [x] = [x] := by
  simp [merge_symbols]

/-- The word `merge_word` returns is the greedy merge of the word; it depends
on neither the table nor the symbol before the word. -/
theorem merge_word_fst (a b t : Nat) (c : Int) :
    ∀ (n : Nat) (w : List Nat) (prev : Option Nat) (tbl : bigram_table), w.length ≤ n →
      (merge_word a b t c prev w tbl).1 = merge_symbols a b t w := by
  intro n
  induction n with
  | zero =>
    intro w prev tbl h
    have : w = [] := List.length_eq_zero.1 (by omega)
    subst this
    rw [merge_word_nil, merge_symbols_nil]
  | succ n ih =>
    intro w prev tbl h
    cases w with
    | nil => rw [merge_word_nil, merge_symbols_nil]
    | cons x rest =>
      cases rest with
      | nil => rw [merge_word_single, merge_symbols_single]
      | cons y tail =>
        simp only [List.length_cons] at h
        by_cases hm : x = a ∧ y = b
        · obtain ⟨rfl, rfl⟩ := hm
          rw [merge_word_match, merge_symbols_match, ih tail _ _ (by omega)]
        · rw [merge_word_no_match _ _ _ _ _ _ _ _ _ hm, merge_symbols_no_match _ _ _ _ _ _ hm,
            ih (y :: tail) _ _ (by simp only [List.length_cons]; omega)]

theorem get_freq_update_ind (tbl : bigram_table) (a b : Nat) (d : Int) (x y : Nat) :
    ((get_freq (update_bigram_table a b d tbl) x y : Int) : ZMod 4294967296) =
      (get_freq tbl x y : ZMod 4294967296) +
        ((d * ind (a = x ∧ b = y) : Int) : ZMod 4294967296) := by
  rw [get_freq_update_cast]
  unfold ind
  by_cases h : x = a ∧ y = b
  · obtain ⟨rfl, rfl⟩ := h
    simp
  · have h2 : ¬ (a = x ∧ b = y) := fun h3 => h ⟨h3.1.symm, h3.2.symm⟩
    simp [h, h2]

theorem pair_count_cons_cons (x y u v : Nat) (r : List Nat) :
    (pair_count x y (u :: v :: r) : Int) = ind (u = x ∧ v = y) + pair_count x y (v :: r) := by
  simp only [pair_count, ind]
  split <;> simp

theorem pair_count_single (x y u : Nat) : pair_count x y [u] = 0 := by
  simp [pair_count]

theorem pair_count_nil (x y : Nat) : pair_count x y [] = 0 := by
  simp [pair_count]

theorem get_freq_patch_left (a t : Nat) (c : Int) (prev : Option Nat) (tbl : bigram_table)
    (x y : Nat) :
    ((get_freq (patch_left a t c prev tbl) x y : Int) : ZMod 4294967296) =
      (get_freq tbl x y : ZMod 4294967296) +
        ((match prev with
          | some l => c * ind (l = x ∧ t = y) - c * ind (l = x ∧ a = y)
          | none => 0 : Int) : ZMod 4294967296) := by
  cases prev with
  | none => simp [patch_left]
  | some l =>
    simp only [patch_left, get_freq_update_ind]
    push_cast
    ring

theorem get_freq_patch_right (b t : Nat) (c : Int) (tail : List Nat) (tbl : bigram_table)
    (x y : Nat) :
    ((get_freq (patch_right b t c tail tbl) x y : Int) : ZMod 4294967296) =
      (get_freq tbl x y : ZMod 4294967296) +
        ((match tail with
          | r :: _ => c * ind (t = x ∧ r = y) - c * ind (b = x ∧ r = y)
          | [] => 0 : Int) : ZMod 4294967296) := by
  cases tail with
  | nil => simp [patch_right]
  | cons r tl =>
    simp only [patch_right, get_freq_update_ind]
    push_cast
    ring

/-- The symbols of a word with the symbol before it, when there is one. -/
theorem merge_word_freq (a b t : Nat) (c : Int) (x y : Nat) (hxy : ¬ (a = x ∧ b = y)) :
    ∀ (n : Nat) (w : List Nat) (prev : Option Nat) (tbl : bigram_table), w.length ≤ n →
      ((get_freq (merge_word a b t c prev w tbl).2 x y : Int) : ZMod 4294967296) =
        (get_freq tbl x y : ZMod 4294967296) +
          ((c * ((pair_count x y (prev.toList ++ merge_symbols a b t w) : Int) -
            (pair_count x y (prev.toList ++ w) : Int)) : Int) : ZMod 4294967296) := by
  intro n
  induction n with
  | zero =>
    intro w prev tbl h
    have : w = [] := List.length_eq_zero.1 (by omega)
    subst this
    rw [merge_word_nil, merge_symbols_nil]
    simp
  | succ n ih =>
    intro w prev tbl h
    cases w with
    | nil => rw [merge_word_nil, merge_symbols_nil]; simp
    | cons u rest =>
      cases rest with
      | nil => rw [merge_word_single, merge_symbols_single]; simp
      | cons v tail =>
        simp only [List.length_cons] at h
        by_cases hm : u = a ∧ v = b
        · obtain ⟨rfl, rfl⟩ := hm
          rw [merge_word_match, merge_symbols_match]
          simp only []
          rw [ih tail (some t) _ (by omega), get_freq_patch_right, get_freq_patch_left]
          have hab : ind (u = x ∧ v = y) = 0 := by simp [ind, hxy]
          cases prev with
          | none =>
            cases tail with
            | nil =>
              simp only [Option.toList, List.nil_append, List.singleton_append,
                merge_symbols_nil, pair_count_cons_cons, pair_count_single, hab]
              push_cast
              ring
            | cons r tl =>
              simp only [Option.toList, List.nil_append, List.singleton_append,
                pair_count_cons_cons, hab]
              push_cast
              ring
          | some l =>
            cases tail with
            | nil =>
              simp only [Option.toList, List.nil_append, List.singleton_append,
                merge_symbols_nil, pair_count_cons_cons, pair_count_single, hab]
              push_cast
              ring
            | cons r tl =>
              simp only [Option.toList, List.nil_append, List.singleton_append,
                pair_count_cons_cons, hab]
              push_cast
              ring
        · rw [merge_word_no_match _ _ _ _ _ _ _ _ _ hm, merge_symbols_no_match _ _ _ _ _ _ hm]
          simp only []
          rw [ih (v :: tail) (some u) _ (by simp only [List.length_cons]; omega)]
          cases prev with
          | none =>
            simp only [Option.toList, List.nil_append, List.singleton_append]
          | some l =>
            simp only [Option.toList, List.singleton_append, pair_count_cons_cons]
            push_cast
            ring

theorem merge_symbols_head (a b t : Nat) (w : List Nat) :
    (merge_symbols a b t w).head? = w.head? ∨ (merge_symbols a b t w).head? = some t := by
  cases w with
  | nil => left; rw [merge_symbols_nil]
  | cons x rest =>
    cases rest with
    | nil => left; rw [merge_symbols_single]
    | cons y tail =>
      by_cases hm : x = a ∧ y = b
      · obtain ⟨rfl, rfl⟩ := hm
        right; rw [merge_symbols_match]; rfl
      · left; rw [merge_symbols_no_match _ _ _ _ _ _ hm]; rfl

theorem pair_count_cons (x y u : Nat) (w : List Nat) :
    pair_count x y (u :: w) = (if u = x ∧ w.head? = some y then 1 else 0) + pair_count x y w := by
  cases w with
  | nil => simp [pair_count]
  | cons v r => simp [pair_count]

/-- After the greedy merge the pair `(a, b)` has no occurrence left, the new
token being neither `a` nor `b`. -/
theorem pair_count_merge_symbols_self (a b t : Nat) (hta : t ≠ a) (htb : t ≠ b) :
    ∀ (n : Nat) (w : List Nat), w.length ≤ n → pair_count a b (merge_symbols a b t w) = 0 := by
  intro n
  induction n with
  | zero =>
    intro w h
    have : w = [] := List.length_eq_zero.1 (by omega)
    subst this
    rw [merge_symbols_nil, pair_count_nil]
  | succ n ih =>
    intro w h
    cases w with
    | nil => rw [merge_symbols_nil, pair_count_nil]
    | cons x rest =>
      cases rest with
      | nil => rw [merge_symbols_single, pair_count_single]
      | cons y tail =>
        simp only [List.length_cons] at h
        by_cases hm : x = a ∧ y = b
        · obtain ⟨rfl, rfl⟩ := hm
          rw [merge_symbols_match, pair_count_cons, ih tail (by omega)]
          simp [hta]
        · rw [merge_symbols_no_match _ _ _ _ _ _ hm, pair_count_cons,
            ih (y :: tail) (by simp only [List.length_cons]; omega)]
          have : ¬ (x = a ∧ (merge_symbols a b t (y :: tail)).head? = some b) := by
            rintro ⟨hx, hh⟩
            rcases merge_symbols_head a b t (y :: tail) with h1 | h1
            · rw [h1] at hh
              simp only [List.head?_cons, Option.some.injEq] at hh
              exact hm ⟨hx, hh⟩
            · rw [h1] at hh
              simp only [Option.some.injEq] at hh
              exact htb hh
          simp [this]

theorem patch_left_wf (a t : Nat) (c : Int) (prev : Option Nat) (tbl : bigram_table)
    (h : table_wf tbl) : table_wf (patch_left a t c prev tbl) := by
  cases prev with
  | none => exact h
  | some l => exact update_bigram_table_wf _ _ _ _ (update_bigram_table_wf _ _ _ _ h)

theorem patch_right_wf (b t : Nat) (c : Int) (tail : List Nat) (tbl : bigram_table)
    (h : table_wf tbl) : table_wf (patch_right b t c tail tbl) := by
  cases tail with
  | nil => exact h
  | cons r tl => exact update_bigram_table_wf _ _ _ _ (update_bigram_table_wf _ _ _ _ h)

theorem merge_word_wf (a b t : Nat) (c : Int) :
    ∀ (n : Nat) (w : List Nat) (prev : Option Nat) (tbl : bigram_table), w.length ≤ n →
      table_wf tbl → table_wf (merge_word a b t c prev w tbl).2 := by
  intro n
  induction n with
  | zero =>
    intro w prev tbl h hwf
    have : w = [] := List.length_eq_zero.1 (by omega)
    subst this
    rw [merge_word_nil]; exact hwf
  | succ n ih =>
    intro w prev tbl h hwf
    cases w with
    | nil => rw [merge_word_nil]; exact hwf
    | cons x rest =>
      cases rest with
      | nil => rw [merge_word_single]; exact hwf
      | cons y tail =>
        simp only [List.length_cons] at h
        by_cases hm : x = a ∧ y = b
        · obtain ⟨rfl, rfl⟩ := hm
          rw [merge_word_match]
          exact ih tail _ _ (by omega) (patch_right_wf _ _ _ _ _ (patch_left_wf _ _ _ _ _ hwf))
        · rw [merge_word_no_match _ _ _ _ _ _ _ _ _ hm]
          exact ih (y :: tail) _ _ (by simp only [List.length_cons]; omega) hwf

/-- The corpus `merge_corpus` returns: every word greedily merged, counts kept. -/
theorem merge_corpus_fst (a b t : Nat) (ws : List (List Nat × Nat)) :
    ∀ tbl : bigram_table,
      (merge_corpus a b t ws tbl).1 = ws.map (fun w => (merge_symbols a b t w.1, w.2)) := by
  induction ws with
  | nil => intro tbl; rfl
  | cons w rest ih =>
    intro tbl
    simp only [merge_corpus, List.map_cons, ih]
    rw [merge_word_fst a b t w.2 w.1.length w.1 none tbl (le_refl _)]

theorem merge_corpus_wf (a b t : Nat) (ws : List (List Nat × Nat)) :
    ∀ tbl : bigram_table, table_wf tbl → table_wf (merge_corpus a b t ws tbl).2 := by
  induction ws with
  | nil => intro tbl h; exact h
  | cons w rest ih =>
    intro tbl h
    simp only [merge_corpus]
    exact ih _ (merge_word_wf a b t w.2 w.1.length w.1 none tbl (le_refl _) h)

/-- Pair-index bookkeeping of one `retokenize` pass: for every pair other than
the merged one the stored frequency moves, modulo 2^32, by the change of the
pair's weighted frequency in the corpus. -/
theorem merge_corpus_freq (a b t : Nat) (x y : Nat) (hxy : ¬ (a = x ∧ b = y))
    (ws : List (List Nat × Nat)) :
    ∀ tbl : bigram_table,
      ((get_freq (merge_corpus a b t ws tbl).2 x y : Int) : ZMod 4294967296) =
        (get_freq tbl x y : ZMod 4294967296) +
          ((weighted_freq (ws.map (fun w => (merge_symbols a b t w.1, w.2))) x y -
            weighted_freq ws x y : Int) : ZMod 4294967296) := by
  induction ws with
  | nil => intro tbl; simp [merge_corpus, weighted_freq]
  | cons w rest ih =>
    intro tbl
    simp only [merge_corpus]
    rw [ih, merge_word_freq a b t w.2 x y hxy w.1.length w.1 none tbl (le_refl _)]
    simp only [weighted_freq, List.map_cons, List.sum_cons, Option.toList, List.nil_append]
    push_cast
    ring

theorem weighted_freq_merge_self (a b t : Nat) (hta : t ≠ a) (htb : t ≠ b)
    (ws : List (List Nat × Nat)) :
    weighted_freq (ws.map (fun w => (merge_symbols a b t w.1, w.2))) a b = 0 := by
  induction ws with
  | nil => simp [weighted_freq]
  | cons w rest ih =>
    simp only [weighted_freq, List.map_cons, List.sum_cons] at ih ⊢
    rw [ih, pair_count_merge_symbols_self a b t hta htb w.1.length w.1 (le_refl _)]
    simp

theorem patch_left_range (a t : Nat) (c : Int) (prev : Option Nat) (tbl : bigram_table)
    (h : table_range tbl) : table_range (patch_left a t c prev tbl) := by
  cases prev with
  | none => exact h
  | some l => exact update_bigram_table_range _ _ _ _ (update_bigram_table_range _ _ _ _ h)

theorem patch_right_range (b t : Nat) (c : Int) (tail : List Nat) (tbl : bigram_table)
    (h : table_range tbl) : table_range (patch_right b t c tail tbl) := by
  cases tail with
  | nil => exact h
  | cons r tl => exact update_bigram_table_range _ _ _ _ (update_bigram_table_range _ _ _ _ h)

theorem merge_word_range (a b t : Nat) (c : Int) :
    ∀ (n : Nat) (w : List Nat) (prev : Option Nat) (tbl : bigram_table), w.length ≤ n →
      table_range tbl → table_range (merge_word a b t c prev w tbl).2 := by
  intro n
  induction n with
  | zero =>
    intro w prev tbl h hr
    have : w = [] := List.length_eq_zero.1 (by omega)
    subst this
    rw [merge_word_nil]; exact hr
  | succ n ih =>
    intro w prev tbl h hr
    cases w with
    | nil => rw [merge_word_nil]; exact hr
    | cons x rest =>
      cases rest with
      | nil => rw [merge_word_single]; exact hr
      | cons y tail =>
        simp only [List.length_cons] at h
        by_cases hm : x = a ∧ y = b
        · obtain ⟨rfl, rfl⟩ := hm
          rw [merge_word_match]
          exact ih tail _ _ (by omega)
            (patch_right_range _ _ _ _ _ (patch_left_range _ _ _ _ _ hr))
        · rw [merge_word_no_match _ _ _ _ _ _ _ _ _ hm]
          exact ih (y :: tail) _ _ (by simp only [List.length_cons]; omega) hr

/-- A `retokenize` pass stores values of a 32-bit `int` only. -/
theorem merge_corpus_range (a b t : Nat) (ws : List (List Nat × Nat)) :
    ∀ tbl : bigram_table, table_range tbl → table_range (merge_corpus a b t ws tbl).2 := by
  induction ws with
  | nil => intro tbl h; exact h
  | cons w rest ih =>
    intro tbl h
    simp only [merge_corpus]
    exact ih _ (merge_word_range a b t w.2 w.1.length w.1 none tbl (le_refl _) h)

theorem merge_symbols_length_le (a b t : Nat) :
    ∀ (n : Nat) (w : List Nat), w.length ≤ n → (merge_symbols a b t w).length ≤ w.length := by
  intro n
  induction n with
  | zero =>
    intro w h
    have : w = [] := List.length_eq_zero.1 (by omega)
    subst this
    rw [merge_symbols_nil]
  | succ n ih =>
    intro w h
    cases w with
    | nil => rw [merge_symbols_nil]
    | cons x rest =>
      cases rest with
      | nil => rw [merge_symbols_single]
      | cons y tail =>
        simp only [List.length_cons] at h
        by_cases hm : x = a ∧ y = b
        · obtain ⟨rfl, rfl⟩ := hm
          rw [merge_symbols_match]
          have := ih tail (by omega)
          simp only [List.length_cons]
          omega
        · rw [merge_symbols_no_match _ _ _ _ _ _ hm]
          have := ih (y :: tail) (by simp only [List.length_cons]; omega)
          simp only [List.length_cons] at this ⊢
          omega

/-- A merge pass does not raise the total weighted pair count. -/
theorem total_pair_weight_merge_le (a b t : Nat) (ws : List (List Nat × Nat)) :
    total_pair_weight (ws.map (fun w => (merge_symbols a b t w.1, w.2))) ≤
      total_pair_weight ws := by
  induction ws with
  | nil => simp [total_pair_weight]
  | cons w rest ih =>
    simp only [total_pair_weight, List.map_cons, List.sum_cons] at ih ⊢
    have h1 := merge_symbols_length_le a b t w.1.length w.1 (le_refl _)
    have h2 : w.2 * ((merge_symbols a b t w.1).length - 1) ≤ w.2 * (w.1.length - 1) :=
      Nat.mul_le_mul_left _ (by omega)
    omega

theorem expand_fuel (tt : token_table) (n : Nat) (hwf : tt_wf tt n) :
    ∀ (f1 f2 t : Nat), t < f1 → t < f2 → expand tt f1 t = expand tt f2 t := by
  intro f1
  induction f1 with
  | zero => intro f2 t h; omega
  | succ f1 ih =>
    intro f2 t h1 h2
    obtain ⟨f2, rfl⟩ : ∃ k, f2 = k + 1 := ⟨f2 - 1, by omega⟩
    simp only [expand]
    by_cases ht : t < 256
    · simp [ht]
    · simp only [ht, if_false]
      cases htt : tt t with
      | none => rfl
      | some node =>
        obtain ⟨c0, _, c1, _⟩ := hwf.2 t node htt
        simp only []
        rw [ih f2 node.token0 (by omega) (by omega), ih f2 node.token1 (by omega) (by omega)]

theorem expansion_byte (tt : token_table) (t : Nat) (h : t < 256) : expansion tt t = [t] := by
  simp [expansion, expand, h]

/-- Vocabulary monotonicity on the spec's expansion: a token expands to the
expansion of its left child followed by that of its right child. -/
theorem expansion_token (tt : token_table) (n : Nat) (hwf : tt_wf tt n) (t : Nat)
    (node : token_node) (h : tt t = some node) :
    expansion tt t = expansion tt node.token0 ++ expansion tt node.token1 := by
  have ht : ¬ t < 256 := by
    have := (hwf.1 t).1 (by rw [h]; rfl)
    omega
  obtain ⟨c0, _, c1, _⟩ := hwf.2 t node h
  unfold expansion
  conv_lhs => unfold expand
  simp only [ht, if_false, h]
  rw [expand_fuel tt n hwf t (node.token0 + 1) node.token0 c0 (by omega),
    expand_fuel tt n hwf t (node.token1 + 1) node.token1 c1 (by omega)]

theorem expansion_length_pos (tt : token_table) (n : Nat) (hwf : tt_wf tt n) :
    ∀ (t : Nat), t < n ∨ t < 256 → 0 < (expansion tt t).length := by
  intro t
  induction t using Nat.strong_induction_on with
  | _ t ih =>
    intro ht
    by_cases hb : t < 256
    · rw [expansion_byte tt t hb]; simp
    · have hsome : (tt t).isSome = true := (hwf.1 t).2 ⟨by omega, by omega⟩
      obtain ⟨node, hnode⟩ := Option.isSome_iff_exists.1 hsome
      obtain ⟨c0, _, c1, _⟩ := hwf.2 t node hnode
      rw [expansion_token tt n hwf t node hnode, List.length_append]
      have := ih node.token0 c0 (Or.inl (by omega))
      omega

/-- On a well-founded merge table, with room for the whole expansion, `dfs`
appends the expansion of the token to the buffer and takes no error branch. -/
theorem dfs_eq_expansion (tt : token_table) (n token_idx_end max_size : Nat)
    (hwf : tt_wf tt n) (hend : n ≤ token_idx_end + 1) :
    ∀ (fuel index : Nat) (token : List Nat) (err : Bool),
      256 ≤ index → index < n → index < 256 + fuel →
      token.length + (expansion tt index).length ≤ max_size →
      dfs tt token_idx_end max_size fuel index (token, err) =
        some (token ++ expansion tt index, err) := by
  intro fuel
  induction fuel with
  | zero => intro index token err h1 _ h3; omega
  | succ fuel ih =>
    intro index token err h1 h2 h3 h4
    have hsome : (tt index).isSome = true := (hwf.1 index).2 ⟨h1, h2⟩
    obtain ⟨node, hnode⟩ := Option.isSome_iff_exists.1 hsome
    obtain ⟨c0, _, c1, _⟩ := hwf.2 index node hnode
    have hexp := expansion_token tt n hwf index node hnode
    have hpos := expansion_length_pos tt n hwf index (Or.inl h2)
    have hcheck : ¬ (index > token_idx_end ∨ (tt index).isNone = true ∨
        token.length ≥ max_size) := by
      rintro (h | h | h)
      · omega
      · rw [hnode] at h; simp at h
      · omega
    rw [hexp, List.length_append] at h4
    have hr0 : (if node.token0 < 256 then some (token ++ [node.token0], err)
        else dfs tt token_idx_end max_size fuel node.token0 (token, err)) =
        some (token ++ expansion tt node.token0, err) := by
      by_cases hb : node.token0 < 256
      · simp [hb, expansion_byte tt _ hb]
      · simp only [hb, if_false]
        exact ih node.token0 token err (by omega) (by omega) (by omega) (by omega)
    have hr1 : (if node.token1 < 256 then
          some (token ++ expansion tt node.token0 ++ [node.token1], err)
        else dfs tt token_idx_end max_size fuel node.token1
          (token ++ expansion tt node.token0, err)) =
        some (token ++ expansion tt node.token0 ++ expansion tt node.token1, err) := by
      by_cases hb : node.token1 < 256
      · simp [hb, expansion_byte tt _ hb]
      · simp only [hb, if_false]
        exact ih node.token1 _ err (by omega) (by omega) (by omega)
          (by rw [List.length_append]; omega)
    rw [dfs, if_neg hcheck]
    simp only [hnode, hr0]
    rw [hr1, hexp, List.append_assoc]

/-- A token minted at an index the table did not hold changes no expansion of
a smaller symbol. -/
theorem expand_update (tt : token_table) (n : Nat) (hwf : tt_wf tt n) (t : Nat)
    (node : token_node) :
    ∀ (fuel i : Nat), i < t →
      expand (fun j => if j = t then some node else tt j) fuel i = expand tt fuel i := by
  intro fuel
  induction fuel with
  | zero => intro i _; rfl
  | succ fuel ih =>
    intro i hi
    simp only [expand]
    by_cases hb : i < 256
    · simp [hb]
    · have hne : ¬ i = t := by omega
      simp only [hb, if_false, hne]
      cases htt : tt i with
      | none => rfl
      | some nd =>
        obtain ⟨c0, _, c1, _⟩ := hwf.2 i nd htt
        simp only []
        rw [ih nd.token0 (by omega), ih nd.token1 (by omega)]

theorem expansion_update (tt : token_table) (n : Nat) (hwf : tt_wf tt n) (t : Nat)
    (node : token_node) (i : Nat) (hi : i < t) :
    expansion (fun j => if j = t then some node else tt j) i = expansion tt i :=
  expand_update tt n hwf t node (i + 1) i hi

theorem tt_wf_update (tt : token_table) (k : Nat) (hwf : tt_wf tt (256 + k)) (a b : Nat)
    (ha : a < 256 + k) (ha0 : a ≠ 0) (hb : b < 256 + k) (hb0 : b ≠ 0) :
    tt_wf (fun j => if j = 256 + k then some { token0 := a, token1 := b } else tt j)
      (256 + (k + 1)) := by
  constructor
  · intro i
    by_cases hi : i = 256 + k
    · subst hi
      simp
    · simp only [hi, if_false]
      rw [hwf.1 i]
      omega
  · intro i node hnode
    by_cases hi : i = 256 + k
    · subst hi
      simp only [if_true, Option.some.injEq] at hnode
      subst hnode
      exact ⟨ha, ha0, hb, hb0⟩
    · simp only [hi, if_false] at hnode
      exact hwf.2 i node hnode

theorem expand_word_nil (tt : token_table) : expand_word tt [] = [] := rfl

theorem expand_word_cons (tt : token_table) (x : Nat) (w : List Nat) :
    expand_word tt (x :: w) = expansion tt x ++ expand_word tt w := by
  simp [expand_word]

theorem expand_word_append (tt : token_table) (w1 w2 : List Nat) :
    expand_word tt (w1 ++ w2) = expand_word tt w1 ++ expand_word tt w2 := by
  simp [expand_word]

/-- Rewriting a word keeps the bytes it stands for, once the new token records
the merged pair. -/
theorem expand_word_merge (tt : token_table) (k : Nat) (hwf : tt_wf tt (256 + k)) (a b : Nat)
    (ha : a < 256 + k) (ha0 : a ≠ 0) (hb : b < 256 + k) (hb0 : b ≠ 0) :
    ∀ (n : Nat) (w : List Nat), w.length ≤ n → (∀ x ∈ w, x < 256 + k) →
      expand_word (fun j => if j = 256 + k then some { token0 := a, token1 := b } else tt j)
          (merge_symbols a b (256 + k) w) =
        expand_word tt w := by
  have hwf2 := tt_wf_update tt k hwf a b ha ha0 hb hb0
  have hold : ∀ i, i < 256 + k →
      expansion (fun j => if j = 256 + k then some { token0 := a, token1 := b } else tt j) i =
        expansion tt i :=
    fun i hi => expansion_update tt (256 + k) hwf (256 + k) _ i hi
  have hnew : expansion (fun j => if j = 256 + k then some { token0 := a, token1 := b }
      else tt j) (256 + k) = expansion tt a ++ expansion tt b := by
    rw [expansion_token _ _ hwf2 (256 + k) { token0 := a, token1 := b } (by simp)]
    simp only []
    rw [hold a ha, hold b hb]
  intro n
  induction n with
  | zero =>
    intro w h _
    have : w = [] := List.length_eq_zero.1 (by omega)
    subst this
    rw [merge_symbols_nil]
    rfl
  | succ n ih =>
    intro w h hs
    cases w with
    | nil => rw [merge_symbols_nil]; rfl
    | cons x rest =>
      cases rest with
      | nil =>
        rw [merge_symbols_single, expand_word_cons, expand_word_cons, hold x (hs x (by simp))]
        rfl
      | cons y tail =>
        simp only [List.length_cons] at h
        by_cases hm : x = a ∧ y = b
        · obtain ⟨rfl, rfl⟩ := hm
          rw [merge_symbols_match, expand_word_cons, hnew,
            ih tail (by omega) (fun z hz => hs z (by simp [hz])),
            expand_word_cons, expand_word_cons, List.append_assoc]
        · rw [merge_symbols_no_match _ _ _ _ _ _ hm, expand_word_cons, hold x (hs x (by simp)),
            ih (y :: tail) (by simp only [List.length_cons]; omega)
              (fun z hz => hs z (List.mem_cons_of_mem _ hz)),
            expand_word_cons, expand_word_cons, expand_word_cons]

theorem pair_count_pos_split (a b : Nat) (w : List Nat) (h : 0 < pair_count a b w) :
    ∃ l1 l2, w = l1 ++ a :: b :: l2 := by
  induction w with
  | nil => simp [pair_count] at h
  | cons x rest ih =>
    cases rest with
    | nil => simp [pair_count] at h
    | cons y tail =>
      by_cases hxy : x = a ∧ y = b
      · obtain ⟨rfl, rfl⟩ := hxy
        exact ⟨[], tail, rfl⟩
      · simp only [pair_count, hxy, if_false, zero_add] at h
        obtain ⟨l1, l2, hl⟩ := ih h
        exact ⟨x :: l1, l2, by rw [hl]; rfl⟩

theorem forall₂_exists_right {α β : Type} (R : α → β → Prop) (l1 : List α) (l2 : List β)
    (h : List.Forall₂ R l1 l2) (a : α) (ha : a ∈ l1) : ∃ b ∈ l2, R a b := by
  induction h with
  | nil => simp at ha
  | @cons x y xs ys hxy _ ih =>
    rcases List.mem_cons.1 ha with ha | ha
    · subst ha
      exact ⟨y, List.mem_cons_self _ _, hxy⟩
    · obtain ⟨b, hb, hr⟩ := ih ha
      exact ⟨b, List.mem_cons_of_mem _ hb, hr⟩

/-- A pair that occurs in the corpus expands to a piece of an original word. -/
theorem pair_expansion_infix (tt : token_table) (words ws : List (List Nat × Nat))
    (hexp : List.Forall₂ (fun w w0 => expand_word tt w.1 = w0.1 ∧ w.2 = w0.2) ws words)
    (a b : Nat) (h : 0 < weighted_freq ws a b) :
    ∃ w0 ∈ words, (expansion tt a ++ expansion tt b) <:+: w0.1 := by
  obtain ⟨w, hw, _, hpc⟩ := weighted_freq_pos ws a b h
  obtain ⟨l1, l2, hl⟩ := pair_count_pos_split a b w.1 hpc
  obtain ⟨w0, hw0, hr, _⟩ := forall₂_exists_right _ ws words hexp w hw
  refine ⟨w0, hw0, expand_word tt l1, expand_word tt l2, ?_⟩
  rw [← hr, hl, expand_word_append, expand_word_cons, expand_word_cons]
  simp

theorem expand_word_bytes (tt : token_table) (w : List Nat) (h : ∀ b ∈ w, b < 256) :
    expand_word tt w = w := by
  induction w with
  | nil => rfl
  | cons x rest ih =>
    rw [expand_word_cons, expansion_byte tt x (h x (List.mem_cons_self _ _)),
      ih (fun b hb => h b (List.mem_cons_of_mem _ hb))]
    rfl

/-- The state `train` enters its merge loop with satisfies the invariant. -/
theorem train_inv_init (init_bigram : Nat × Nat) (words : List (List Nat × Nat))
    (hv : valid_words words) (hb : total_pair_weight words < 2147483648) :
    train_inv words 0
      { text_table := build_text_table words
        tbl := build_bigram_table (build_text_table words)
        max_node := { in_table := false, bigram0 := init_bigram.1, bigram1 := init_bigram.2 }
        tt := fun _ => none
        token_idx := 256 } words := by
  have hrepr := build_text_table_repr words hv
  refine
    { token_idx := rfl
      repr := hrepr
      wf := build_bigram_table_wf _ _ hrepr
      range := build_bigram_table_range _
      bound := hb
      freq := fun x y _ => get_freq_build_bigram_table _ _ hrepr hb x y
      gone := by intro h; simp at h
      init := fun _ => rfl
      ttwf := ⟨by intro i; simp, by intro i node h; simp at h⟩
      symbols := ?_
      expansions := ?_
      minted := by intro i h1 h2; omega
      last := by intro h; omega }
  · intro w hw x hx
    have := (hv w hw).1 x hx
    omega
  · have : ∀ l : List (List Nat × Nat), (∀ w ∈ l, ∀ b ∈ w.1, b < 256) →
        List.Forall₂ (fun w w0 : List Nat × Nat =>
          expand_word (fun _ => none) w.1 = w0.1 ∧ w.2 = w0.2) l l := by
      intro l
      induction l with
      | nil => intro _; exact List.Forall₂.nil
      | cons w rest ih =>
        intro h
        exact List.Forall₂.cons
          ⟨expand_word_bytes _ _ (h w (List.mem_cons_self _ _)), rfl⟩
          (ih (fun x hx => h x (List.mem_cons_of_mem _ hx)))
    apply this
    intro w hw b hb
    have := (hv w hw).1 b hb
    omega

theorem get_freq_after_reset (words : List (List Nat × Nat)) (k : Nat) (s : train_state)
    (ws : List (List Nat × Nat)) (h : train_inv words k s ws) (x y : Nat) :
    get_freq (reset_max_freq s.max_node s.tbl) x y = weighted_freq ws x y := by
  rw [get_freq_reset]
  by_cases hc : s.max_node.in_table = true ∧ x = s.max_node.bigram0 ∧ y = s.max_node.bigram1
  · obtain ⟨h1, h2, h3⟩ := hc
    simp only [h1, h2, h3, and_self, if_true]
    exact (h.gone h1).symm
  · simp only [hc, if_false]
    exact h.freq x y (fun h2 => hc ⟨h2.1, h2.2.1.symm, h2.2.2.symm⟩)

/-- The winner of a merge step: a table node whose two symbols are non-zero
symbols below the new token id, and whose pair expands to a piece of a word. -/
theorem winner_facts (words : List (List Nat × Nat)) (k : Nat) (s : train_state)
    (ws : List (List Nat × Nat)) (h : train_inv words k s ws)
    (hpos : k = 0 → ∃ x y, 0 < weighted_freq ws x y) :
    (scan_max (scan_order (reset_max_freq s.max_node s.tbl)) s.max_node 0).1.in_table = true ∧
    (scan_max (scan_order (reset_max_freq s.max_node s.tbl)) s.max_node 0).1.bigram0 ≠ 0 ∧
    (scan_max (scan_order (reset_max_freq s.max_node s.tbl)) s.max_node 0).1.bigram0 < 256 + k ∧
    (scan_max (scan_order (reset_max_freq s.max_node s.tbl)) s.max_node 0).1.bigram1 ≠ 0 ∧
    (scan_max (scan_order (reset_max_freq s.max_node s.tbl)) s.max_node 0).1.bigram1 < 256 + k ∧
    ∃ w0 ∈ words,
      (expansion s.tt
          (scan_max (scan_order (reset_max_freq s.max_node s.tbl)) s.max_node 0).1.bigram0 ++
        expansion s.tt
          (scan_max (scan_order (reset_max_freq s.max_node s.tbl)) s.max_node 0).1.bigram1)
        <:+: w0.1 := by
  have hwf1 := reset_max_freq_wf s.max_node s.tbl h.wf
  have hf1 := get_freq_after_reset words k s ws h
  rcases scan_table_spec (reset_max_freq s.max_node s.tbl) hwf1 s.max_node with
    ⟨hall, heq⟩ | ⟨hin, hposf, _⟩
  · have hk : 1 ≤ k := by
      by_contra hk0
      obtain ⟨x, y, hxy⟩ := hpos (by omega)
      have := hall x y
      rw [hf1] at this
      omega
    have hin : s.max_node.in_table = true := by
      by_contra hn
      have := h.init (by simpa using hn)
      omega
    have hlast := h.last hk
    obtain ⟨c0, c00, c1, c10⟩ := h.ttwf.2 _ _ hlast
    simp only [] at c0 c00 c1 c10
    obtain ⟨w0, hw0, hinf⟩ := h.minted (256 + k - 1) (by omega) (by omega)
    rw [expansion_token s.tt _ h.ttwf _ _ hlast] at hinf
    rw [heq]
    exact ⟨hin, c00, by omega, c10, by omega, w0, hw0, hinf⟩
  · rw [hf1] at hposf
    obtain ⟨w, hw, _, hpc⟩ := weighted_freq_pos ws _ _ hposf
    obtain ⟨ha, hb⟩ := pair_count_pos_mem _ _ _ hpc
    have hsa := h.symbols w hw _ ha
    have hsb := h.symbols w hw _ hb
    exact ⟨hin, hsa.1, hsa.2, hsb.1, hsb.2,
      pair_expansion_infix s.tt words ws h.expansions _ _ hposf⟩

theorem merge_symbols_mem (a b t : Nat) (w : List Nat) (s : Nat)
    (hs : s ∈ merge_symbols a b t w) : s ∈ w ∨ s = t := by
  have := merge_word_mem a b t 0 w.length w none [] (le_refl _) s
  rw [merge_word_fst a b t 0 w.length w none [] (le_refl _)] at this
  exact this hs

theorem merge_step_eq (s : train_state) :
    merge_step s =
      { text_table := (retokenize s.text_table
            (scan_max (scan_order (reset_max_freq s.max_node s.tbl)) s.max_node 0).1.bigram0
            (scan_max (scan_order (reset_max_freq s.max_node s.tbl)) s.max_node 0).1.bigram1
            (reset_max_freq s.max_node s.tbl) s.token_idx).1
        tbl := (retokenize s.text_table
            (scan_max (scan_order (reset_max_freq s.max_node s.tbl)) s.max_node 0).1.bigram0
            (scan_max (scan_order (reset_max_freq s.max_node s.tbl)) s.max_node 0).1.bigram1
            (reset_max_freq s.max_node s.tbl) s.token_idx).2
        max_node := (scan_max (scan_order (reset_max_freq s.max_node s.tbl)) s.max_node 0).1
        tt := fun i => if i = s.token_idx then
            some (create_token
              (scan_max (scan_order (reset_max_freq s.max_node s.tbl)) s.max_node 0).1)
          else s.tt i
        token_idx := (s.token_idx + 1) % 65536 } := rfl

theorem forall₂_expansions_merge (tt : token_table) (k : Nat) (hwf : tt_wf tt (256 + k))
    (a b : Nat) (ha : a < 256 + k) (ha0 : a ≠ 0) (hb : b < 256 + k) (hb0 : b ≠ 0)
    (words : List (List Nat × Nat)) :
    ∀ ws : List (List Nat × Nat), (∀ w ∈ ws, ∀ x ∈ w.1, x ≠ 0 ∧ x < 256 + k) →
      List.Forall₂ (fun w w0 => expand_word tt w.1 = w0.1 ∧ w.2 = w0.2) ws words →
      List.Forall₂ (fun w w0 =>
          expand_word (fun j => if j = 256 + k then some { token0 := a, token1 := b } else tt j)
            w.1 = w0.1 ∧ w.2 = w0.2)
        (ws.map (fun w => (merge_symbols a b (256 + k) w.1, w.2))) words := by
  intro ws hs h
  induction h with
  | nil => exact List.Forall₂.nil
  | @cons w w0 ws2 words2 hd _ ih =>
    refine List.Forall₂.cons ⟨?_, hd.2⟩ (ih (fun x hx => hs x (List.mem_cons_of_mem _ hx)))
    simp only []
    rw [expand_word_merge tt k hwf a b ha ha0 hb hb0 w.1.length w.1 (le_refl _)
      (fun x hx => (hs w (List.mem_cons_self _ _) x hx).2)]
    exact hd.1

/-- One merge step keeps the invariant of the merge loop; the corpus after the
step is the old one with the winner's pair greedily merged in every word. -/
theorem train_inv_step_corpus (words : List (List Nat × Nat)) (k : Nat) (s : train_state)
    (ws : List (List Nat × Nat)) (h : train_inv words k s ws)
    (hpos : k = 0 → ∃ x y, 0 < weighted_freq ws x y) (hk : k ≤ 65278) :
    train_inv words (k + 1) (merge_step s)
      (ws.map (fun w => (merge_symbols (merge_step s).max_node.bigram0
        (merge_step s).max_node.bigram1 (256 + k) w.1, w.2))) := by
  obtain ⟨hin, ha0, ha, hb0, hb, w0, hw0, hinf⟩ := winner_facts words k s ws h hpos
  have hf1 := get_freq_after_reset words k s ws h
  have hwf1 := reset_max_freq_wf s.max_node s.tbl h.wf
  have hrange1 := reset_max_freq_range s.max_node s.tbl h.range
  rw [merge_step_eq]
  simp only []
  generalize (scan_max (scan_order (reset_max_freq s.max_node s.tbl)) s.max_node 0).1 = m at *
  generalize reset_max_freq s.max_node s.tbl = tbl1 at *
  have hti := h.token_idx
  have ht0 : 256 + k ≠ 0 := by omega
  obtain ⟨hr1, hr2⟩ := retokenize_eq m.bigram0 m.bigram1 (256 + k) hb0 ht0 s.text_table ws
    h.repr tbl1
  rw [merge_corpus_fst] at hr2
  have hwf2 := tt_wf_update s.tt k h.ttwf m.bigram0 m.bigram1 ha ha0 hb hb0
  have hta : 256 + k ≠ m.bigram0 := by omega
  have htb : 256 + k ≠ m.bigram1 := by omega
  rw [hti]
  refine
    { token_idx := by simp only []; omega
      repr := hr2
      wf := by
        simp only []
        rw [hr1]
        exact merge_corpus_wf _ _ _ _ _ hwf1
      range := by
        simp only []
        rw [hr1]
        exact merge_corpus_range _ _ _ _ _ hrange1
      bound := lt_of_le_of_lt (total_pair_weight_merge_le _ _ _ ws) h.bound
      freq := ?_
      gone := fun _ => weighted_freq_merge_self _ _ _ hta htb ws
      init := by intro hc; simp only [] at hc; rw [hin] at hc; simp at hc
      ttwf := hwf2
      symbols := ?_
      expansions := forall₂_expansions_merge s.tt k h.ttwf _ _ ha ha0 hb hb0 words ws
        h.symbols h.expansions
      minted := ?_
      last := by intro _; simp [create_token] }
  · intro x y hxy
    simp only [] at hxy ⊢
    have hne : ¬ (m.bigram0 = x ∧ m.bigram1 = y) := fun hc => hxy ⟨hin, hc⟩
    have hc := merge_corpus_freq m.bigram0 m.bigram1 (256 + k) x y hne ws tbl1
    rw [hf1] at hc
    have hc2 : ((get_freq (merge_corpus m.bigram0 m.bigram1 (256 + k) ws tbl1).2 x y : Int) :
          ZMod 4294967296) =
        ((weighted_freq (ws.map (fun w => (merge_symbols m.bigram0 m.bigram1 (256 + k) w.1,
          w.2))) x y : Int) : ZMod 4294967296) := by
      rw [hc]
      push_cast
      ring
    rw [hr1]
    have hr := get_freq_range _ (merge_corpus_range m.bigram0 m.bigram1 (256 + k) ws tbl1
      hrange1) x y
    have hn := weighted_freq_nonneg
      (ws.map (fun w => (merge_symbols m.bigram0 m.bigram1 (256 + k) w.1, w.2))) x y
    have hle := weighted_freq_le_total
      (ws.map (fun w => (merge_symbols m.bigram0 m.bigram1 (256 + k) w.1, w.2))) x y
    have hle2 := total_pair_weight_merge_le m.bigram0 m.bigram1 (256 + k) ws
    have hbd := h.bound
    exact eq_of_cast_eq _ _ hc2 hr.1 hr.2 (by omega) (by omega)
  · intro w hw x hx
    obtain ⟨w1, hw1, rfl⟩ := List.mem_map.1 hw
    simp only [] at hx
    rcases merge_symbols_mem _ _ _ _ _ hx with hx | hx
    · have := h.symbols w1 hw1 x hx
      exact ⟨this.1, by omega⟩
    · subst hx
      exact ⟨ht0, by omega⟩
  · intro i hi1 hi2
    simp only [create_token]
    by_cases hi : i = 256 + k
    · subst hi
      refine ⟨w0, hw0, ?_⟩
      rw [expansion_token _ _ hwf2 (256 + k) { token0 := m.bigram0, token1 := m.bigram1 }
        (by simp)]
      simp only []
      rw [expansion_update s.tt _ h.ttwf _ _ _ ha, expansion_update s.tt _ h.ttwf _ _ _ hb]
      exact hinf
    · obtain ⟨w1, hw1, hinf1⟩ := h.minted i hi1 (by omega)
      refine ⟨w1, hw1, ?_⟩
      rw [expansion_update s.tt _ h.ttwf _ _ _ (by omega)]
      exact hinf1

/-- One merge step keeps the invariant of the merge loop. -/
theorem train_inv_step (words : List (List Nat × Nat)) (k : Nat) (s : train_state)
    (ws : List (List Nat × Nat)) (h : train_inv words k s ws)
    (hpos : k = 0 → ∃ x y, 0 < weighted_freq ws x y) (hk : k ≤ 65278) :
    ∃ ws2, train_inv words (k + 1) (merge_step s) ws2 :=
  ⟨_, train_inv_step_corpus words k s ws h hpos hk⟩

/-- The invariant holds after every number of merge steps that keeps the token
ids within 16 bits. -/
theorem train_inv_loop (words : List (List Nat × Nat)) :
    ∀ (n k : Nat) (s : train_state) (ws : List (List Nat × Nat)),
      train_inv words k s ws → (k = 0 → ∃ x y, 0 < weighted_freq ws x y) → k + n ≤ 65279 →
      ∃ ws2, train_inv words (k + n) (merge_loop n s) ws2 := by
  intro n
  induction n with
  | zero => intro k s ws h _ _; exact ⟨ws, h⟩
  | succ n ih =>
    intro k s ws h hpos hk
    obtain ⟨ws1, h1⟩ := train_inv_step words k s ws h hpos (by omega)
    obtain ⟨ws2, h2⟩ := ih (k + 1) (merge_step s) ws1 h1 (by intro hc; omega) (by omega)
    refine ⟨ws2, ?_⟩
    have : k + (n + 1) = k + 1 + n := by omega
    rw [this]
    exact h2

theorem train_merges_inv (init_bigram : Nat × Nat) (words : List (List Nat × Nat))
    (num_merges : Nat) (hv : valid_words words) (hb : total_pair_weight words < 2147483648)
    (hpos : ∃ x y, 0 < weighted_freq words x y) (hn : num_merges ≤ 65279) :
    ∃ ws, train_inv words num_merges (train_merges init_bigram words num_merges) ws := by
  have h0 := train_inv_init init_bigram words hv hb
  obtain ⟨ws, h⟩ := train_inv_loop words num_merges 0 _ words h0 (fun _ => hpos) (by omega)
  refine ⟨ws, ?_⟩
  simpa [train_merges] using h

theorem array_size_valid (w : List Nat) (hb : ∀ b ∈ w, 1 ≤ b ∧ b ≤ 255)
    (hl : w.length ≤ 32766) :
    get_array_size (word_to_ints w) % 65536 = (1 + w.length) * 2 := by
  have hnz : ∀ b ∈ w, b ≠ 0 := fun b h => by have := (hb b h).1; omega
  have h1 : w.takeWhile (fun b => b ≠ 0) = w := by
    rw [List.takeWhile_eq_self_iff]
    intro b h
    simpa using hnz b h
  have h2 : (word_to_ints w).takeWhile (fun b => b ≠ 0) = w := by
    unfold word_to_ints
    rw [h1]
    exact takeWhile_nul_free w [] hnz
  unfold get_array_size
  rw [h2]
  omega

theorem foldl_max_size_ge (g : List Nat × Nat → Nat) (words : List (List Nat × Nat)) :
    ∀ (m : Nat),
      m ≤ words.foldl (fun max_size w => if g w > max_size then g w else max_size) m ∧
      ∀ w ∈ words, g w ≤
        words.foldl (fun max_size w => if g w > max_size then g w else max_size) m := by
  induction words with
  | nil => intro m; exact ⟨le_refl _, by simp⟩
  | cons w rest ih =>
    intro m
    simp only [List.foldl_cons]
    by_cases hc : g w > m
    · simp only [hc, if_true]
      obtain ⟨h1, h2⟩ := ih (g w)
      refine ⟨by omega, ?_⟩
      intro x hx
      rcases List.mem_cons.1 hx with hx | hx
      · subst hx; exact h1
      · exact h2 x hx
    · simp only [hc, if_false]
      obtain ⟨h1, h2⟩ := ih m
      refine ⟨h1, ?_⟩
      intro x hx
      rcases List.mem_cons.1 hx with hx | hx
      · subst hx; omega
      · exact h2 x hx

/-- The buffer bound of `train`: `max_size` exceeds twice the length of every
word. -/
theorem train_max_size_ge (words : List (List Nat × Nat)) (hv : valid_words words)
    (w : List Nat × Nat) (hw : w ∈ words) : (1 + w.1.length) * 2 ≤ train_max_size words := by
  have := (foldl_max_size_ge (fun w => get_array_size (word_to_ints w.1) % 65536)
    words 0).2 w hw
  simp only [] at this
  rw [array_size_valid w.1 (hv w hw).1 (hv w hw).2.1] at this
  exact this

/-- The output loop of `train` on a well-founded merge table whose expansions
fit the buffer: one entry per slot, the expansion of the slot's token. -/
theorem train_output_eq (tt : token_table) (n max_size fuel : Nat)
    (hwf : tt_wf tt (256 + n)) (hn : n ≤ 65279) (hfuel : n < fuel)
    (hlen : ∀ j, 256 ≤ j → j < 256 + n → (expansion tt j).length ≤ max_size) :
    ∀ (cnt i : Nat), 256 ≤ i → i + cnt ≤ 256 + n →
      train_output tt (256 + n) max_size fuel cnt i =
        some ((List.range' i cnt).map (expansion tt)) := by
  intro cnt
  induction cnt with
  | zero => intro i _ _; rfl
  | succ cnt ih =>
    intro i h1 h2
    have hsome : (tt i).isSome = true := (hwf.1 i).2 ⟨h1, by omega⟩
    obtain ⟨node, hnode⟩ := Option.isSome_iff_exists.1 hsome
    have hmod1 : (256 + n) % 65536 = 256 + n := Nat.mod_eq_of_lt (by omega)
    have hmod2 : i % 65536 = i := Nat.mod_eq_of_lt (by omega)
    have hd := dfs_eq_expansion tt (256 + n) (256 + n) max_size hwf (by omega) fuel i [] false
      h1 (by omega) (by omega) (by simpa using hlen i h1 (by omega))
    simp only [train_output, hnode, hmod1, hmod2, hd, ih (i + 1) (by omega) (by omega)]
    simp [List.range'_succ]

theorem train_max_size_pos (words : List (List Nat × Nat)) (hv : valid_words words)
    (hpos : ∃ x y, 0 < weighted_freq words x y) : 2 ≤ train_max_size words := by
  obtain ⟨x, y, hxy⟩ := hpos
  obtain ⟨w, hw, _, _⟩ := weighted_freq_pos words x y hxy
  have := train_max_size_ge words hv w hw
  omega

theorem expansion_le_max_size (words : List (List Nat × Nat)) (hv : valid_words words)
    (k : Nat) (s : train_state) (ws : List (List Nat × Nat)) (h : train_inv words k s ws)
    (j : Nat) (h1 : 256 ≤ j) (h2 : j < 256 + k) :
    (expansion s.tt j).length ≤ train_max_size words := by
  obtain ⟨w0, hw0, hinf⟩ := h.minted j h1 h2
  have := hinf.length_le
  have := train_max_size_ge words hv w0 hw0
  omega

/-- Source `train` on valid words of total weighted pair count below 2^31 with a pair
of positive weighted frequency: the run
returns, with one entry per merge step, entry `k` being the expansion of the
token `256 + k`. -/
theorem train_eq (init_bigram : Nat × Nat) (words : List (List Nat × Nat)) (num_merges : Nat)
    (hv : valid_words words) (hb : total_pair_weight words < 2147483648)
    (hpos : ∃ x y, 0 < weighted_freq words x y) (hn : num_merges ≤ 65279) :
    train init_bigram words num_merges =
      some ((List.range' 256 num_merges).map
        (expansion (train_merges init_bigram words num_merges).tt)) := by
  obtain ⟨ws, h⟩ := train_merges_inv init_bigram words num_merges hv hb hpos hn
  have hm := train_max_size_pos words hv hpos
  unfold train
  simp only []
  apply train_output_eq _ num_merges _ _ h.ttwf hn
  · nlinarith
  · intro j h1 h2
    exact expansion_le_max_size words hv num_merges _ ws h j h1 h2
  · exact le_refl _
  · omega

/-- Every run of `dfs` that `train` starts ends without the error branch and
writes the expansion of its token. -/
theorem train_dfs_eq (init_bigram : Nat × Nat) (words : List (List Nat × Nat))
    (num_merges : Nat) (hv : valid_words words) (hb : total_pair_weight words < 2147483648)
    (hpos : ∃ x y, 0 < weighted_freq words x y)
    (hn : num_merges ≤ 65279) (k : Nat) (hk : k < num_merges) :
    dfs (train_merges init_bigram words num_merges).tt (256 + num_merges)
        (train_max_size words) (num_merges * train_max_size words + 2) (256 + k) ([], false) =
      some (expansion (train_merges init_bigram words num_merges).tt (256 + k), false) := by
  obtain ⟨ws, h⟩ := train_merges_inv init_bigram words num_merges hv hb hpos hn
  have hm := train_max_size_pos words hv hpos
  have hlen := expansion_le_max_size words hv num_merges _ ws h (256 + k) (by omega) (by omega)
  have hfuel : 256 + k < 256 + (num_merges * train_max_size words + 2) := by nlinarith
  have := dfs_eq_expansion _ (256 + num_merges) (256 + num_merges) (train_max_size words)
    h.ttwf (by omega) (num_merges * train_max_size words + 2) (256 + k) [] false
    (by omega) (by omega) hfuel (by simpa using hlen)
  simpa using this

/-- The scan visits the nodes in ascending order of their `hash_text` bucket. -/
theorem scan_order_sorted (tbl : bigram_table) (hwf : table_wf tbl) :
    (scan_order tbl).Pairwise
      (fun p q => hash_text p.bigram0 p.bigram1 ≤ hash_text q.bigram0 q.bigram1) := by
  induction tbl with
  | nil => simp [scan_order]
  | cons e rest ih =>
    have hwf2 : table_wf rest := by
      refine ⟨?_, fun x hx => hwf.2 x (List.mem_cons_of_mem _ hx)⟩
      have := hwf.1
      simp only [List.map_cons, List.pairwise_cons] at this
      exact this.2
    have hso : scan_order (e :: rest) = e.2 ++ scan_order rest := by
      simp [scan_order]
    rw [hso, List.pairwise_append]
    have he := (hwf.2 e (List.mem_cons_self _ _)).1
    refine ⟨?_, ih hwf2, ?_⟩
    · rw [List.pairwise_iff_forall_sublist]
      intro p q hpq
      have hp := he p (hpq.subset (by simp))
      have hq := he q (hpq.subset (by simp))
      rw [hp, hq]
    · intro p hp q hq
      obtain ⟨e2, he2, hq2⟩ := (mem_scan_order rest q).1 hq
      have h1 := he p hp
      have h2 := (hwf.2 e2 (List.mem_cons_of_mem _ he2)).1 q hq2
      have h3 := hwf.1
      simp only [List.map_cons, List.pairwise_cons] at h3
      have h4 := h3.1 e2.1 (List.mem_map.2 ⟨e2, he2, rfl⟩)
      rw [h1, h2]
      omega

/-- Selection with the tie-break, through `get_freq`: when some frequency is
positive the scan ends on a pair of highest frequency whose bucket index is the
smallest among the pairs of that frequency. -/
theorem scan_table_tie (tbl : bigram_table) (hwf : table_wf tbl) (m0 : max_ref)
    (hpos : ∃ x y, 0 < get_freq tbl x y) :
    (scan_max (scan_order tbl) m0 0).1.in_table = true ∧
    0 < get_freq tbl (scan_max (scan_order tbl) m0 0).1.bigram0
        (scan_max (scan_order tbl) m0 0).1.bigram1 ∧
    (∀ x y, get_freq tbl x y ≤
        get_freq tbl (scan_max (scan_order tbl) m0 0).1.bigram0
          (scan_max (scan_order tbl) m0 0).1.bigram1) ∧
    ∀ x y, get_freq tbl x y =
        get_freq tbl (scan_max (scan_order tbl) m0 0).1.bigram0
          (scan_max (scan_order tbl) m0 0).1.bigram1 →
      hash_text (scan_max (scan_order tbl) m0 0).1.bigram0
          (scan_max (scan_order tbl) m0 0).1.bigram1 ≤ hash_text x y := by
  rcases scan_max_spec (scan_order tbl) m0 0 with ⟨_, h2⟩ | ⟨l1, n, l2, h1, h2, h3, h4, h5⟩
  · obtain ⟨x, y, hxy⟩ := hpos
    have := get_freq_le_of_scan tbl 0 (le_refl _) h2 x y
    omega
  · have hn : n ∈ scan_order tbl := by rw [h1]; simp
    have hg := get_freq_of_mem_scan tbl hwf n hn
    rw [h2]
    simp only [hg]
    refine ⟨trivial, h3, ?_, ?_⟩
    · apply get_freq_le_of_scan tbl n.freq (by omega)
      intro x hx
      rw [h1] at hx
      rcases List.mem_append.1 hx with hx | hx
      · have := h4 x hx; omega
      · rcases List.mem_cons.1 hx with hx | hx
        · subst hx; exact le_refl _
        · exact h5 x hx
    · intro x y hxy
      have hfn : ∃ n2, find_node tbl x y = some n2 := by
        cases hf : find_node tbl x y with
        | none =>
          simp only [get_freq, hf] at hxy
          omega
        | some n2 => exact ⟨n2, rfl⟩
      obtain ⟨n2, hn2⟩ := hfn
      obtain ⟨hk0, hk1⟩ := find_node_key tbl x y n2 hn2
      have hfreq : n2.freq = n.freq := by
        simp only [get_freq, hn2] at hxy
        exact hxy
      have hmem : n2 ∈ scan_order tbl := by
        rw [mem_scan_order_iff_find tbl hwf, hk0, hk1]
        exact hn2
      have hsorted := scan_order_sorted tbl hwf
      rw [h1] at hmem hsorted
      rw [← hk0, ← hk1]
      rcases List.mem_append.1 hmem with hm | hm
      · have := h4 n2 hm
        omega
      · rcases List.mem_cons.1 hm with hm | hm
        · rw [hm]
        · rw [List.pairwise_append] at hsorted
          have := hsorted.2.1
          rw [List.pairwise_cons] at this
          exact this.1 n2 hm

theorem merge_loop_token_idx (n : Nat) :
    ∀ (s : train_state), s.token_idx + n < 65536 →
      (∀ i, i < s.token_idx → (merge_loop n s).tt i = s.tt i) := by
  induction n with
  | zero => intro s _ i _; rfl
  | succ n ih =>
    intro s h i hi
    simp only [merge_loop]
    have h1 : (merge_step s).token_idx = s.token_idx + 1 := by
      rw [merge_step_eq]
      simp only []
      omega
    rw [ih (merge_step s) (by omega) i (by omega)]
    rw [merge_step_eq]
    simp only []
    have : ¬ i = s.token_idx := by omega
    simp [this]

/-- The first merge step of `train`: token 256 records a pair of highest
weighted frequency, with the smallest bucket index among the pairs of that
frequency, and no later step overwrites it. -/
theorem first_token (init_bigram : Nat × Nat) (words : List (List Nat × Nat))
    (num_merges : Nat) (hv : valid_words words) (hb : total_pair_weight words < 2147483648)
    (hpos : ∃ x y, 0 < weighted_freq words x y)
    (h1 : 1 ≤ num_merges) (hn : num_merges ≤ 65279) :
    ∃ node, (train_merges init_bigram words num_merges).tt 256 = some node ∧
      0 < weighted_freq words node.token0 node.token1 ∧
      (∀ x y, weighted_freq words x y ≤ weighted_freq words node.token0 node.token1) ∧
      ∀ x y, weighted_freq words x y = weighted_freq words node.token0 node.token1 →
        hash_text node.token0 node.token1 ≤ hash_text x y := by
  have h0 := train_inv_init init_bigram words hv hb
  generalize hs0 : ({ text_table := build_text_table words
                      tbl := build_bigram_table (build_text_table words)
                      max_node := { in_table := false, bigram0 := init_bigram.1,
                                    bigram1 := init_bigram.2 }
                      tt := fun _ => none
                      token_idx := 256 } : train_state) = s0 at h0
  have hf := get_freq_after_reset words 0 s0 words h0
  have hwf := reset_max_freq_wf s0.max_node s0.tbl h0.wf
  obtain ⟨n, rfl⟩ : ∃ n, num_merges = n + 1 := ⟨num_merges - 1, by omega⟩
  have hpos2 : ∃ x y, 0 < get_freq (reset_max_freq s0.max_node s0.tbl) x y := by
    obtain ⟨x, y, hxy⟩ := hpos
    exact ⟨x, y, by rw [hf]; exact hxy⟩
  obtain ⟨_, t1, t2, t3⟩ := scan_table_tie _ hwf s0.max_node hpos2
  simp only [hf] at t1 t2 t3
  refine ⟨create_token (scan_max (scan_order (reset_max_freq s0.max_node s0.tbl))
    s0.max_node 0).1, ?_, t1, t2, t3⟩
  have hti : s0.token_idx = 256 := by rw [← hs0]
  have htm : (merge_step s0).token_idx = 257 := by
    rw [merge_step_eq]
    simp only [hti]
  simp only [train_merges, merge_loop, hs0]
  rw [merge_loop_token_idx n _ (by rw [htm]; omega) 256 (by rw [htm]; omega)]
  rw [merge_step_eq]
  simp [hti]

/-- The winner of a merge step at which some pair has positive weighted
frequency: the step's token records a pair of highest weighted frequency in the
current corpus, of smallest bucket index among the pairs of that frequency. -/
theorem step_winner (words : List (List Nat × Nat)) (k : Nat) (s : train_state)
    (ws : List (List Nat × Nat)) (h : train_inv words k s ws)
    (hpos : ∃ x y, 0 < weighted_freq ws x y) :
    (merge_step s).tt (256 + k) =
        some { token0 := (merge_step s).max_node.bigram0
               token1 := (merge_step s).max_node.bigram1 } ∧
      (∀ i, i ≠ 256 + k → (merge_step s).tt i = s.tt i) ∧
      0 < weighted_freq ws (merge_step s).max_node.bigram0 (merge_step s).max_node.bigram1 ∧
      (∀ x y, weighted_freq ws x y ≤
        weighted_freq ws (merge_step s).max_node.bigram0 (merge_step s).max_node.bigram1) ∧
      ∀ x y, weighted_freq ws x y =
          weighted_freq ws (merge_step s).max_node.bigram0 (merge_step s).max_node.bigram1 →
        hash_text (merge_step s).max_node.bigram0 (merge_step s).max_node.bigram1 ≤
          hash_text x y := by
  have hf := get_freq_after_reset words k s ws h
  have hwf := reset_max_freq_wf s.max_node s.tbl h.wf
  have hpos2 : ∃ x y, 0 < get_freq (reset_max_freq s.max_node s.tbl) x y := by
    obtain ⟨x, y, hxy⟩ := hpos
    exact ⟨x, y, by rw [hf]; exact hxy⟩
  obtain ⟨_, t1, t2, t3⟩ := scan_table_tie _ hwf s.max_node hpos2
  simp only [hf] at t1 t2 t3
  rw [merge_step_eq]
  simp only [h.token_idx]
  refine ⟨by simp [create_token], ?_, t1, t2, t3⟩
  intro i hi
  simp [hi]

theorem weighted_freq_single (w : List Nat) (c : Nat) (a b : Nat) :
    weighted_freq [(w, c)] a b = (c : Int) * (pair_count a b w : Int) := by
  simp [weighted_freq]

theorem weighted_freq_single_pos (w : List Nat) (c : Nat) (a b : Nat)
    (h : 0 < weighted_freq [(w, c)] a b) : a ∈ w ∧ b ∈ w ∧ 0 < pair_count a b w := by
  obtain ⟨w2, hw2, _, hpc⟩ := weighted_freq_pos _ a b h
  simp only [List.mem_singleton] at hw2
  subst hw2
  exact ⟨(pair_count_pos_mem a b w hpc).1, (pair_count_pos_mem a b w hpc).2, hpc⟩

theorem table_repr_single (text_table : List text_chunk_node) (w : List Nat) (c : Nat)
    (h : table_repr text_table [(w, c)]) : text_table.map live_symbols = [w] := by
  cases h with
  | cons hd tl =>
    cases tl
    simp [live_symbols_of_repr _ _ hd.1]

theorem valid_words_run (X c : Nat) (hX : 1 ≤ X ∧ X ≤ 255) (hc : 1 ≤ c ∧ c ≤ 65535) :
    valid_words [([X, X, X, X], c)] := by
  intro w hw
  simp only [List.mem_singleton] at hw
  subst hw
  refine ⟨?_, by simp, hc.2⟩
  intro b hb
  simp only [List.mem_cons, List.mem_singleton, List.not_mem_nil, or_false, or_self] at hb
  subst hb
  exact hX

/-- C9 (overlapping merges, S3 generalised). For every non-zero byte `X` and
every count `c` in 1..65535, training on the single word `X X X X` with count
`c` returns `[[X, X]]` for one merge, with the word rewritten to `[256, 256]`,
and `[[X, X], [X, X, X, X]]` for two merges, token 257 recording the pair
`(256, 256)`. -/
theorem overlapping_merges (init_bigram : Nat × Nat) (X c : Nat) (hX : 1 ≤ X ∧ X ≤ 255)
    (hc : 1 ≤ c ∧ c ≤ 65535) :
    train init_bigram [([X, X, X, X], c)] 1 = some [[X, X]] ∧
    (train_merges init_bigram [([X, X, X, X], c)] 1).text_table.map live_symbols =
      [[256, 256]] ∧
    train init_bigram [([X, X, X, X], c)] 2 = some [[X, X], [X, X, X, X]] ∧
    (train_merges init_bigram [([X, X, X, X], c)] 2).tt 257 =
      some { token0 := 256, token1 := 256 } := by
  have hv := valid_words_run X c hX hc
  have hcpos : (0 : Int) < (c : Int) := by omega
  have hpos : ∃ x y, 0 < weighted_freq [([X, X, X, X], c)] x y := by
    refine ⟨X, X, ?_⟩
    rw [weighted_freq_single]
    simp only [pair_count, and_self, if_true]
    push_cast
    nlinarith
  have hb : total_pair_weight [([X, X, X, X], c)] < 2147483648 := by
    simp only [total_pair_weight, List.map_cons, List.map_nil, List.sum_cons, List.sum_nil,
      List.length_cons, List.length_nil]
    omega
  have h0 := train_inv_init init_bigram _ hv hb
  generalize hs0 : ({ text_table := build_text_table [([X, X, X, X], c)]
                      tbl := build_bigram_table (build_text_table [([X, X, X, X], c)])
                      max_node := { in_table := false, bigram0 := init_bigram.1,
                                    bigram1 := init_bigram.2 }
                      tt := fun _ => none
                      token_idx := 256 } : train_state) = s0 at h0
  have hm1 : train_merges init_bigram [([X, X, X, X], c)] 1 = merge_step s0 := by
    simp only [train_merges, merge_loop, hs0]
  have hm2 : train_merges init_bigram [([X, X, X, X], c)] 2 = merge_step (merge_step s0) := by
    simp only [train_merges, merge_loop, hs0]
  -- the first step
  have h1 := train_inv_step_corpus _ 0 s0 _ h0 (fun _ => hpos) (by omega)
  obtain ⟨w1a, w1b, w1c, _, _⟩ := step_winner _ 0 s0 _ h0 hpos
  obtain ⟨wa, wb, _⟩ := weighted_freq_single_pos _ _ _ _ w1c
  have ea : (merge_step s0).max_node.bigram0 = X := by simpa using wa
  have eb : (merge_step s0).max_node.bigram1 = X := by simpa using wb
  rw [ea, eb] at h1 w1a
  have hX256 : ¬ X = 256 := by omega
  have hws1 : List.map (fun w : List Nat × Nat => (merge_symbols X X (256 + 0) w.1, w.2))
      [([X, X, X, X], c)] = [([256, 256], c)] := by
    simp [merge_symbols_match, merge_symbols_nil]
  rw [hws1] at h1
  -- the second step
  have hpos1 : ∃ x y, 0 < weighted_freq [([256, 256], c)] x y := by
    refine ⟨256, 256, ?_⟩
    rw [weighted_freq_single]
    simp only [pair_count, and_self, if_true]
    push_cast
    omega
  have h2 := train_inv_step_corpus _ 1 (merge_step s0) _ h1 (by intro hc; omega) (by omega)
  obtain ⟨w2a, w2b, w2c, _, _⟩ := step_winner _ 1 (merge_step s0) _ h1 hpos1
  obtain ⟨wa2, wb2, _⟩ := weighted_freq_single_pos _ _ _ _ w2c
  have ea2 : (merge_step (merge_step s0)).max_node.bigram0 = 256 := by simpa using wa2
  have eb2 : (merge_step (merge_step s0)).max_node.bigram1 = 256 := by simpa using wb2
  rw [ea2, eb2] at w2a
  have ht256 : (merge_step (merge_step s0)).tt 256 = some { token0 := X, token1 := X } := by
    rw [w2b 256 (by omega)]
    exact w1a
  -- the expansions
  have hXb : X < 256 := by omega
  have e1 : expansion (merge_step s0).tt 256 = [X, X] := by
    rw [expansion_token _ _ h1.ttwf 256 _ w1a]
    simp only [expansion_byte _ X hXb]
    rfl
  have e2 : expansion (merge_step (merge_step s0)).tt 256 = [X, X] := by
    rw [expansion_token _ _ h2.ttwf 256 _ ht256]
    simp only [expansion_byte _ X hXb]
    rfl
  have e3 : expansion (merge_step (merge_step s0)).tt 257 = [X, X, X, X] := by
    rw [expansion_token _ _ h2.ttwf 257 _ w2a]
    simp only [e2]
    rfl
  refine ⟨?_, ?_, ?_, ?_⟩
  · rw [train_eq init_bigram _ 1 hv hb hpos (by omega), hm1]
    simp [List.range', e1]
  · rw [hm1]
    exact table_repr_single _ _ _ h1.repr
  · rw [train_eq init_bigram _ 2 hv hb hpos (by omega), hm2]
    simp [List.range', e2, e3]
  · rw [hm2]
    exact w2a

theorem overlapping_merges_witness :
    (1 ≤ 97 ∧ 97 ≤ 255) ∧ (1 ≤ 1 ∧ 1 ≤ 65535) ∧
    train (0, 0) [([97, 97, 97, 97], 1)] 1 = some [[97, 97]] ∧
    (train_merges (0, 0) [([97, 97, 97, 97], 1)] 1).text_table.map live_symbols =
      [[256, 256]] ∧
    train (0, 0) [([97, 97, 97, 97], 1)] 2 = some [[97, 97], [97, 97, 97, 97]] ∧
    (train_merges (0, 0) [([97, 97, 97, 97], 1)] 2).tt 257 =
      some { token0 := 256, token1 := 256 } :=
  ⟨by decide, by decide, overlapping_merges (0, 0) 97 1 (by decide) (by decide)⟩

/-- C3 (early halt), as amended. `train` has no early halt: on valid words
(NUL-free, at most 32766 bytes each, counts up to 65535) of total weighted pair
count below 2^31 in which some pair has positive weighted frequency, every one
of the `N <= 65279` merge steps mints its token, also a step at which the
maximum pair frequency is zero, and the run returns exactly `N` entries; for
"aa" with count 5 and `N = 2` it returns two entries. -/
theorem train_mints_every_slot (init_bigram : Nat × Nat) (words : List (List Nat × Nat))
    (num_merges : Nat) (hv : valid_words words)
    (htotal : total_pair_weight words < 2147483648)
    (hpos : ∃ a b, 0 < weighted_freq words a b) (hn : num_merges ≤ 65279) :
    (∃ out, train init_bigram words num_merges = some out ∧ out.length = num_merges) ∧
    (∀ k, k < num_merges →
      ((train_merges init_bigram words num_merges).tt (256 + k)).isSome = true) ∧
    train (0, 0) [([97, 97], 5)] 2 = some [[97, 97], [97, 97]] := by
  obtain ⟨ws, h⟩ := train_merges_inv init_bigram words num_merges hv htotal hpos hn
  refine ⟨⟨_, train_eq init_bigram words num_merges hv htotal hpos hn, by simp⟩, ?_,
    by decide⟩
  intro k hk
  exact (h.ttwf.1 (256 + k)).2 ⟨by omega, by omega⟩

theorem train_mints_every_slot_witness :
    valid_words [([97, 97], 5)] ∧ total_pair_weight [([97, 97], 5)] < 2147483648 ∧
    (∃ a b, 0 < weighted_freq [([97, 97], 5)] a b) ∧
    ∃ out, train (0, 0) [([97, 97], 5)] 2 = some out ∧ out.length = 2 :=
  ⟨by unfold valid_words; decide, by decide, ⟨97, 97, by decide⟩,
    (train_mints_every_slot (0, 0) [([97, 97], 5)] 2 (by unfold valid_words; decide)
      (by decide) ⟨97, 97, by decide⟩ (by decide)).1⟩

/-- C3, the claim as written fails: for "aa" with count 5 the second merge step
finds no positive frequency in the pair index (after the reset of the first
winner, every node has frequency at most 0), and `train` with `N = 2` still
returns two entries. -/
theorem train_no_early_halt :
    (∀ n ∈ scan_order
        (reset_max_freq (train_merges (0, 0) [([97, 97], 5)] 1).max_node
          (train_merges (0, 0) [([97, 97], 5)] 1).tbl), n.freq ≤ 0) ∧
    train (0, 0) [([97, 97], 5)] 2 = some [[97, 97], [97, 97]] := by
  decide

/-- Result shape of `train` where the pair index holds a positive frequency: on
valid words of total weighted pair count below 2^31 in which some adjacent pair
has positive weighted frequency, with `N <= 65279`, `train` returns a list of
length `N`, and its entry `k` is what `dfs` writes for the token `256 + k`
without taking the error branch: the byte expansion of that token through the
merge table. -/
theorem train_result_shape (init_bigram : Nat × Nat) (words : List (List Nat × Nat))
    (num_merges : Nat) (hv : valid_words words)
    (htotal : total_pair_weight words < 2147483648)
    (hpos : ∃ a b, 0 < weighted_freq words a b) (hn : num_merges ≤ 65279) :
    ∃ out, train init_bigram words num_merges = some out ∧ out.length = num_merges ∧
      out.length ≤ num_merges ∧
      ∀ k, k < num_merges →
        out[k]? = some (expansion (train_merges init_bigram words num_merges).tt (256 + k)) ∧
        dfs (train_merges init_bigram words num_merges).tt (256 + num_merges)
            (train_max_size words) (num_merges * train_max_size words + 2) (256 + k)
            ([], false) =
          some (expansion (train_merges init_bigram words num_merges).tt (256 + k), false) := by
  refine ⟨_, train_eq init_bigram words num_merges hv htotal hpos hn, by simp, by simp, ?_⟩
  intro k hk
  refine ⟨?_, train_dfs_eq init_bigram words num_merges hv htotal hpos hn k hk⟩
  rw [List.getElem?_map, List.getElem?_range' _ _ hk]
  simp

theorem train_result_shape_witness :
    valid_words [([97, 97, 97, 97], 1)] ∧
    total_pair_weight [([97, 97, 97, 97], 1)] < 2147483648 ∧
    (∃ a b, 0 < weighted_freq [([97, 97, 97, 97], 1)] a b) ∧
    ∃ out, train (0, 0) [([97, 97, 97, 97], 1)] 2 = some out ∧ out.length = 2 ∧
      out.length ≤ 2 ∧
      ∀ k, k < 2 →
        out[k]? = some (expansion (train_merges (0, 0) [([97, 97, 97, 97], 1)] 2).tt
          (256 + k)) ∧
        dfs (train_merges (0, 0) [([97, 97, 97, 97], 1)] 2).tt (256 + 2)
            (train_max_size [([97, 97, 97, 97], 1)])
            (2 * train_max_size [([97, 97, 97, 97], 1)] + 2) (256 + k) ([], false) =
          some (expansion (train_merges (0, 0) [([97, 97, 97, 97], 1)] 2).tt (256 + k),
            false) :=
  ⟨by unfold valid_words; decide, by decide, ⟨97, 97, by decide⟩,
    train_result_shape (0, 0) [([97, 97, 97, 97], 1)] 2 (by unfold valid_words; decide)
      (by decide) ⟨97, 97, by decide⟩ (by decide)⟩

/-- C4 (result shape), failing input: the word "ab" with count 0 is NUL-free,
its count fits 16 bits and it holds an adjacent pair, but no frequency is
positive, so the first step mints token 256 from the uninitialised bigram of
`init_max_node`; when that memory holds `(256, 0)` the token is its own child
and `train` returns no list. -/
theorem train_zero_count_no_result :
    valid_words [([97, 98], 0)] ∧ 0 < pair_count 97 98 [97, 98] ∧
    (train_merges (256, 0) [([97, 98], 0)] 1).tt 256 = some { token0 := 256, token1 := 0 } ∧
    train (256, 0) [([97, 98], 0)] 1 = none := by
  refine ⟨by unfold valid_words; decide, by decide, by decide, by decide⟩

theorem weighted_freq_pos_byte (words : List (List Nat × Nat)) (hv : valid_words words)
    (a b : Nat) (h : 0 < weighted_freq words a b) : a < 256 ∧ b < 256 := by
  obtain ⟨w, hw, _, hpc⟩ := weighted_freq_pos words a b h
  obtain ⟨ha, hb⟩ := pair_count_pos_mem a b w.1 hpc
  have h1 := ((hv w hw).1 a ha).2
  have h2 := ((hv w hw).1 b hb).2
  omega

/-- C6, the claim as written fails: in the ordered input `[("cd", 3), ("ab", 3)]`
the pairs `(99, 100)` and `(97, 98)` tie with weighted frequency 3 and
`(99, 100)` comes first in the input, yet the token returned is `[97, 98]`,
the pair of the smaller bucket index. -/
theorem tie_break_not_input_order :
    weighted_freq [([99, 100], 3), ([97, 98], 3)] 99 100 = 3 ∧
    weighted_freq [([99, 100], 3), ([97, 98], 3)] 97 98 = 3 ∧
    hash_text 97 98 < hash_text 99 100 ∧
    train (0, 0) [([99, 100], 3), ([97, 98], 3)] 1 = some [[97, 98]] ∧
    train (0, 0) [([99, 100], 3), ([97, 98], 3)] 1 ≠ some [[99, 100]] := by
  decide

/-- Expansions of minted tokens where the pair index holds a positive
frequency: in a run of `train` on valid words of total weighted pair count
below 2^31 in which some pair has positive weighted frequency (`N <= 65279`), for
every minted token `t = 256 + k` the sequence `dfs` writes for `t` is `l ++ r`,
where `l` is the expansion of the recorded left child and `r` that of the right
child: the one-element sequence for a child below 256, what `dfs` writes for
the child otherwise. Both agree with the expansion of section 4.5. -/
theorem dfs_children_concat (init_bigram : Nat × Nat) (words : List (List Nat × Nat))
    (num_merges : Nat) (hv : valid_words words)
    (htotal : total_pair_weight words < 2147483648)
    (hpos : ∃ a b, 0 < weighted_freq words a b)
    (hn : num_merges ≤ 65279) (k : Nat) (hk : k < num_merges) :
    ∃ node l r, (train_merges init_bigram words num_merges).tt (256 + k) = some node ∧
      dfs (train_merges init_bigram words num_merges).tt (256 + num_merges)
          (train_max_size words) (num_merges * train_max_size words + 2) (256 + k)
          ([], false) = some (l ++ r, false) ∧
      (if node.token0 < 256 then l = [node.token0]
        else dfs (train_merges init_bigram words num_merges).tt (256 + num_merges)
          (train_max_size words) (num_merges * train_max_size words + 2) node.token0
          ([], false) = some (l, false)) ∧
      (if node.token1 < 256 then r = [node.token1]
        else dfs (train_merges init_bigram words num_merges).tt (256 + num_merges)
          (train_max_size words) (num_merges * train_max_size words + 2) node.token1
          ([], false) = some (r, false)) ∧
      l = expansion (train_merges init_bigram words num_merges).tt node.token0 ∧
      r = expansion (train_merges init_bigram words num_merges).tt node.token1 ∧
      l ++ r = expansion (train_merges init_bigram words num_merges).tt (256 + k) := by
  obtain ⟨ws, h⟩ := train_merges_inv init_bigram words num_merges hv htotal hpos hn
  have hsome : ((train_merges init_bigram words num_merges).tt (256 + k)).isSome = true :=
    (h.ttwf.1 (256 + k)).2 ⟨by omega, by omega⟩
  obtain ⟨node, hnode⟩ := Option.isSome_iff_exists.1 hsome
  obtain ⟨c0, _, c1, _⟩ := h.ttwf.2 _ node hnode
  have hexp := expansion_token _ _ h.ttwf _ node hnode
  have hchild : ∀ c, c < 256 + k →
      (if c < 256 then expansion (train_merges init_bigram words num_merges).tt c = [c]
        else dfs (train_merges init_bigram words num_merges).tt (256 + num_merges)
          (train_max_size words) (num_merges * train_max_size words + 2) c ([], false) =
          some (expansion (train_merges init_bigram words num_merges).tt c, false)) := by
    intro c hc
    by_cases hb : c < 256
    · simp only [hb, if_true]
      exact expansion_byte _ c hb
    · simp only [hb, if_false]
      have := train_dfs_eq init_bigram words num_merges hv htotal hpos hn (c - 256) (by omega)
      have e : 256 + (c - 256) = c := by omega
      rw [e] at this
      exact this
  refine ⟨node, expansion _ node.token0, expansion _ node.token1, hnode, ?_, hchild _ c0,
    hchild _ c1, rfl, rfl, hexp.symm⟩
  rw [← hexp]
  exact train_dfs_eq init_bigram words num_merges hv htotal hpos hn k hk

theorem dfs_children_concat_witness :
    valid_words [([97, 97, 97, 97], 1)] ∧
    total_pair_weight [([97, 97, 97, 97], 1)] < 2147483648 ∧
    (∃ a b, 0 < weighted_freq [([97, 97, 97, 97], 1)] a b) ∧
    ∃ node l r, (train_merges (0, 0) [([97, 97, 97, 97], 1)] 2).tt (256 + 1) = some node ∧
      dfs (train_merges (0, 0) [([97, 97, 97, 97], 1)] 2).tt (256 + 2)
          (train_max_size [([97, 97, 97, 97], 1)])
          (2 * train_max_size [([97, 97, 97, 97], 1)] + 2) (256 + 1)
          ([], false) = some (l ++ r, false) ∧
      (if node.token0 < 256 then l = [node.token0]
        else dfs (train_merges (0, 0) [([97, 97, 97, 97], 1)] 2).tt (256 + 2)
          (train_max_size [([97, 97, 97, 97], 1)])
          (2 * train_max_size [([97, 97, 97, 97], 1)] + 2) node.token0
          ([], false) = some (l, false)) ∧
      (if node.token1 < 256 then r = [node.token1]
        else dfs (train_merges (0, 0) [([97, 97, 97, 97], 1)] 2).tt (256 + 2)
          (train_max_size [([97, 97, 97, 97], 1)])
          (2 * train_max_size [([97, 97, 97, 97], 1)] + 2) node.token1
          ([], false) = some (r, false)) ∧
      l = expansion (train_merges (0, 0) [([97, 97, 97, 97], 1)] 2).tt node.token0 ∧
      r = expansion (train_merges (0, 0) [([97, 97, 97, 97], 1)] 2).tt node.token1 ∧
      l ++ r = expansion (train_merges (0, 0) [([97, 97, 97, 97], 1)] 2).tt (256 + 1) :=
  ⟨by unfold valid_words; decide, by decide, ⟨97, 97, by decide⟩,
    dfs_children_concat (0, 0) [([97, 97, 97, 97], 1)] 2 (by unfold valid_words; decide)
      (by decide) ⟨97, 97, by decide⟩ (by decide) 1 (by decide)⟩

theorem dfs_self_child_none (tt : token_table) (token_idx_end max_size t : Nat) (c : Nat)
    (h : tt t = some { token0 := t, token1 := c }) (ht : 256 ≤ t) (he : t ≤ token_idx_end)
    (hm : 0 < max_size) :
    ∀ fuel, dfs tt token_idx_end max_size fuel t ([], false) = none := by
  intro fuel
  induction fuel with
  | zero => rfl
  | succ fuel ih =>
    have hcheck : ¬ (t > token_idx_end ∨ (tt t).isNone = true ∨
        ([] : List Nat).length ≥ max_size) := by
      rintro (h1 | h1 | h1)
      · omega
      · rw [h] at h1; simp at h1
      · simp at h1; omega
    have h256 : ¬ t < 256 := by omega
    rw [dfs, if_neg hcheck]
    simp only [h, h256, if_false, ih]

/-- C8 (vocabulary monotonicity), failing input: a token minted from the
uninitialised bigram of `init_max_node`. On "ab" with count 0 no frequency is
positive, so
token 256 records whatever that memory holds; when it holds `(256, 0)` the
token is its own left child and `dfs` produces no sequence for it, whatever
the recursion depth. -/
theorem dfs_uninitialised_token :
    (train_merges (256, 0) [([97, 98], 0)] 1).tt 256 = some { token0 := 256, token1 := 0 } ∧
    ∀ fuel, dfs (train_merges (256, 0) [([97, 98], 0)] 1).tt (256 + 1)
      (train_max_size [([97, 98], 0)]) fuel 256 ([], false) = none :=
  ⟨by decide,
    dfs_self_child_none _ _ _ 256 0 (by decide) (by decide) (by decide) (by decide)⟩

theorem search_trie_match_length (trie : trie_node) (text : List Nat)
    (h : (search_trie trie text).1 ≠ -1) :
    1 ≤ (search_trie trie text).2 ∧ (search_trie trie text).2 ≤ text.length := by
  rcases search_trie_spec trie text with ⟨hs, _⟩ | ⟨k, hk1, hk2, _, hs, _⟩
  · rw [hs] at h; exact absurd rfl h
  · rw [hs]; exact ⟨hk1, hk2⟩

theorem encode_trace_spec (trie : trie_node) :
    ∀ (fuel : Nat) (text : List Nat), text.length ≤ fuel →
      ∃ tr, encode_trace trie fuel text = some tr ∧
        encode_loop trie fuel text = some (tr.map Prod.fst) ∧
        (∀ e ∈ tr, 1 ≤ e.2) ∧ (tr.map Prod.snd).sum = text.length ∧
        tr.length ≤ text.length := by
  intro fuel
  induction fuel with
  | zero =>
    intro text h
    have : text = [] := List.length_eq_zero.1 (by omega)
    subst this
    exact ⟨[], rfl, rfl, by simp, rfl, by simp⟩
  | succ fuel ih =>
    intro text h
    cases text with
    | nil => exact ⟨[], rfl, rfl, by simp, rfl, by simp⟩
    | cons b rest =>
      by_cases hr : (search_trie trie (b :: rest)).1 ≠ -1
      · obtain ⟨h1, h2⟩ := search_trie_match_length trie (b :: rest) hr
        have hlen : ((b :: rest).drop (search_trie trie (b :: rest)).2).length ≤ fuel := by
          rw [List.length_drop]
          simp only [List.length_cons] at h h2 ⊢
          omega
        obtain ⟨tr, e1, e2, e3, e4, e5⟩ := ih _ hlen
        refine ⟨((search_trie trie (b :: rest)).1, (search_trie trie (b :: rest)).2) :: tr,
          ?_, ?_, ?_, ?_, ?_⟩
        · simp only [encode_trace, if_pos hr, e1, Option.map_some']
        · simp only [encode_loop, if_pos hr, e2, Option.map_some', List.map_cons]
        · intro e he
          rcases List.mem_cons.1 he with he | he
          · rw [he]; exact h1
          · exact e3 e he
        · rw [List.map_cons, List.sum_cons, e4, List.length_drop]
          omega
        · rw [List.length_drop] at e5
          simp only [List.length_cons] at h2 e5 ⊢
          omega
      · have hlen : rest.length ≤ fuel := by
          simp only [List.length_cons] at h
          omega
        obtain ⟨tr, e1, e2, e3, e4, e5⟩ := ih _ hlen
        refine ⟨((b : Int), 1) :: tr, ?_, ?_, ?_, ?_, ?_⟩
        · simp only [encode_trace, if_neg hr, e1, Option.map_some']
        · simp only [encode_loop, if_neg hr, e2, Option.map_some', List.map_cons]
        · intro e he
          rcases List.mem_cons.1 he with he | he
          · rw [he]
          · exact e3 e he
        · rw [List.map_cons, List.sum_cons, e4, List.length_cons]
          omega
        · simp only [List.length_cons]
          omega

theorem strlen_le (text : List Nat) : strlen text ≤ text.length := by
  unfold strlen
  exact (List.takeWhile_sublist _).length_le

theorem encode_chunks_some (f : List Nat → Option (List Int))
    (hf : ∀ c, ∃ ids, f c = some ids ∧ ids.length ≤ c.length) :
    ∀ chunks : List (List Nat), ∃ ids, encode_chunks f chunks = some ids ∧
      ids.length ≤ (chunks.map List.length).sum := by
  intro chunks
  induction chunks with
  | nil => exact ⟨[], rfl, by simp⟩
  | cons c cs ih =>
    obtain ⟨a, ha, hal⟩ := hf c
    obtain ⟨r, hr, hrl⟩ := ih
    refine ⟨a ++ r, ?_, ?_⟩
    · simp only [encode_chunks, ha, hr]
    · simp only [List.length_append, List.map_cons, List.sum_cons]
      omega

/-- C11 (encoder termination and total coverage). For every trie and every
chunk: a match of `search_trie` (an id other than -1) has a length between 1
and the number of bytes it was given; the per-chunk loop ends within
`len(chunk)` passes, every pass advances by at least one byte, the advances sum
to exactly the chunk length, and at most `len(chunk)` ids are emitted. The loop
of `encode_inference` (length from `strlen`) ends as well, and both encoders
return a list for every list of chunks. -/
theorem encode_terminates_and_covers (trie : trie_node) (text : List Nat) :
    ((search_trie trie text).1 ≠ -1 →
      1 ≤ (search_trie trie text).2 ∧ (search_trie trie text).2 ≤ text.length) ∧
    (∃ tr, encode_trace trie text.length text = some tr ∧
      encode_train_chunk trie text = some (tr.map Prod.fst) ∧
      (∀ e ∈ tr, 1 ≤ e.2) ∧ (tr.map Prod.snd).sum = text.length ∧
      (tr.map Prod.fst).length ≤ text.length) ∧
    (∃ ids, encode_inference_chunk trie text = some ids ∧ ids.length ≤ text.length) ∧
    (∀ chunks : List (List Nat), ∃ ids, encode_train trie chunks = some ids ∧
      ids.length ≤ (chunks.map List.length).sum) ∧
    ∀ chunks : List (List Nat), ∃ ids, encode_inference trie chunks = some ids ∧
      ids.length ≤ (chunks.map List.length).sum := by
  have htrain : ∀ c : List Nat, ∃ ids, encode_train_chunk trie c = some ids ∧
      ids.length ≤ c.length := by
    intro c
    obtain ⟨tr, _, e2, _, _, e5⟩ := encode_trace_spec trie c.length c (le_refl _)
    exact ⟨tr.map Prod.fst, e2, by simpa using e5⟩
  have hinf : ∀ c : List Nat, ∃ ids, encode_inference_chunk trie c = some ids ∧
      ids.length ≤ c.length := by
    intro c
    have hl : (c.take (strlen c)).length ≤ strlen c := by
      rw [List.length_take]
      omega
    obtain ⟨tr, _, e2, _, _, e5⟩ := encode_trace_spec trie (strlen c) (c.take (strlen c)) hl
    refine ⟨tr.map Prod.fst, e2, ?_⟩
    have := strlen_le c
    simp only [List.length_map]
    omega
  refine ⟨search_trie_match_length trie text, ?_, hinf text, encode_chunks_some _ htrain,
    encode_chunks_some _ hinf⟩
  obtain ⟨tr, e1, e2, e3, e4, e5⟩ := encode_trace_spec trie text.length text (le_refl _)
  exact ⟨tr, e1, e2, e3, e4, by simpa using e5⟩

theorem search_trie_full_iff (n : trie_node) (text : List Nat) (v : Int) (h : text ≠ []) :
    search_trie n text = (v, text.length) ↔ trie_get n text = v ∧ v ≠ -1 := by
  have hpos : 0 < text.length := List.length_pos.2 h
  rcases search_trie_spec n text with ⟨hs, hall⟩ | ⟨k, hk1, hk2, hk3, hs, hall⟩
  · constructor
    · intro e
      rw [hs] at e
      have := (Prod.ext_iff.1 e).2
      simp only at this
      omega
    · rintro ⟨e, hv⟩
      have := hall text.length hpos (le_refl _)
      rw [List.take_length] at this
      exact absurd (e ▸ this) hv
  · constructor
    · intro e
      rw [hs] at e
      obtain ⟨e1, e2⟩ := Prod.ext_iff.1 e
      simp only at e1 e2
      subst e2
      rw [List.take_length] at e1 hk3
      exact ⟨e1, e1 ▸ hk3⟩
    · rintro ⟨e, hv⟩
      have hk : k = text.length := by
        by_contra hne
        have := hall text.length (by omega) (le_refl _)
        rw [List.take_length] at this
        exact absurd (e ▸ this) hv
      subst hk
      rw [hs, List.take_length, e]

theorem trie_get_insert_trie (trie : trie_node) (hroot : trie ≠ trie_node.null)
    (key : List Nat) (id : Int) (p : List Nat) :
    trie_get (insert_trie trie key id) p = if p = key then id else trie_get trie p := by
  cases trie with
  | null => exact absurd rfl hroot
  | node children tid => exact trie_get_insert_node key id children tid p

theorem insert_trie_ne_null (trie : trie_node) (hroot : trie ≠ trie_node.null)
    (key : List Nat) (id : Int) : insert_trie trie key id ≠ trie_node.null := by
  cases trie with
  | null => exact absurd rfl hroot
  | node children tid => exact insert_node_ne_null children tid key id

theorem trie_get_inserts_ne (more : List (Int × List Nat)) (hm : ∀ e ∈ more, e.1 ≠ -1)
    (p : List Nat) :
    ∀ (trie : trie_node), trie ≠ trie_node.null → trie_get trie p ≠ -1 →
      trie_get (more.foldl (fun t e => insert_trie t e.2 e.1) trie) p ≠ -1 := by
  induction more with
  | nil => intro trie _ h; exact h
  | cons e rest ih =>
    intro trie hroot h
    rw [List.foldl_cons]
    apply ih (fun x hx => hm x (List.mem_cons_of_mem _ hx)) _
      (insert_trie_ne_null trie hroot e.2 e.1)
    rw [trie_get_insert_trie trie hroot]
    by_cases hp : p = e.2
    · rw [if_pos hp]; exact hm e (List.mem_cons_self _ _)
    · rw [if_neg hp]; exact h

/-- C12 (the trie as a finite map). After `insert_trie(trie, k, v)` with `k`
non-empty and `v` other than -1, `search_trie` on the text `k` returns
`(v, len k)`; for every other non-empty byte string `kp`, `search_trie` on `kp`
returns `(vp, len kp)` after the insert exactly when it did before; a byte
string that is found in full stays found after any further sequence of inserts
with ids other than -1. -/
theorem insert_trie_finite_map (trie : trie_node) (hroot : trie ≠ trie_node.null)
    (k : List Nat) (v : Int) (hk : k ≠ []) (hv : v ≠ -1) :
    search_trie (insert_trie trie k v) k = (v, k.length) ∧
    (∀ (kp : List Nat) (vp : Int), kp ≠ [] → kp ≠ k →
      (search_trie (insert_trie trie k v) kp = (vp, kp.length) ↔
        search_trie trie kp = (vp, kp.length))) ∧
    ∀ (more : List (Int × List Nat)), (∀ e ∈ more, e.1 ≠ -1) →
      ∀ kp : List Nat, kp ≠ [] → (∃ vp, search_trie trie kp = (vp, kp.length)) →
        ∃ vq, search_trie (more.foldl (fun t e => insert_trie t e.2 e.1) trie) kp =
          (vq, kp.length) := by
  refine ⟨?_, ?_, ?_⟩
  · rw [search_trie_full_iff _ _ _ hk, trie_get_insert_trie trie hroot, if_pos rfl]
    exact ⟨rfl, hv⟩
  · intro kp vp hkp hne
    rw [search_trie_full_iff _ _ _ hkp, search_trie_full_iff _ _ _ hkp,
      trie_get_insert_trie trie hroot, if_neg hne]
  · intro more hm kp hkp ⟨vp, hvp⟩
    obtain ⟨e1, e2⟩ := (search_trie_full_iff _ _ _ hkp).1 hvp
    have := trie_get_inserts_ne more hm kp trie hroot (e1 ▸ e2)
    exact ⟨_, (search_trie_full_iff _ _ _ hkp).2 ⟨rfl, this⟩⟩

theorem insert_trie_finite_map_witness :
    create_trie ≠ trie_node.null ∧ ([97, 98] : List Nat) ≠ [] ∧ (256 : Int) ≠ -1 ∧
    search_trie (insert_trie create_trie [97, 98] 256) [97, 98] = (256, [97, 98].length) ∧
    ∀ (kp : List Nat) (vp : Int), kp ≠ [] → kp ≠ [97, 98] →
      (search_trie (insert_trie create_trie [97, 98] 256) kp = (vp, kp.length) ↔
        search_trie create_trie kp = (vp, kp.length)) :=
  ⟨(by simp [create_trie, create_node]), by decide, by decide,
    (insert_trie_finite_map create_trie (by simp [create_trie, create_node]) [97, 98] 256 (by decide)
      (by decide)).1,
    (insert_trie_finite_map create_trie (by simp [create_trie, create_node]) [97, 98] 256 (by decide)
      (by decide)).2.1⟩

theorem merge_symbols_replicate (X t : Nat) :
    ∀ n : Nat, merge_symbols X X t (List.replicate n X) =
        List.replicate (n / 2) t ++ List.replicate (n % 2) X ∧
      merge_symbols X X t (List.replicate (n + 1) X) =
        List.replicate ((n + 1) / 2) t ++ List.replicate ((n + 1) % 2) X := by
  intro n
  induction n with
  | zero => exact ⟨by simp [merge_symbols], by simp [merge_symbols, List.replicate]⟩
  | succ n ih =>
    refine ⟨ih.2, ?_⟩
    have h1 : (n + 1 + 1) / 2 = n / 2 + 1 := by omega
    have h2 : (n + 1 + 1) % 2 = n % 2 := by omega
    rw [h1, h2, List.replicate_succ, List.replicate_succ, merge_symbols_match, ih.1,
      List.replicate_succ, List.cons_append]

/-- The symbols `word_retokenize` leaves in a word record that held `w`: the
greedy merge of `w`, for any new id. -/
theorem word_retokenize_live (node : text_chunk_node) (w : List Nat) (a b t : Nat)
    (tbl : bigram_table) (hr : node_repr node w) (hb : b ≠ 0) :
    live_symbols (word_retokenize node a b tbl t).1 = merge_symbols a b t w ∧
      (word_retokenize node a b tbl t).1.num_elements = (merge_symbols a b t w).length + 1 := by
  obtain ⟨hnz, hn, ha, k, hbytes⟩ := hr
  have hinv : retok_inv { node := node, tbl := tbl, element := 1, unigram_L := 0 } [] w k :=
    ⟨by simpa using hbytes, by simpa using hn, rfl, rfl, ha⟩
  obtain ⟨_, _, k2, h3, h4, _⟩ :=
    word_retokenize_loop_eq a b t hb node.num_elements _ [] w k hinv hnz (by omega)
  simp only [List.getLast?_nil, List.nil_append, List.length_nil, Nat.zero_add] at h3 h4
  rw [merge_word_fst a b t _ w.length w none tbl (le_refl _)] at h3 h4
  refine ⟨?_, h4⟩
  show ((word_retokenize node a b tbl t).1.bytes.take
    ((word_retokenize node a b tbl t).1.num_elements - 1)) = _
  show (List.take _ (word_retokenize_loop a b t node.num_elements _).node.bytes) = _
  rw [h3]
  have : (word_retokenize node a b tbl t).1.num_elements - 1 =
      (merge_symbols a b t w).length := by
    show (word_retokenize_loop a b t node.num_elements _).node.num_elements - 1 = _
    rw [h4]; rfl
  rw [this, List.take_left']
  rfl

/-- C13 (greedy merge). For a word record holding the NUL-free symbol sequence
`w`, a winning pair `(a, b)` with `b` non-zero (and `a` arbitrary, so also
non-zero) and any new id `t`, the symbols `word_retokenize` leaves are
`merge_symbols a b t w`, where `merge [] = []`, `merge [x] = [x]` and
`merge (x :: y :: r)` is `t :: merge r` when `(x, y) = (a, b)` and
`x :: merge (y :: r)` otherwise. So `a b a b` becomes `t t`, and a run of `n`
symbols `X` under the pair `(X, X)` becomes `n / 2` copies of `t` followed by
one `X` when `n` is odd. -/
theorem word_retokenize_greedy (node : text_chunk_node) (w : List Nat) (a b t : Nat)
    (tbl : bigram_table) (hr : node_repr node w) (hb : b ≠ 0) :
    live_symbols (word_retokenize node a b tbl t).1 = merge_symbols a b t w ∧
    (word_retokenize node a b tbl t).1.num_elements = (merge_symbols a b t w).length + 1 ∧
    merge_symbols a b t [] = [] ∧
    (∀ x : Nat, merge_symbols a b t [x] = [x]) ∧
    (∀ (x y : Nat) (r : List Nat), merge_symbols a b t (x :: y :: r) =
      if (x, y) = (a, b) then t :: merge_symbols a b t r
      else x :: merge_symbols a b t (y :: r)) ∧
    merge_symbols a b t [a, b, a, b] = [t, t] ∧
    ∀ n : Nat, merge_symbols b b t (List.replicate n b) =
      List.replicate (n / 2) t ++ List.replicate (n % 2) b := by
  obtain ⟨h1, h2⟩ := word_retokenize_live node w a b t tbl hr hb
  refine ⟨h1, h2, merge_symbols_nil a b t, merge_symbols_single a b t, ?_, ?_,
    fun n => (merge_symbols_replicate b t n).1⟩
  · intro x y r
    by_cases hxy : x = a ∧ y = b
    · obtain ⟨rfl, rfl⟩ := hxy
      rw [merge_symbols_match, if_pos rfl]
    · have hne : ¬ ((x, y) = (a, b)) := fun e => hxy ⟨(Prod.ext_iff.1 e).1, (Prod.ext_iff.1 e).2⟩
      rw [merge_symbols_no_match a b t x y r hxy, if_neg hne]
  · rw [merge_symbols_match, merge_symbols_match, merge_symbols_nil]

theorem word_retokenize_greedy_witness :
    node_repr { count := 1, array_size := 10, num_elements := 5, bytes := [97, 97, 97, 97, 0] }
      [97, 97, 97, 97] ∧ (97 : Nat) ≠ 0 ∧
    live_symbols (word_retokenize
      { count := 1, array_size := 10, num_elements := 5, bytes := [97, 97, 97, 97, 0] }
      97 97 [] 256).1 = merge_symbols 97 97 256 [97, 97, 97, 97] ∧
    merge_symbols 97 97 256 [97, 97, 97, 97] = [256, 256] :=
  ⟨⟨by decide, rfl, rfl, 0, rfl⟩, by decide,
    (word_retokenize_greedy
      { count := 1, array_size := 10, num_elements := 5, bytes := [97, 97, 97, 97, 0] }
      [97, 97, 97, 97] 97 97 256 [] ⟨by decide, rfl, rfl, 0, rfl⟩ (by decide)).1,
    by decide⟩

theorem merge_loop_step (n : Nat) :
    ∀ s : train_state, merge_loop n (merge_step s) = merge_step (merge_loop n s) := by
  induction n with
  | zero => intro s; rfl
  | succ n ih => intro s; simp only [merge_loop]; exact ih (merge_step s)

theorem train_merges_succ (init_bigram : Nat × Nat) (words : List (List Nat × Nat)) (k : Nat) :
    train_merges init_bigram words (k + 1) = merge_step (train_merges init_bigram words k) := by
  simp only [train_merges, merge_loop]
  exact merge_loop_step k _

/-- The state of a run before any merge step satisfies the loop invariant, with
a corpus in which a pair of positive weighted frequency is still present when
no step has been made. -/
theorem train_inv_before_step (init_bigram : Nat × Nat) (words : List (List Nat × Nat))
    (k : Nat) (hv : valid_words words) (hb : total_pair_weight words < 2147483648)
    (hpos : ∃ x y, 0 < weighted_freq words x y) (hk : k ≤ 65279) :
    ∃ ws, train_inv words k (train_merges init_bigram words k) ws ∧
      (k = 0 → ∃ x y, 0 < weighted_freq ws x y) := by
  by_cases h0 : k = 0
  · subst h0
    exact ⟨words, train_inv_init init_bigram words hv hb, fun _ => hpos⟩
  · obtain ⟨ws, h⟩ := train_merges_inv init_bigram words k hv hb hpos hk
    exact ⟨ws, h, fun e => absurd e h0⟩

theorem find_node_update (tbl : bigram_table) (a b : Nat) (d : Int) (x y : Nat) :
    find_node (update_bigram_table a b d tbl) x y =
      if x = a ∧ y = b then
        some (match find_node tbl a b with
          | some n => { n with freq := wrap_int32 (n.freq + d) }
          | none => create_bigram_node a b d)
      else find_node tbl x y := by
  unfold find_node update_bigram_table
  by_cases hh : hash_text x y = hash_text a b
  · simp only [hh, bucket_get_set_same, chain_find_update]
    all_goals rfl
  · have hxy : ¬ (x = a ∧ y = b) := by
      rintro ⟨rfl, rfl⟩
      exact hh rfl
    simp only [bucket_get_set_other _ _ _ _ hh, hxy, if_false]

theorem find_node_update_isSome (tbl : bigram_table) (a b : Nat) (d : Int) (x y : Nat) :
    (find_node (update_bigram_table a b d tbl) x y).isSome = true ↔
      (x = a ∧ y = b) ∨ (find_node tbl x y).isSome = true := by
  rw [find_node_update]
  by_cases hxy : x = a ∧ y = b
  · simp [hxy]
  · simp [hxy]

/-- An entry of the table after `init_stats` on a word was there before or
belongs to a pair of the word. -/
theorem find_node_stats_pairs (count : Int) (w : List Nat) :
    ∀ (tbl : bigram_table) (x y : Nat),
      (find_node (stats_pairs count w tbl) x y).isSome = true →
        (find_node tbl x y).isSome = true ∨ 0 < pair_count x y w := by
  induction w with
  | nil => intro tbl x y h; exact Or.inl h
  | cons u rest ih =>
    intro tbl x y h
    cases rest with
    | nil => exact Or.inl h
    | cons v r =>
      simp only [stats_pairs] at h
      rcases ih _ x y h with h1 | h1
      · rcases (find_node_update_isSome tbl u v count x y).1 h1 with ⟨rfl, rfl⟩ | h2
        · right
          simp [pair_count]
        · exact Or.inl h2
      · right
        simp only [pair_count]
        omega

theorem find_node_foldl_init_stats (text_table : List text_chunk_node)
    (ws : List (List Nat × Nat)) (h : table_repr text_table ws) :
    ∀ (tbl : bigram_table) (x y : Nat),
      (find_node (text_table.foldl (fun tbl node => init_stats node tbl) tbl) x y).isSome = true →
        (find_node tbl x y).isSome = true ∨ ∃ w ∈ ws, 0 < pair_count x y w.1 := by
  induction h with
  | nil => intro tbl x y h; exact Or.inl h
  | @cons node w tt ws2 hd _ ih =>
    intro tbl x y h
    rw [List.foldl_cons, init_stats_eq node w.1 hd.1] at h
    rcases ih _ x y h with h1 | ⟨w2, hw2, h2⟩
    · rcases find_node_stats_pairs _ _ _ _ _ h1 with h3 | h3
      · exact Or.inl h3
      · exact Or.inr ⟨w, List.mem_cons_self _ _, h3⟩
    · exact Or.inr ⟨w2, List.mem_cons_of_mem _ hw2, h2⟩

theorem table_repr_nonzero (text_table : List text_chunk_node) (ws : List (List Nat × Nat))
    (h : table_repr text_table ws) : ∀ w ∈ ws, ∀ s ∈ w.1, s ≠ 0 := by
  induction h with
  | nil => intro w hw; cases hw
  | @cons node w tt ws2 hd _ ih =>
    intro w2 hw2
    rcases List.mem_cons.1 hw2 with e | e
    · rw [e]; exact hd.1.1
    · exact ih w2 e

theorem pair_count_short (a b : Nat) (w : List Nat) (h : w.length ≤ 1) : pair_count a b w = 0 := by
  cases w with
  | nil => rfl
  | cons x r =>
    cases r with
    | nil => rfl
    | cons y r2 => simp at h

theorem find_node_nil (x y : Nat) : find_node [] x y = none := rfl

theorem build_bigram_table_entry (text_table : List text_chunk_node)
    (ws : List (List Nat × Nat)) (h : table_repr text_table ws) (x y : Nat)
    (he : (find_node (build_bigram_table text_table) x y).isSome = true) :
    ∃ w ∈ ws, 0 < pair_count x y w.1 := by
  rcases find_node_foldl_init_stats text_table ws h [] x y he with h1 | h1
  · rw [find_node_nil] at h1; cases h1
  · exact h1

/-- C15 (initial statistics), as amended. After `build_bigram_table` over word
records that hold NUL-free symbol sequences followed by a NUL, the frequency
stored for every ordered pair `(a, b)` (0 when it has no entry) is the sum over
the records of `count` times the number of adjacent occurrences of `(a, b)`,
reduced to the range of the 32-bit `int freq` by two's-complement wrap: it is
the sum itself whenever the sum is below 2^31. No entry of the table has a NUL
endpoint; a record of length 0 or 1 leaves the table as it is and holds no
pair. -/
theorem build_bigram_table_initial_stats (text_table : List text_chunk_node)
    (ws : List (List Nat × Nat)) (h : table_repr text_table ws) :
    (∀ a b, get_freq (build_bigram_table text_table) a b =
      wrap_int32 ((ws.map (fun w => (w.2 : Int) * (pair_count a b w.1 : Int))).sum)) ∧
    (∀ a b, (ws.map (fun w => (w.2 : Int) * (pair_count a b w.1 : Int))).sum < 2147483648 →
      get_freq (build_bigram_table text_table) a b =
        (ws.map (fun w => (w.2 : Int) * (pair_count a b w.1 : Int))).sum) ∧
    (∀ n ∈ scan_order (build_bigram_table text_table), n.bigram0 ≠ 0 ∧ n.bigram1 ≠ 0) ∧
    (∀ x y, x = 0 ∨ y = 0 → find_node (build_bigram_table text_table) x y = none) ∧
    (∀ (node : text_chunk_node) (w : List Nat) (tbl : bigram_table), node_repr node w →
      w.length ≤ 1 → init_stats node tbl = tbl) ∧
    ∀ (a b : Nat) (w : List Nat), w.length ≤ 1 → pair_count a b w = 0 := by
  have hnz := table_repr_nonzero text_table ws h
  have hkey : ∀ x y, (find_node (build_bigram_table text_table) x y).isSome = true →
      x ≠ 0 ∧ y ≠ 0 := by
    intro x y he
    obtain ⟨w, hw, hp⟩ := build_bigram_table_entry text_table ws h x y he
    obtain ⟨hx, hy⟩ := pair_count_pos_mem x y w.1 hp
    exact ⟨hnz w hw x hx, hnz w hw y hy⟩
  refine ⟨fun a b => get_freq_build_bigram_table_wrap text_table ws h a b, ?_, ?_, ?_, ?_,
    pair_count_short⟩
  · intro a b hlt
    have h0 := weighted_freq_nonneg ws a b
    have h1 := get_freq_build_bigram_table_wrap text_table ws h a b
    unfold weighted_freq at h0 h1
    rw [h1]
    exact wrap_int32_of_range _ (by omega) hlt
  · intro n hn
    have := (mem_scan_order_iff_find _ (build_bigram_table_wf text_table ws h) n).1 hn
    exact hkey _ _ (by rw [this]; rfl)
  · intro x y hxy
    cases hf : find_node (build_bigram_table text_table) x y with
    | none => rfl
    | some n =>
      obtain ⟨h1, h2⟩ := hkey x y (by rw [hf]; rfl)
      rcases hxy with e | e
      · exact absurd e h1
      · exact absurd e h2
  · intro node w tbl hr hl
    rw [init_stats_eq node w hr]
    cases w with
    | nil => rfl
    | cons x r =>
      cases r with
      | nil => rfl
      | cons y r2 => simp at hl

theorem build_bigram_table_initial_stats_witness :
    table_repr (build_text_table [([97, 98], 10), ([98, 97], 1), ([99], 4)])
      [([97, 98], 10), ([98, 97], 1), ([99], 4)] ∧
    (∀ a b, get_freq (build_bigram_table
        (build_text_table [([97, 98], 10), ([98, 97], 1), ([99], 4)])) a b =
      wrap_int32 ((([([97, 98], 10), ([98, 97], 1), ([99], 4)] : List (List Nat × Nat)).map
        (fun w => (w.2 : Int) * (pair_count a b w.1 : Int))).sum)) ∧
    get_freq (build_bigram_table
        (build_text_table [([97, 98], 10), ([98, 97], 1), ([99], 4)])) 97 98 = 10 :=
  ⟨build_text_table_repr _ (by unfold valid_words; decide),
    (build_bigram_table_initial_stats _ _
      (build_text_table_repr [([97, 98], 10), ([98, 97], 1), ([99], 4)]
        (by unfold valid_words; decide))).1,
    by decide⟩

/-- C16 (max-pair selection). When some entry of the pair index has positive
frequency after the reset of the previous winner's entry, `update_max_node`
selects an entry `n` of the scan order (ascending bucket index, chain order
within a bucket) whose frequency is at least that of every entry and strictly
greater than that of every entry before it, leaves the table as the reset left
it, and records the pair of `n` as the children of the token `token_idx`,
leaving the other slots of the merge table alone. -/
theorem update_max_node_selects (max_node : max_ref) (tbl : bigram_table) (tt : token_table)
    (token_idx : Nat) (hpos : ∃ n ∈ scan_order (reset_max_freq max_node tbl), 0 < n.freq) :
    ∃ l1 n l2, scan_order (reset_max_freq max_node tbl) = l1 ++ n :: l2 ∧
      0 < n.freq ∧
      (∀ m ∈ scan_order (reset_max_freq max_node tbl), m.freq ≤ n.freq) ∧
      (∀ m ∈ l1, m.freq < n.freq) ∧
      (update_max_node max_node tbl tt token_idx).1 =
        { in_table := true, bigram0 := n.bigram0, bigram1 := n.bigram1 } ∧
      (update_max_node max_node tbl tt token_idx).2.1 = reset_max_freq max_node tbl ∧
      (update_max_node max_node tbl tt token_idx).2.2 token_idx =
        some { token0 := n.bigram0, token1 := n.bigram1 } ∧
      ∀ i, i ≠ token_idx → (update_max_node max_node tbl tt token_idx).2.2 i = tt i := by
  rcases scan_max_spec (scan_order (reset_max_freq max_node tbl)) max_node 0 with
    ⟨_, h2⟩ | ⟨l1, n, l2, h1, h2, h3, h4, h5⟩
  · obtain ⟨n, hn, hp⟩ := hpos
    have := h2 n hn
    omega
  · refine ⟨l1, n, l2, h1, h3, ?_, h4, ?_, rfl, ?_, ?_⟩
    · intro m hm
      rw [h1] at hm
      rcases List.mem_append.1 hm with hm | hm
      · exact le_of_lt (h4 m hm)
      · rcases List.mem_cons.1 hm with hm | hm
        · rw [hm]
        · exact h5 m hm
    · show (scan_max (scan_order (reset_max_freq max_node tbl)) max_node 0).1 = _
      rw [h2]
    · show (if token_idx = token_idx then
        some (create_token (scan_max (scan_order (reset_max_freq max_node tbl)) max_node 0).1)
        else tt token_idx) = _
      rw [if_pos rfl, h2]
      rfl
    · intro i hi
      show (if i = token_idx then _ else tt i) = tt i
      rw [if_neg hi]

theorem update_max_node_selects_witness :
    (∃ n ∈ scan_order (reset_max_freq { in_table := true, bigram0 := 97, bigram1 := 98 }
        [(620328, [{ bigram0 := 97, bigram1 := 98, freq := 9 }]),
         (620360, [{ bigram0 := 98, bigram1 := 97, freq := 4 }]),
         (620396, [{ bigram0 := 99, bigram1 := 100, freq := 4 }])]), 0 < n.freq) ∧
    (update_max_node { in_table := true, bigram0 := 97, bigram1 := 98 }
        [(620328, [{ bigram0 := 97, bigram1 := 98, freq := 9 }]),
         (620360, [{ bigram0 := 98, bigram1 := 97, freq := 4 }]),
         (620396, [{ bigram0 := 99, bigram1 := 100, freq := 4 }])] (fun _ => none) 256).1 =
      { in_table := true, bigram0 := 98, bigram1 := 97 } ∧
    ∃ l1 n l2, scan_order (reset_max_freq { in_table := true, bigram0 := 97, bigram1 := 98 }
        [(620328, [{ bigram0 := 97, bigram1 := 98, freq := 9 }]),
         (620360, [{ bigram0 := 98, bigram1 := 97, freq := 4 }]),
         (620396, [{ bigram0 := 99, bigram1 := 100, freq := 4 }])]) = l1 ++ n :: l2 ∧ 0 < n.freq :=
  ⟨⟨{ bigram0 := 98, bigram1 := 97, freq := 4 }, by decide, by decide⟩, by decide,
    (update_max_node_selects { in_table := true, bigram0 := 97, bigram1 := 98 }
      [(620328, [{ bigram0 := 97, bigram1 := 98, freq := 9 }]),
       (620360, [{ bigram0 := 98, bigram1 := 97, freq := 4 }]),
       (620396, [{ bigram0 := 99, bigram1 := 100, freq := 4 }])] (fun _ => none) 256
      ⟨{ bigram0 := 98, bigram1 := 97, freq := 4 }, by decide, by decide⟩).imp
      (fun _ h => h.imp (fun _ h2 => h2.imp (fun _ h3 => ⟨h3.1, h3.2.1⟩)))⟩

theorem chain_update_append (a b : Nat) (d : Int) (chain : List bigram_node)
    (h : chain_find a b chain = none) :
    chain_update a b d chain = chain ++ [create_bigram_node a b d] := by
  induction chain with
  | nil => rfl
  | cons n rest ih =>
    by_cases hn : n.bigram0 = a ∧ n.bigram1 = b
    · simp [chain_find, hn] at h
    · simp only [chain_find, hn, if_false] at h
      simp only [chain_update, hn, if_false, ih h, List.cons_append]

theorem chain_update_length (a b : Nat) (d : Int) (chain : List bigram_node) (n : bigram_node)
    (h : chain_find a b chain = some n) :
    (chain_update a b d chain).length = chain.length := by
  induction chain with
  | nil => simp [chain_find] at h
  | cons c rest ih =>
    by_cases hc : c.bigram0 = a ∧ c.bigram1 = b
    · simp [chain_update, hc]
    · simp only [chain_find, hc, if_false] at h
      simp only [chain_update, hc, if_false, List.length_cons, ih h]

theorem table_wf_tail (e : Nat × List bigram_node) (rest : bigram_table)
    (h : table_wf (e :: rest)) : table_wf rest := by
  obtain ⟨h1, h2⟩ := h
  rw [List.map_cons, List.pairwise_cons] at h1
  exact ⟨h1.2, fun x hx => h2 x (List.mem_cons_of_mem _ hx)⟩

/-- In a well-formed table no pair has two entries: the bigrams of the nodes
in scan order are pairwise distinct. -/
theorem scan_order_keys_nodup (tbl : bigram_table) (hwf : table_wf tbl) :
    ((scan_order tbl).map node_key).Nodup := by
  induction tbl with
  | nil => exact List.nodup_nil
  | cons e rest ih =>
    have hrest := table_wf_tail e rest hwf
    have hso : scan_order (e :: rest) = e.2 ++ scan_order rest := by
      simp [scan_order]
    rw [hso, List.map_append, List.nodup_append]
    refine ⟨(hwf.2 e (List.mem_cons_self _ _)).2, ih hrest, ?_⟩
    intro key hk1 hk2
    obtain ⟨n1, hn1, e1⟩ := List.mem_map.1 hk1
    obtain ⟨n2, hn2, e2⟩ := List.mem_map.1 hk2
    obtain ⟨e3, he3, hn3⟩ := (mem_scan_order rest n2).1 hn2
    have hh1 := (hwf.2 e (List.mem_cons_self _ _)).1 n1 hn1
    have hh2 := (hwf.2 e3 (List.mem_cons_of_mem _ he3)).1 n2 hn3
    have hlt : e.1 < e3.1 := by
      have hp := hwf.1
      rw [List.map_cons, List.pairwise_cons] at hp
      exact hp.1 e3.1 (List.mem_map.2 ⟨e3, he3, rfl⟩)
    have hk : node_key n1 = node_key n2 := e1.trans e2.symm
    simp only [node_key, Prod.mk.injEq] at hk
    rw [hk.1, hk.2] at hh1
    omega

/-- C17 (pair-index add), as amended. For a table in which no pair has two
entries, a pair `(a, b)` and a signed `delta`, after
`update_bigram_table(a, b, delta)`: the frequency of `(a, b)` is its previous
frequency plus `delta`, reduced to the range of the 32-bit `int freq` by
two's-complement wrap, so it is the sum itself whenever the sum lies in
-2^31 .. 2^31 - 1; when the pair had no entry one node holding `delta` (as an
`int`) is appended at the end of the chain of its bucket, otherwise its node
gets the wrapped sum and the chain keeps its length; the node and the frequency
of every other pair and every other bucket are unchanged; every pair that had
an entry still has one; and still no pair has two entries. -/
theorem update_bigram_table_add (tbl : bigram_table) (hwf : table_wf tbl) (a b : Nat)
    (delta : Int) :
    get_freq (update_bigram_table a b delta tbl) a b =
      wrap_int32 (get_freq tbl a b + delta) ∧
    (-2147483648 ≤ get_freq tbl a b + delta → get_freq tbl a b + delta < 2147483648 →
      get_freq (update_bigram_table a b delta tbl) a b = get_freq tbl a b + delta) ∧
    (find_node tbl a b = none →
      get_freq (update_bigram_table a b delta tbl) a b = wrap_int32 delta ∧
      bucket_get (update_bigram_table a b delta tbl) (hash_text a b) =
        bucket_get tbl (hash_text a b) ++ [create_bigram_node a b delta]) ∧
    (∀ n, find_node tbl a b = some n →
      find_node (update_bigram_table a b delta tbl) a b =
        some { n with freq := wrap_int32 (n.freq + delta) } ∧
      (bucket_get (update_bigram_table a b delta tbl) (hash_text a b)).length =
        (bucket_get tbl (hash_text a b)).length) ∧
    (∀ x y, ¬ (x = a ∧ y = b) →
      find_node (update_bigram_table a b delta tbl) x y = find_node tbl x y ∧
      get_freq (update_bigram_table a b delta tbl) x y = get_freq tbl x y) ∧
    (∀ h, h ≠ hash_text a b →
      bucket_get (update_bigram_table a b delta tbl) h = bucket_get tbl h) ∧
    (∀ x y, (find_node tbl x y).isSome = true →
      (find_node (update_bigram_table a b delta tbl) x y).isSome = true) ∧
    ((scan_order (update_bigram_table a b delta tbl)).map node_key).Nodup ∧
    table_wf (update_bigram_table a b delta tbl) := by
  have hwf2 := update_bigram_table_wf a b delta tbl hwf
  refine ⟨?_, ?_, ?_, ?_, ?_, ?_, ?_, scan_order_keys_nodup _ hwf2, hwf2⟩
  · rw [get_freq_update, if_pos ⟨rfl, rfl⟩]
  · intro h1 h2
    rw [get_freq_update, if_pos ⟨rfl, rfl⟩]
    exact wrap_int32_of_range _ h1 h2
  · intro hnone
    refine ⟨?_, ?_⟩
    · rw [get_freq_update, if_pos ⟨rfl, rfl⟩]
      unfold get_freq
      rw [hnone]
      simp
    · unfold update_bigram_table
      rw [bucket_get_set_same]
      exact chain_update_append a b delta _ hnone
  · intro n hn
    refine ⟨?_, ?_⟩
    · rw [find_node_update, if_pos ⟨rfl, rfl⟩, hn]
    · unfold update_bigram_table
      rw [bucket_get_set_same]
      exact chain_update_length a b delta _ n hn
  · intro x y hxy
    refine ⟨?_, ?_⟩
    · rw [find_node_update, if_neg hxy]
    · rw [get_freq_update, if_neg hxy]
  · intro h hne
    unfold update_bigram_table
    exact bucket_get_set_other _ _ _ _ hne
  · intro x y he
    exact (find_node_update_isSome tbl a b delta x y).2 (Or.inr he)

theorem update_bigram_table_add_witness :
    table_wf [(620328, [{ bigram0 := 97, bigram1 := 98, freq := 0 }])] ∧
    get_freq (update_bigram_table 97 98 (-3)
        [(620328, [{ bigram0 := 97, bigram1 := 98, freq := 0 }])]) 97 98 =
      wrap_int32 (get_freq [(620328, [{ bigram0 := 97, bigram1 := 98, freq := 0 }])] 97 98 +
        (-3)) ∧
    scan_order (update_bigram_table 97 98 (-3)
        [(620328, [{ bigram0 := 97, bigram1 := 98, freq := 0 }])]) =
      [{ bigram0 := 97, bigram1 := 98, freq := -3 }] :=
  ⟨update_bigram_table_wf 97 98 0 [] table_wf_nil,
    (update_bigram_table_add [(620328, [{ bigram0 := 97, bigram1 := 98, freq := 0 }])]
      (update_bigram_table_wf 97 98 0 [] table_wf_nil) 97 98 (-3)).1,
    by decide⟩

/-- C17, the claim as written fails at the edge of the `int` range: the entry
of `(97, 98)` holds 2147483647, and after `update_bigram_table(97, 98, 1)` it
holds -2147483648, not the sum 2147483648. -/
theorem update_bigram_table_wraps :
    get_freq [(620328, [{ bigram0 := 97, bigram1 := 98, freq := 2147483647 }])] 97 98 =
      2147483647 ∧
    get_freq (update_bigram_table 97 98 1
        [(620328, [{ bigram0 := 97, bigram1 := 98, freq := 2147483647 }])]) 97 98 =
      -2147483648 ∧
    (2147483647 : Int) + 1 ≠ -2147483648 := by
  decide

theorem step_indices_bound (a b : Nat) (hb : b ≠ 0) (s : retokenize_state) (pre : List Nat)
    (x : Nat) (rest : List Nat) (k : Nat) (h : retok_inv s pre (x :: rest) k)
    (hsmall : pre.length + rest.length < 65536) :
    ∀ i ∈ word_retokenize_step_indices a b s,
      0 ≤ i ∧ i ≤ ((pre.length + rest.length + 1 : Nat) : Int) := by
  have h1 := inv_getD_u1 s pre x rest k h
  have h2 := inv_getD_u2 s pre x rest k h
  obtain ⟨_, hnum, hel, hL, _⟩ := h
  simp only [List.length_cons] at hnum
  unfold word_retokenize_step_indices
  simp only [h1, h2]
  by_cases hm : x = a ∧ rest.headD 0 = b
  · rw [if_pos hm, if_pos hm.1]
    cases rest with
    | nil => exact absurd hm.2.symm (by simpa using hb)
    | cons y tail =>
      simp only [List.length_cons] at hnum hsmall ⊢
      have hrem : ((s.node.num_elements + 18446744073709551616 - s.element - 2) %
          18446744073709551616 * 2) % 18446744073709551616 / 2 = tail.length := by
        rw [hnum, hel]
        omega
      rw [hrem]
      intro i hi
      simp only [List.mem_append, List.mem_cons, List.mem_singleton, List.mem_map,
        List.mem_range, List.not_mem_nil, or_false, exists_exists_and_eq_and] at hi
      rcases hi with ((((((hi | hi) | hi) | hi) | hi) | hi) | hi) | hi
      · rcases hi with hi | hi <;> omega
      · by_cases hne : s.unigram_L ≠ s.element - 1
        · rw [if_pos hne] at hi
          simp only [List.mem_cons, List.mem_singleton, List.not_mem_nil, or_false] at hi
          have : 1 ≤ pre.length := by omega
          rcases hi with hi | hi | hi <;> omega
        · rw [if_neg hne] at hi
          cases hi
      · omega
      · split at hi
        · simp only [List.mem_cons, List.mem_singleton, List.not_mem_nil, or_false] at hi
          rcases hi with hi | hi | hi <;> omega
        · cases hi
      · omega
      · obtain ⟨j, hj, rfl⟩ := hi
        omega
      · obtain ⟨j, hj, rfl⟩ := hi
        omega
      · omega
  · rw [if_neg hm]
    intro i hi
    split at hi
    · simp only [List.mem_cons, List.mem_singleton, List.not_mem_nil, or_false] at hi
      rcases hi with hi | hi <;> omega
    · simp only [List.mem_singleton] at hi
      omega

theorem loop_indices_bound (a b t : Nat) (hb : b ≠ 0) (B : Nat) (hB : B < 65536) :
    ∀ (fuel : Nat) (s : retokenize_state) (pre rest : List Nat) (k : Nat),
      retok_inv s pre rest k → (∀ v ∈ rest, v ≠ 0) → pre.length + rest.length ≤ B →
      ∀ i ∈ word_retokenize_loop_indices a b t fuel s, 0 ≤ i ∧ i ≤ (B : Int) := by
  intro fuel
  induction fuel with
  | zero => intro s pre rest k _ _ _ i hi; cases hi
  | succ fuel ih =>
    intro s pre rest k h hnz hlen i hi
    simp only [word_retokenize_loop_indices] at hi
    split at hi
    · rename_i hlt
      cases rest with
      | nil =>
        obtain ⟨_, hnum, hel, _, _⟩ := h
        simp only [List.length_nil] at hnum
        omega
      | cons x rest2 =>
        simp only [List.length_cons] at hlen
        rcases List.mem_append.1 hi with hi | hi
        · have := step_indices_bound a b hb s pre x rest2 k h (by omega) i hi
          omega
        · by_cases hm : x = a ∧ rest2.headD 0 = b
          · cases rest2 with
            | nil => exact absurd hm.2.symm (by simpa using hb)
            | cons y tail =>
              obtain ⟨rfl, hy⟩ := hm
              simp only [List.headD_cons] at hy
              subst hy
              have hnz2 : ∀ v ∈ tail, v ≠ 0 := fun v hv =>
                hnz v (List.mem_cons_of_mem _ (List.mem_cons_of_mem _ hv))
              obtain ⟨hinv, _, _⟩ := step_match x y t s pre tail k h hnz2
              simp only [List.length_cons] at hlen
              exact ih _ (pre ++ [t]) tail (k + 1) hinv hnz2
                (by simp only [List.length_append, List.length_singleton]; omega) i hi
          · obtain ⟨hinv, _, _⟩ := step_no_match a b t s pre x rest2 k h hm
            exact ih _ (pre ++ [x]) rest2 k hinv
              (fun v hv => hnz v (List.mem_cons_of_mem _ hv))
              (by simp only [List.length_append, List.length_singleton]; omega) i hi
    · cases hi

theorem init_stats_loop_indices_bound (node : text_chunk_node) (rest : List Nat) :
    ∀ (pre : List Nat) (k : Nat), node.bytes = pre ++ rest ++ List.replicate k 0 →
      ∀ i ∈ init_stats_loop_indices node (rest.length + 1) pre.length,
        0 ≤ i ∧ i ≤ ((pre.length + rest.length : Nat) : Int) := by
  induction rest with
  | nil =>
    intro pre k hbytes i hi
    have h0 : node.bytes.getD pre.length 0 = 0 := by
      rw [hbytes, List.append_nil]
      have := getD_append_len_add pre (List.replicate k 0) 0 0
      rw [Nat.add_zero] at this
      rw [this, getD_replicate_zero]
    simp only [List.length_nil, Nat.zero_add, init_stats_loop_indices, h0, ne_eq,
      not_true_eq_false, if_false, List.append_nil, List.mem_singleton] at hi
    subst hi
    simp
  | cons x r ih =>
    intro pre k hbytes i hi
    have hrec : ∀ j ∈ init_stats_loop_indices node (r.length + 1) (pre.length + 1),
        0 ≤ j ∧ j ≤ ((pre.length + (r.length + 1) : Nat) : Int) := by
      intro j hj
      have := ih (pre ++ [x]) k (by rw [hbytes]; simp) j
        (by simpa only [List.length_append, List.length_singleton] using hj)
      simp only [List.length_append, List.length_singleton] at this
      omega
    simp only [List.length_cons, init_stats_loop_indices] at hi ⊢
    rcases List.mem_append.1 hi with hi | hi
    · split at hi
      · rcases List.mem_append.1 hi with hi | hi
        · simp only [List.mem_cons, List.mem_singleton, List.not_mem_nil, or_false] at hi
          rcases hi with hi | hi <;> omega
        · split at hi
          · simp only [List.mem_cons, List.mem_singleton, List.not_mem_nil, or_false] at hi
            rcases hi with hi | hi <;> omega
          · cases hi
      · simp only [List.mem_singleton] at hi
        omega
    · exact hrec i hi

/-- The table `word_retokenize` leaves is the table of `merge_word`, for any
new id. -/
theorem word_retokenize_eq_table (node : text_chunk_node) (w : List Nat) (a b t : Nat)
    (tbl : bigram_table) (hr : node_repr node w) (hb : b ≠ 0) :
    (word_retokenize node a b tbl t).2 = (merge_word a b t node.count none w tbl).2 := by
  obtain ⟨hnz, hn, ha, k, hbytes⟩ := hr
  have hinv : retok_inv { node := node, tbl := tbl, element := 1, unigram_L := 0 } [] w k :=
    ⟨by simpa using hbytes, by simpa using hn, rfl, rfl, ha⟩
  obtain ⟨h1, _⟩ :=
    word_retokenize_loop_eq a b t hb node.num_elements _ [] w k hinv hnz (by omega)
  simpa using h1

/-- C20 (in-bounds rewriting). For a word record that holds the NUL-free
symbol sequence `w` (a NUL at offset `len w`, `num_elements = len w + 1`;
`len w` within the 16-bit size of `train`) and a winning pair whose second
component is non-zero (so also one with both components non-zero), every offset `word_retokenize` reads or writes lies in
`0 .. len w`, and so does every offset `init_stats` reads. The table
`word_retokenize` leaves is the one of `merge_word`, which patches the left
neighbour only when a symbol precedes the match and the right neighbour only
when a symbol follows it: without a symbol before (a match at offset 0) the
left patch is skipped, without a symbol behind (a match ending at the last
live symbol) the right patch is skipped. -/
theorem word_retokenize_in_bounds (node : text_chunk_node) (w : List Nat) (a b t : Nat)
    (tbl : bigram_table) (hr : node_repr node w) (hl : w.length ≤ 32766) (hb : b ≠ 0) :
    (∀ i ∈ word_retokenize_indices node a b tbl t, 0 ≤ i ∧ i ≤ (w.length : Int)) ∧
    (∀ i ∈ init_stats_indices node, 0 ≤ i ∧ i ≤ (w.length : Int)) ∧
    (word_retokenize node a b tbl t).2 = (merge_word a b t node.count none w tbl).2 ∧
    (∀ (c : Int) (tbl2 : bigram_table), patch_left a t c none tbl2 = tbl2) ∧
    (∀ (c : Int) (tbl2 : bigram_table), patch_right b t c [] tbl2 = tbl2) ∧
    (∀ (c : Int) (tail : List Nat) (tbl2 : bigram_table),
      merge_word a b t c none (a :: b :: tail) tbl2 =
        (t :: (merge_word a b t c (some t) tail (patch_right b t c tail tbl2)).1,
          (merge_word a b t c (some t) tail (patch_right b t c tail tbl2)).2)) ∧
    ∀ (c : Int) (prev : Option Nat) (tbl2 : bigram_table),
      merge_word a b t c prev [a, b] tbl2 = ([t], patch_left a t c prev tbl2) := by
  have hr2 := hr
  obtain ⟨hnz, hn, hsz, k, hbytes⟩ := hr
  have hinv : retok_inv { node := node, tbl := tbl, element := 1, unigram_L := 0 } [] w k :=
    ⟨by simpa using hbytes, by simpa using hn, rfl, rfl, hsz⟩
  refine ⟨?_, ?_, ?_, fun _ _ => rfl, fun _ _ => rfl, ?_, ?_⟩
  · intro i hi
    exact loop_indices_bound a b t hb w.length (by omega) node.num_elements _ [] w k hinv hnz
      (by simp) i hi
  · intro i hi
    have := init_stats_loop_indices_bound node w [] (k + 1) (by simpa using hbytes) i
      (by
        unfold init_stats_indices at hi
        rw [hn] at hi
        exact hi)
    simpa using this
  · exact (word_retokenize_eq_table node w a b t tbl hr2 hb)
  · intro c tail tbl2
    rw [merge_word_match]
    rfl
  · intro c prev tbl2
    rw [merge_word_match, merge_word_nil]
    rfl

theorem word_retokenize_in_bounds_witness :
    node_repr { count := 1, array_size := 8, num_elements := 4, bytes := [97, 98, 97, 0] }
      [97, 98, 97] ∧
    ∀ i ∈ word_retokenize_indices
        { count := 1, array_size := 8, num_elements := 4, bytes := [97, 98, 97, 0] }
        98 97 [] 256, 0 ≤ i ∧ i ≤ (([97, 98, 97] : List Nat).length : Int) :=
  ⟨⟨by decide, rfl, rfl, 0, rfl⟩,
    (word_retokenize_in_bounds
      { count := 1, array_size := 8, num_elements := 4, bytes := [97, 98, 97, 0] }
      [97, 98, 97] 98 97 256 [] ⟨by decide, rfl, rfl, 0, rfl⟩ (by decide) (by decide)).1⟩

/-- Well-foundedness of the merge table where the pair index holds a positive
frequency: in a run on valid words of total weighted pair count below 2^31 in
which some pair has positive weighted frequency, every minted token records two non-zero children smaller than
itself, each a base byte or a token minted before, and `dfs` returns its
expansion without the error branch. -/
theorem merge_table_children_smaller (init_bigram : Nat × Nat)
    (words : List (List Nat × Nat)) (num_merges : Nat) (hv : valid_words words)
    (htotal : total_pair_weight words < 2147483648)
    (hpos : ∃ a b, 0 < weighted_freq words a b) (hn : num_merges ≤ 65279) (k : Nat)
    (hk : k < num_merges) :
    ∃ node, (train_merges init_bigram words num_merges).tt (256 + k) = some node ∧
      (1 ≤ node.token0 ∧ node.token0 < 256 + k) ∧ (1 ≤ node.token1 ∧ node.token1 < 256 + k) ∧
      (node.token0 < 256 ∨
        ((train_merges init_bigram words num_merges).tt node.token0).isSome = true) ∧
      (node.token1 < 256 ∨
        ((train_merges init_bigram words num_merges).tt node.token1).isSome = true) ∧
      ∃ out, dfs (train_merges init_bigram words num_merges).tt (256 + num_merges)
        (train_max_size words) (num_merges * train_max_size words + 2) (256 + k)
        ([], false) = some (out, false) := by
  obtain ⟨ws, h⟩ := train_merges_inv init_bigram words num_merges hv htotal hpos hn
  have hsome : ((train_merges init_bigram words num_merges).tt (256 + k)).isSome = true :=
    (h.ttwf.1 (256 + k)).2 ⟨by omega, by omega⟩
  obtain ⟨node, hnode⟩ := Option.isSome_iff_exists.1 hsome
  obtain ⟨c0, z0, c1, z1⟩ := h.ttwf.2 _ node hnode
  refine ⟨node, hnode, ⟨by omega, c0⟩, ⟨by omega, c1⟩, ?_, ?_,
    ⟨_, train_dfs_eq init_bigram words num_merges hv htotal hpos hn k hk⟩⟩
  · by_cases hb : node.token0 < 256
    · exact Or.inl hb
    · exact Or.inr ((h.ttwf.1 _).2 ⟨by omega, by omega⟩)
  · by_cases hb : node.token1 < 256
    · exact Or.inl hb
    · exact Or.inr ((h.ttwf.1 _).2 ⟨by omega, by omega⟩)

/-- C18 (merge-table well-foundedness), failing input: the word "ab" with
count 0 is NUL-free and holds an adjacent pair, but no frequency is positive, so
the first step mints token 256 from the uninitialised bigram of
`init_max_node`. When that memory holds `(256, 256)` both recorded children
equal the token itself, neither is smaller than it, and `dfs` does not end for
the token at any recursion depth. -/
theorem train_zero_count_children :
    valid_words [([97, 98], 0)] ∧ 0 < pair_count 97 98 [97, 98] ∧
    ∃ node, (train_merges (256, 256) [([97, 98], 0)] 1).tt 256 = some node ∧
      ¬ node.token0 < 256 ∧ ¬ node.token1 < 256 ∧
      ∀ fuel, dfs (train_merges (256, 256) [([97, 98], 0)] 1).tt (256 + 1)
        (train_max_size [([97, 98], 0)]) fuel 256 ([], false) = none :=
  ⟨by unfold valid_words; decide, by decide,
    { token0 := 256, token1 := 256 }, by decide, by decide, by decide,
    dfs_self_child_none _ _ _ 256 256 (by decide) (by decide) (by decide) (by decide)⟩

/-- The expansion bound where the pair index holds a positive frequency: in a
run on valid words of total weighted pair count below 2^31 in which some pair
has positive weighted frequency, the
expansion of every minted token is a piece of a training word, so no longer
than the longest word and shorter than `max_size`, and `dfs` writes it without
the error branch. -/
theorem expansion_within_longest_word (init_bigram : Nat × Nat)
    (words : List (List Nat × Nat)) (num_merges : Nat) (hv : valid_words words)
    (htotal : total_pair_weight words < 2147483648)
    (hpos : ∃ a b, 0 < weighted_freq words a b) (hn : num_merges ≤ 65279) (k : Nat)
    (hk : k < num_merges) :
    (∃ w ∈ words,
      (expansion (train_merges init_bigram words num_merges).tt (256 + k)).length ≤
        w.1.length) ∧
    (expansion (train_merges init_bigram words num_merges).tt (256 + k)).length <
      train_max_size words ∧
    dfs (train_merges init_bigram words num_merges).tt (256 + num_merges)
        (train_max_size words) (num_merges * train_max_size words + 2) (256 + k)
        ([], false) =
      some (expansion (train_merges init_bigram words num_merges).tt (256 + k), false) := by
  obtain ⟨ws, h⟩ := train_merges_inv init_bigram words num_merges hv htotal hpos hn
  obtain ⟨w, hw, hinf⟩ := h.minted (256 + k) (by omega) (by omega)
  have hle := hinf.length_le
  have hmax := train_max_size_ge words hv w hw
  exact ⟨⟨w, hw, hle⟩, by omega, train_dfs_eq init_bigram words num_merges hv htotal hpos hn k hk⟩

/-- C19 (expansion length bound), failing input: the word "ab" with count 0. No
frequency is positive, so token 256 records the uninitialised bigram of
`init_max_node`; when that memory holds `(300, 7)` the call of `dfs` for the
left child finds `index > token_idx_end` and takes the error branch, and
`train` returns `[[7]]`. -/
theorem train_zero_count_dfs_error :
    valid_words [([97, 98], 0)] ∧ 0 < pair_count 97 98 [97, 98] ∧
    (train_merges (300, 7) [([97, 98], 0)] 1).tt 256 = some { token0 := 300, token1 := 7 } ∧
    dfs (train_merges (300, 7) [([97, 98], 0)] 1).tt (256 + 1)
        (train_max_size [([97, 98], 0)]) (1 * train_max_size [([97, 98], 0)] + 2) 256
        ([], false) = some ([7], true) ∧
    train (300, 7) [([97, 98], 0)] 1 = some [[7]] :=
  ⟨by unfold valid_words; decide, by decide, by decide, by decide, by decide⟩

theorem forall₂_getElem? {α β : Type} (R : α → β → Prop) :
    ∀ (l1 : List α) (l2 : List β), List.Forall₂ R l1 l2 →
      ∀ (i : Nat) (a : α), l1[i]? = some a → ∃ b, l2[i]? = some b ∧ R a b := by
  intro l1 l2 h
  induction h with
  | nil => intro i a hi; simp at hi
  | @cons a0 b0 t1 t2 hd _ ih =>
    intro i a hi
    cases i with
    | zero =>
      simp only [List.getElem?_cons_zero, Option.some.injEq] at hi
      subst hi
      exact ⟨b0, by simp, hd⟩
    | succ j =>
      simp only [List.getElem?_cons_succ] at hi ⊢
      exact ih j a hi

theorem node_repr_terminator (node : text_chunk_node) (w : List Nat) (h : node_repr node w) :
    node.bytes[w.length]? = some 0 := by
  obtain ⟨_, _, _, k, hb⟩ := h
  rw [hb, List.replicate_succ, List.getElem?_append_right (le_refl _), Nat.sub_self,
    List.getElem?_cons_zero]

/-- Rewriting preserves the words where the pair index holds a positive
frequency. In a run of `train` on valid words of total weighted pair count
below 2^31 in which some pair has positive weighted frequency, after any number
`N <= 65279` of merge steps the word table has one record per input word, in
input order, and for every record: the concatenation of the expansions of its
live symbols through the merge table is the original byte string of the word;
the live symbols are non-zero; a NUL stands at offset `length`; `num_elements`
is `length + 1`; `array_size` is `2 * num_elements`; the count is the supplied
one; and every live symbol is a byte or a minted token for which `dfs` writes
the expansion without the error branch. -/
theorem rewriting_preserves_words (init_bigram : Nat × Nat) (words : List (List Nat × Nat))
    (num_merges : Nat) (hv : valid_words words)
    (htotal : total_pair_weight words < 2147483648)
    (hpos : ∃ a b, 0 < weighted_freq words a b) (hn : num_merges ≤ 65279) :
    (train_merges init_bigram words num_merges).text_table.length = words.length ∧
    ∀ (i : Nat) (node : text_chunk_node),
      (train_merges init_bigram words num_merges).text_table[i]? = some node →
      ∃ w0, words[i]? = some w0 ∧
        expand_word (train_merges init_bigram words num_merges).tt (live_symbols node) = w0.1 ∧
        (∀ s ∈ live_symbols node, s ≠ 0) ∧
        node.bytes[(live_symbols node).length]? = some 0 ∧
        node.num_elements = (live_symbols node).length + 1 ∧
        node.array_size = 2 * node.num_elements ∧
        node.count = w0.2 ∧
        ∀ s ∈ live_symbols node, s < 256 ∨
          dfs (train_merges init_bigram words num_merges).tt (256 + num_merges)
            (train_max_size words) (num_merges * train_max_size words + 2) s ([], false) =
            some (expansion (train_merges init_bigram words num_merges).tt s, false) := by
  obtain ⟨ws, h⟩ := train_merges_inv init_bigram words num_merges hv htotal hpos hn
  refine ⟨?_, ?_⟩
  · rw [List.Forall₂.length_eq h.repr, List.Forall₂.length_eq h.expansions]
  · intro i node hi
    obtain ⟨w, hw, hrepr, hcount⟩ := forall₂_getElem? _ _ _ h.repr i node hi
    obtain ⟨w0, hw0, hexp, hc⟩ := forall₂_getElem? _ _ _ h.expansions i w hw
    have hlive := live_symbols_of_repr node w.1 hrepr
    have hmem : w ∈ ws := List.getElem?_mem hw
    rw [hlive]
    refine ⟨w0, hw0, hexp, hrepr.1, node_repr_terminator node w.1 hrepr, hrepr.2.1,
      hrepr.2.2.1, by rw [hcount, hc], ?_⟩
    intro s hs
    by_cases hb : s < 256
    · exact Or.inl hb
    · right
      have hlt := (h.symbols w hmem s hs).2
      have := train_dfs_eq init_bigram words num_merges hv htotal hpos hn (s - 256) (by omega)
      have e : 256 + (s - 256) = s := by omega
      rw [e] at this
      exact this

theorem rewriting_preserves_words_witness :
    valid_words [([97, 97, 97, 97], 1)] ∧
    total_pair_weight [([97, 97, 97, 97], 1)] < 2147483648 ∧
    (∃ a b, 0 < weighted_freq [([97, 97, 97, 97], 1)] a b) ∧
    (train_merges (0, 0) [([97, 97, 97, 97], 1)] 2).text_table.length =
      ([([97, 97, 97, 97], 1)] : List (List Nat × Nat)).length ∧
    (train_merges (0, 0) [([97, 97, 97, 97], 1)] 2).text_table.map live_symbols = [[257]] ∧
    expand_word (train_merges (0, 0) [([97, 97, 97, 97], 1)] 2).tt [257] = [97, 97, 97, 97] :=
  ⟨by unfold valid_words; decide, by decide, ⟨97, 97, by decide⟩,
    (rewriting_preserves_words (0, 0) [([97, 97, 97, 97], 1)] 2 (by unfold valid_words; decide)
      (by decide) ⟨97, 97, by decide⟩ (by decide)).1,
    by decide, by decide⟩

theorem step_no_match_node (a b t : Nat) (s : retokenize_state) (pre : List Nat) (x : Nat)
    (rest : List Nat) (k : Nat) (h : retok_inv s pre (x :: rest) k)
    (hno : ¬ (x = a ∧ rest.headD 0 = b)) :
    (word_retokenize_step a b t s).node = s.node := by
  have h1 := inv_getD_u1 s pre x rest k h
  have h2 := inv_getD_u2 s pre x rest k h
  unfold word_retokenize_step
  simp only [h1, h2, hno, if_false]

/-- With no occurrence of the pair in the symbols still ahead, the loop of
`word_retokenize` leaves the record and the table as they are. -/
theorem loop_no_occurrence (a b t : Nat) (hb : b ≠ 0) :
    ∀ (fuel : Nat) (s : retokenize_state) (pre rest : List Nat) (k : Nat),
      retok_inv s pre rest k → pair_count a b rest = 0 →
      (word_retokenize_loop a b t fuel s).node = s.node ∧
        (word_retokenize_loop a b t fuel s).tbl = s.tbl := by
  intro fuel
  induction fuel with
  | zero => intro s pre rest k _ _; exact ⟨rfl, rfl⟩
  | succ fuel ih =>
    intro s pre rest k h hpc
    simp only [word_retokenize_loop]
    split
    · rename_i hlt
      cases rest with
      | nil =>
        obtain ⟨_, hnum, hel, _, _⟩ := h
        simp only [List.length_nil] at hnum
        omega
      | cons x rest2 =>
        have hno : ¬ (x = a ∧ rest2.headD 0 = b) := by
          rintro ⟨rfl, hh⟩
          cases rest2 with
          | nil => exact hb (by simpa using hh.symm)
          | cons y tail =>
            simp only [List.headD_cons] at hh
            subst hh
            simp [pair_count] at hpc
        have hpc2 : pair_count a b rest2 = 0 := by
          cases rest2 with
          | nil => rfl
          | cons y tail =>
            simp only [pair_count] at hpc
            omega
        obtain ⟨hinv, htbl, _⟩ := step_no_match a b t s pre x rest2 k h hno
        obtain ⟨e1, e2⟩ := ih _ (pre ++ [x]) rest2 k hinv hpc2
        exact ⟨e1.trans (step_no_match_node a b t s pre x rest2 k h hno), e2.trans htbl⟩
    · exact ⟨rfl, rfl⟩

theorem word_retokenize_no_occurrence (node : text_chunk_node) (w : List Nat) (a b t : Nat)
    (tbl : bigram_table) (hr : node_repr node w) (hb : b ≠ 0) (hpc : pair_count a b w = 0) :
    word_retokenize node a b tbl t = (node, tbl) := by
  obtain ⟨_, hn, ha, k, hbytes⟩ := hr
  have hinv : retok_inv { node := node, tbl := tbl, element := 1, unigram_L := 0 } [] w k :=
    ⟨by simpa using hbytes, by simpa using hn, rfl, rfl, ha⟩
  obtain ⟨e1, e2⟩ := loop_no_occurrence a b t hb node.num_elements _ [] w k hinv hpc
  exact Prod.ext e1 e2

theorem retokenize_no_occurrence (a b t : Nat) (hb : b ≠ 0)
    (text_table : List text_chunk_node) (ws : List (List Nat × Nat))
    (h : table_repr text_table ws) (hpc : ∀ w ∈ ws, pair_count a b w.1 = 0) :
    ∀ tbl : bigram_table, retokenize text_table a b tbl t = (text_table, tbl) := by
  induction h with
  | nil => intro tbl; rfl
  | @cons node w tt ws2 hd _ ih =>
    intro tbl
    have e := word_retokenize_no_occurrence node w.1 a b t tbl hd.1 hb
      (hpc w (List.mem_cons_self _ _))
    simp only [retokenize, e, ih (fun w2 hw2 => hpc w2 (List.mem_cons_of_mem _ hw2)) tbl]

theorem build_text_table_stored (words : List (List Nat × Nat)) :
    build_text_table words =
      build_text_table (words.map (fun w => (w.1, stored_count w.2))) := by
  unfold build_text_table
  rw [List.map_map]
  apply List.map_congr_left
  intro w _
  simp only [Function.comp_apply, stored_count_idem]

/-- The word table `train` builds holds the words with their stored counts. -/
theorem build_text_table_repr_stored (words : List (List Nat × Nat))
    (hv : nul_free_words words) :
    table_repr (build_text_table words) (words.map (fun w => (w.1, stored_count w.2))) := by
  have hvalid : valid_words (words.map (fun w => (w.1, stored_count w.2))) := by
    intro w hw
    obtain ⟨w1, hw1, rfl⟩ := List.mem_map.1 hw
    refine ⟨(hv w1 hw1).1, (hv w1 hw1).2, ?_⟩
    dsimp only
    exact stored_count_le _
  have hrepr := build_text_table_repr _ hvalid
  rw [← build_text_table_stored] at hrepr
  exact hrepr

theorem ind_nonneg (p : Prop) [Decidable p] : 0 ≤ ind p := by
  unfold ind
  split <;> decide

theorem ind_cases (p : Prop) [Decidable p] : ind p = 0 ∨ ind p = 1 := by
  unfold ind
  split
  · exact Or.inr rfl
  · exact Or.inl rfl

theorem ind_toNat (p : Prop) [Decidable p] : ((ind p).toNat : Int) = ind p := by
  rcases ind_cases p with h | h <;> rw [h] <;> rfl

theorem find_node_reset_isSome (m : max_ref) (tbl : bigram_table) (x y : Nat) :
    (find_node (reset_max_freq m tbl) x y).isSome = (find_node tbl x y).isSome := by
  unfold reset_max_freq
  by_cases hm : m.in_table = true
  · simp only [hm, if_true]
    unfold find_node
    by_cases hh : hash_text x y = hash_text m.bigram0 m.bigram1
    · simp only [hh, bucket_get_set_same, chain_find_reset]
      by_cases hxy : x = m.bigram0 ∧ y = m.bigram1
      · obtain ⟨rfl, rfl⟩ := hxy
        simp only [and_self, if_true]
        cases chain_find m.bigram0 m.bigram1
            (bucket_get tbl (hash_text m.bigram0 m.bigram1)) with
        | none => rfl
        | some n => rfl
      · simp [hxy]
    · simp only [bucket_get_set_other _ _ _ _ hh]
  · simp [hm]

theorem find_node_patch_left (a t : Nat) (c : Int) (prev : Option Nat) (tbl : bigram_table)
    (x y : Nat) (h : (find_node (patch_left a t c prev tbl) x y).isSome = true) :
    (find_node tbl x y).isSome = true ∨ y = t ∨ y = a := by
  cases prev with
  | none => exact Or.inl h
  | some l =>
    simp only [patch_left] at h
    rcases (find_node_update_isSome _ _ _ _ _ _).1 h with ⟨_, e⟩ | h1
    · exact Or.inr (Or.inl e)
    · rcases (find_node_update_isSome _ _ _ _ _ _).1 h1 with ⟨_, e⟩ | h2
      · exact Or.inr (Or.inr e)
      · exact Or.inl h2

theorem find_node_patch_right (b t : Nat) (c : Int) (tail : List Nat) (tbl : bigram_table)
    (x y : Nat) (h : (find_node (patch_right b t c tail tbl) x y).isSome = true) :
    (find_node tbl x y).isSome = true ∨ y ∈ tail := by
  cases tail with
  | nil => exact Or.inl h
  | cons r tl =>
    simp only [patch_right] at h
    rcases (find_node_update_isSome _ _ _ _ _ _).1 h with ⟨_, e⟩ | h1
    · exact Or.inr (by rw [e]; exact List.mem_cons_self _ _)
    · rcases (find_node_update_isSome _ _ _ _ _ _).1 h1 with ⟨_, e⟩ | h2
      · exact Or.inr (by rw [e]; exact List.mem_cons_self _ _)
      · exact Or.inl h2

/-- An entry of the table after `merge_word` on a word of non-zero symbols was
there before or has a non-zero second symbol. -/
theorem find_node_merge_word (a b t : Nat) (c : Int) (ht : t ≠ 0) (x y : Nat) :
    ∀ (n : Nat) (w : List Nat) (prev : Option Nat) (tbl : bigram_table), w.length ≤ n →
      (∀ s ∈ w, s ≠ 0) →
      (find_node (merge_word a b t c prev w tbl).2 x y).isSome = true →
        (find_node tbl x y).isSome = true ∨ y ≠ 0 := by
  intro n
  induction n with
  | zero =>
    intro w prev tbl h _ he
    have : w = [] := List.length_eq_zero.1 (by omega)
    subst this
    rw [merge_word_nil] at he
    exact Or.inl he
  | succ n ih =>
    intro w prev tbl h hw he
    cases w with
    | nil => rw [merge_word_nil] at he; exact Or.inl he
    | cons u rest =>
      cases rest with
      | nil => rw [merge_word_single] at he; exact Or.inl he
      | cons v tail =>
        simp only [List.length_cons] at h
        have hu : u ≠ 0 := hw u (List.mem_cons_self _ _)
        have htail : ∀ s ∈ tail, s ≠ 0 := fun s hs =>
          hw s (List.mem_cons_of_mem _ (List.mem_cons_of_mem _ hs))
        by_cases hm : u = a ∧ v = b
        · obtain ⟨rfl, rfl⟩ := hm
          rw [merge_word_match] at he
          simp only [] at he
          rcases ih tail (some t) _ (by omega) htail he with h1 | h1
          · rcases find_node_patch_right _ _ _ _ _ _ _ h1 with h2 | h2
            · rcases find_node_patch_left _ _ _ _ _ _ _ h2 with h3 | h3 | h3
              · exact Or.inl h3
              · exact Or.inr (by rw [h3]; exact ht)
              · exact Or.inr (by rw [h3]; exact hu)
            · exact Or.inr (htail y h2)
          · exact Or.inr h1
        · rw [merge_word_no_match _ _ _ _ _ _ _ _ _ hm] at he
          simp only [] at he
          exact ih (v :: tail) (some u) tbl (by simp only [List.length_cons]; omega)
            (fun s hs => hw s (List.mem_cons_of_mem _ hs)) he

theorem find_node_merge_corpus (a b t : Nat) (ht : t ≠ 0) (x y : Nat)
    (ws : List (List Nat × Nat)) :
    ∀ tbl : bigram_table, (∀ w ∈ ws, ∀ s ∈ w.1, s ≠ 0) →
      (find_node (merge_corpus a b t ws tbl).2 x y).isSome = true →
        (find_node tbl x y).isSome = true ∨ y ≠ 0 := by
  induction ws with
  | nil => intro tbl _ he; exact Or.inl he
  | cons w rest ih =>
    intro tbl hw he
    simp only [merge_corpus] at he
    rcases ih _ (fun w2 hw2 => hw w2 (List.mem_cons_of_mem _ hw2)) he with h1 | h1
    · exact find_node_merge_word a b t w.2 ht x y w.1.length w.1 none tbl (le_refl _)
        (hw w (List.mem_cons_self _ _)) h1
    · exact Or.inr h1

/-- Without an occurrence of the pair the greedy merge leaves the word as it
is. -/
theorem merge_symbols_no_occurrence (a b t : Nat) :
    ∀ (n : Nat) (w : List Nat), w.length ≤ n → pair_count a b w = 0 →
      merge_symbols a b t w = w := by
  intro n
  induction n with
  | zero =>
    intro w h _
    have : w = [] := List.length_eq_zero.1 (by omega)
    subst this
    rw [merge_symbols_nil]
  | succ n ih =>
    intro w h hpc
    cases w with
    | nil => rw [merge_symbols_nil]
    | cons x rest =>
      cases rest with
      | nil => rw [merge_symbols_single]
      | cons y tail =>
        simp only [List.length_cons] at h
        by_cases hm : x = a ∧ y = b
        · simp [pair_count, hm] at hpc
        · simp only [pair_count, hm, if_false, Nat.zero_add] at hpc
          rw [merge_symbols_no_match _ _ _ _ _ _ hm,
            ih (y :: tail) (by simp only [List.length_cons]; omega) hpc]

/-- After the greedy merge with a new token above every symbol of the word the
merged pair has no occurrence left, whatever the pair is. -/
theorem pair_count_merge_gone (a b t : Nat) (w : List Nat) (hw : ∀ x ∈ w, x < t) :
    pair_count a b (merge_symbols a b t w) = 0 := by
  by_cases hta : t = a ∨ t = b
  · have hpc : pair_count a b w = 0 := by
      by_contra hne
      obtain ⟨ha, hb⟩ := pair_count_pos_mem a b w (by omega)
      have h1 := hw a ha
      have h2 := hw b hb
      rcases hta with e | e <;> omega
    rw [merge_symbols_no_occurrence a b t w.length w (le_refl _) hpc]
    exact hpc
  · exact pair_count_merge_symbols_self a b t (fun e => hta (Or.inl e))
      (fun e => hta (Or.inr e)) w.length w (le_refl _)

/-- The state `train` enters its merge loop with, on NUL-free words that fit
their records, with the corpus of the words and their stored counts. -/
theorem run_inv_init (init_bigram : Nat × Nat) (words : List (List Nat × Nat))
    (hv : nul_free_words words) :
    run_inv 0
      { text_table := build_text_table words
        tbl := build_bigram_table (build_text_table words)
        max_node := { in_table := false, bigram0 := init_bigram.1, bigram1 := init_bigram.2 }
        tt := fun _ => none
        token_idx := 256 } (words.map (fun w => (w.1, stored_count w.2))) := by
  have hrepr := build_text_table_repr_stored words hv
  have hnz := table_repr_nonzero _ _ hrepr
  refine
    { token_idx := rfl
      repr := hrepr
      wf := build_bigram_table_wf _ _ hrepr
      range := build_bigram_table_range _
      symbols := ?_
      keys := ?_
      started := by intro h; simp at h
      second := by intro h; omega
      gone := by intro h; omega
      last := by intro h; omega }
  · intro w hw x hx
    obtain ⟨w1, hw1, rfl⟩ := List.mem_map.1 hw
    have := (hv w1 hw1).1 x hx
    omega
  · intro x y he
    obtain ⟨w, hw, hp⟩ := build_bigram_table_entry _ _ hrepr x y he
    exact hnz w hw y (pair_count_pos_mem x y w.1 hp).2

/-- One merge step keeps the value-independent invariant, provided the step
does not take a NUL second symbol from the uninitialised bigram: at the first
step some entry is positive or that symbol is non-zero. -/
theorem run_inv_step (k : Nat) (s : train_state) (ws : List (List Nat × Nat))
    (h : run_inv k s ws)
    (hstart : k = 0 → (∃ n ∈ scan_order s.tbl, 0 < n.freq) ∨ s.max_node.bigram1 ≠ 0)
    (hk : k ≤ 65278) :
    run_inv (k + 1) (merge_step s)
      (ws.map (fun w => (merge_symbols (merge_step s).max_node.bigram0
        (merge_step s).max_node.bigram1 (256 + k) w.1, w.2))) := by
  have hwf1 := reset_max_freq_wf s.max_node s.tbl h.wf
  have hrange1 := reset_max_freq_range s.max_node s.tbl h.range
  have hkeys1 : ∀ x y, (find_node (reset_max_freq s.max_node s.tbl) x y).isSome = true →
      y ≠ 0 := by
    intro x y he
    rw [find_node_reset_isSome] at he
    exact h.keys x y he
  have hreset0 : k = 0 → reset_max_freq s.max_node s.tbl = s.tbl := by
    intro hk0
    have : s.max_node.in_table = false := by
      by_contra hc
      have := h.started (by simpa using hc)
      omega
    simp [reset_max_freq, this]
  have hb0 : (scan_max (scan_order (reset_max_freq s.max_node s.tbl)) s.max_node 0).1.bigram1 ≠
      0 := by
    rcases scan_max_spec (scan_order (reset_max_freq s.max_node s.tbl)) s.max_node 0 with
      ⟨h1, h2⟩ | ⟨l1, n, l2, h1, h2, _, _, _⟩
    · rw [h1]
      by_cases hk0 : k = 0
      · rcases hstart hk0 with ⟨n, hn, hp⟩ | hb
        · rw [hreset0 hk0] at h2
          have := h2 n hn
          omega
        · exact hb
      · exact h.second (by omega)
    · rw [h2]
      have hn : n ∈ scan_order (reset_max_freq s.max_node s.tbl) := by rw [h1]; simp
      have := (mem_scan_order_iff_find _ hwf1 n).1 hn
      exact hkeys1 n.bigram0 n.bigram1 (by rw [this]; rfl)
  have hin : (scan_max (scan_order (reset_max_freq s.max_node s.tbl)) s.max_node 0).1.in_table =
      true → True := fun _ => trivial
  rw [merge_step_eq]
  simp only []
  generalize (scan_max (scan_order (reset_max_freq s.max_node s.tbl)) s.max_node 0).1 = m at *
  generalize reset_max_freq s.max_node s.tbl = tbl1 at *
  have hti := h.token_idx
  have ht0 : 256 + k ≠ 0 := by omega
  obtain ⟨hr1, hr2⟩ := retokenize_eq m.bigram0 m.bigram1 (256 + k) hb0 ht0 s.text_table ws
    h.repr tbl1
  rw [merge_corpus_fst] at hr2
  rw [hti]
  refine
    { token_idx := by simp only []; omega
      repr := hr2
      wf := by
        simp only []
        rw [hr1]
        exact merge_corpus_wf _ _ _ _ _ hwf1
      range := by
        simp only []
        rw [hr1]
        exact merge_corpus_range _ _ _ _ _ hrange1
      symbols := ?_
      keys := ?_
      started := by intro _; omega
      second := fun _ => hb0
      gone := ?_
      last := by intro _; simp [create_token] }
  · intro w hw x hx
    obtain ⟨w1, hw1, rfl⟩ := List.mem_map.1 hw
    simp only [] at hx
    rcases merge_symbols_mem _ _ _ _ _ hx with hx | hx
    · have := h.symbols w1 hw1 x hx
      exact ⟨this.1, by omega⟩
    · subst hx
      exact ⟨ht0, by omega⟩
  · intro x y he
    simp only [] at he
    rw [hr1] at he
    rcases find_node_merge_corpus m.bigram0 m.bigram1 (256 + k) ht0 x y ws tbl1
      (fun w hw s hs => (h.symbols w hw s hs).1) he with h1 | h1
    · exact hkeys1 x y h1
    · exact h1
  · intro _ w hw
    obtain ⟨w1, hw1, rfl⟩ := List.mem_map.1 hw
    simp only []
    exact pair_count_merge_gone _ _ _ _ (fun x hx => (h.symbols w1 hw1 x hx).2)

theorem run_inv_loop :
    ∀ (n k : Nat) (s : train_state) (ws : List (List Nat × Nat)),
      run_inv k s ws →
      (k = 0 → (∃ n ∈ scan_order s.tbl, 0 < n.freq) ∨ s.max_node.bigram1 ≠ 0) →
      k + n ≤ 65279 →
      ∃ ws2, run_inv (k + n) (merge_loop n s) ws2 := by
  intro n
  induction n with
  | zero => intro k s ws h _ _; exact ⟨ws, h⟩
  | succ n ih =>
    intro k s ws h hstart hk
    have h1 := run_inv_step k s ws h hstart (by omega)
    obtain ⟨ws2, h2⟩ := ih (k + 1) (merge_step s) _ h1 (by intro hc; omega) (by omega)
    refine ⟨ws2, ?_⟩
    have : k + (n + 1) = k + 1 + n := by omega
    rw [this]
    exact h2

/-- The value-independent invariant holds after every number of merge steps of
a run on NUL-free words that fit their records, when the pair index holds a
positive frequency at the start or the second symbol of the uninitialised
bigram is non-zero. -/
theorem train_merges_run_inv (init_bigram : Nat × Nat) (words : List (List Nat × Nat))
    (k : Nat) (hv : nul_free_words words)
    (hg : (∃ n ∈ scan_order (build_bigram_table (build_text_table words)), 0 < n.freq) ∨
      init_bigram.2 ≠ 0) (hk : k ≤ 65279) :
    ∃ ws, run_inv k (train_merges init_bigram words k) ws := by
  have h0 := run_inv_init init_bigram words hv
  obtain ⟨ws, h⟩ := run_inv_loop k 0 _ _ h0 (fun _ => hg) (by omega)
  refine ⟨ws, ?_⟩
  simpa [train_merges] using h

theorem table_repr_unique (text_table : List text_chunk_node) (ws1 : List (List Nat × Nat))
    (h1 : table_repr text_table ws1) :
    ∀ ws2 : List (List Nat × Nat), table_repr text_table ws2 → ws1 = ws2 := by
  induction h1 with
  | nil => intro ws2 h2; cases h2; rfl
  | @cons node w tt ws hd _ ih =>
    intro ws2 h2
    cases h2 with
    | cons hd2 tl2 =>
      rename_i w2 ws3
      have e1 : w.1 = w2.1 := by
        rw [← live_symbols_of_repr node w.1 hd.1, ← live_symbols_of_repr node w2.1 hd2.1]
      have e2 : w.2 = w2.2 := by rw [← hd.2, ← hd2.2]
      rw [ih ws3 tl2, Prod.ext e1 e2]

theorem weighted_freq_zero_of_gone (ws : List (List Nat × Nat)) (a b : Nat)
    (h : ∀ w ∈ ws, pair_count a b w.1 = 0) : weighted_freq ws a b = 0 := by
  induction ws with
  | nil => simp [weighted_freq]
  | cons w rest ih =>
    simp only [weighted_freq, List.map_cons, List.sum_cons] at ih ⊢
    rw [ih (fun w2 hw2 => h w2 (List.mem_cons_of_mem _ hw2)), h w (List.mem_cons_self _ _)]
    simp

/-- An occurrence of a pair in the merged word stems from an occurrence, in the
word, of the pair of the last symbol behind its left element and the first
symbol behind its right element: the new token stands for `a` at its left end
and for `b` at its right end. -/
theorem pair_count_merge_le (a b t x y : Nat) :
    ∀ (n : Nat) (w : List Nat), w.length ≤ n → (∀ s ∈ w, s ≠ t) →
      pair_count x y (merge_symbols a b t w) ≤
          pair_count (if x = t then b else x) (if y = t then a else y) w ∧
        ((merge_symbols a b t w).head? = some y →
          w.head? = some (if y = t then a else y)) := by
  intro n
  induction n with
  | zero =>
    intro w h _
    have : w = [] := List.length_eq_zero.1 (by omega)
    subst this
    rw [merge_symbols_nil]
    exact ⟨by simp [pair_count], by simp⟩
  | succ n ih =>
    intro w h hw
    cases w with
    | nil =>
      rw [merge_symbols_nil]
      exact ⟨by simp [pair_count], by simp⟩
    | cons u rest =>
      have hu : u ≠ t := hw u (List.mem_cons_self _ _)
      cases rest with
      | nil =>
        rw [merge_symbols_single]
        refine ⟨by simp [pair_count], ?_⟩
        intro e
        simp only [List.head?_cons, Option.some.injEq] at e ⊢
        subst e
        simp [hu]
      | cons v tail =>
        simp only [List.length_cons] at h
        by_cases hm : u = a ∧ v = b
        · obtain ⟨rfl, rfl⟩ := hm
          rw [merge_symbols_match]
          obtain ⟨i1, i2⟩ := ih tail (by omega)
            (fun s hs => hw s (List.mem_cons_of_mem _ (List.mem_cons_of_mem _ hs)))
          refine ⟨?_, ?_⟩
          · rw [pair_count_cons x y t, pair_count_cons _ _ u, pair_count_cons _ _ v]
            by_cases hc : t = x ∧ (merge_symbols u v t tail).head? = some y
            · have e1 := i2 hc.2
              have e2 : v = (if x = t then v else x) := by rw [if_pos hc.1.symm]
              have e3 : (if v = (if x = t then v else x) ∧
                  tail.head? = some (if y = t then u else y) then 1 else 0 : Nat) = 1 :=
                if_pos ⟨e2, e1⟩
              rw [if_pos hc, e3]
              omega
            · rw [if_neg hc]
              omega
          · intro e
            simp only [List.head?_cons, Option.some.injEq] at e ⊢
            subst e
            simp
        · rw [merge_symbols_no_match _ _ _ _ _ _ hm]
          obtain ⟨i1, i2⟩ := ih (v :: tail) (by simp only [List.length_cons]; omega)
            (fun s hs => hw s (List.mem_cons_of_mem _ hs))
          refine ⟨?_, ?_⟩
          · rw [pair_count_cons x y u, pair_count_cons _ _ u]
            by_cases hc : u = x ∧ (merge_symbols a b t (v :: tail)).head? = some y
            · have e1 := i2 hc.2
              have hxt : ¬ x = t := fun e => hu (hc.1.trans e)
              have e2 : u = (if x = t then b else x) := by rw [if_neg hxt]; exact hc.1
              rw [if_pos hc, if_pos ⟨e2, e1⟩]
              omega
            · rw [if_neg hc]
              omega
          · intro e
            simp only [List.head?_cons, Option.some.injEq] at e ⊢
            subst e
            simp [hu]

theorem weighted_freq_merge_le (a b t x y : Nat) (ws : List (List Nat × Nat))
    (hws : ∀ w ∈ ws, ∀ s ∈ w.1, s ≠ t) :
    weighted_freq (ws.map (fun w => (merge_symbols a b t w.1, w.2))) x y ≤
      weighted_freq ws (if x = t then b else x) (if y = t then a else y) := by
  induction ws with
  | nil => simp [weighted_freq]
  | cons w rest ih =>
    have h1 := ih (fun w2 hw2 => hws w2 (List.mem_cons_of_mem _ hw2))
    have h2 := (pair_count_merge_le a b t x y w.1.length w.1 (le_refl _)
      (hws w (List.mem_cons_self _ _))).1
    simp only [weighted_freq, List.map_cons, List.sum_cons] at h1 ⊢
    have h3 : (w.2 : Int) * (pair_count x y (merge_symbols a b t w.1) : Int) ≤
        (w.2 : Int) * (pair_count (if x = t then b else x) (if y = t then a else y) w.1 : Int) :=
      mul_le_mul_of_nonneg_left (by exact_mod_cast h2) (Int.ofNat_nonneg _)
    omega

/-- With no match of `(a, b)` in the symbols still ahead followed by the
terminator, the loop of `word_retokenize` leaves the record and the table as
they are; `b` may be 0 here. -/
theorem loop_no_match (a b t : Nat) :
    ∀ (fuel : Nat) (s : retokenize_state) (pre rest : List Nat) (k : Nat),
      retok_inv s pre rest k → pair_count a b (rest ++ [0]) = 0 →
      (word_retokenize_loop a b t fuel s).node = s.node ∧
        (word_retokenize_loop a b t fuel s).tbl = s.tbl := by
  intro fuel
  induction fuel with
  | zero => intro s pre rest k _ _; exact ⟨rfl, rfl⟩
  | succ fuel ih =>
    intro s pre rest k h hpc
    simp only [word_retokenize_loop]
    split
    · rename_i hlt
      cases rest with
      | nil =>
        obtain ⟨_, hnum, hel, _, _⟩ := h
        simp only [List.length_nil] at hnum
        omega
      | cons x rest2 =>
        have hno : ¬ (x = a ∧ rest2.headD 0 = b) := by
          rintro ⟨rfl, hh⟩
          cases rest2 with
          | nil =>
            simp only [List.headD_nil] at hh
            subst hh
            simp [pair_count] at hpc
          | cons y tail =>
            simp only [List.headD_cons] at hh
            subst hh
            simp [pair_count] at hpc
        have hpc2 : pair_count a b (rest2 ++ [0]) = 0 := by
          cases rest2 with
          | nil => rfl
          | cons y tail =>
            simp only [List.cons_append, pair_count] at hpc ⊢
            exact (Nat.add_eq_zero_iff.1 hpc).2
        obtain ⟨hinv, htbl, _⟩ := step_no_match a b t s pre x rest2 k h hno
        obtain ⟨e1, e2⟩ := ih _ (pre ++ [x]) rest2 k hinv hpc2
        exact ⟨e1.trans (step_no_match_node a b t s pre x rest2 k h hno), e2.trans htbl⟩
    · exact ⟨rfl, rfl⟩

theorem word_retokenize_no_match (node : text_chunk_node) (w : List Nat) (a b t : Nat)
    (tbl : bigram_table) (hr : node_repr node w) (hpc : pair_count a b (w ++ [0]) = 0) :
    word_retokenize node a b tbl t = (node, tbl) := by
  obtain ⟨_, hn, ha, k, hbytes⟩ := hr
  have hinv : retok_inv { node := node, tbl := tbl, element := 1, unigram_L := 0 } [] w k :=
    ⟨by simpa using hbytes, by simpa using hn, rfl, rfl, ha⟩
  obtain ⟨e1, e2⟩ := loop_no_match a b t node.num_elements _ [] w k hinv hpc
  exact Prod.ext e1 e2

theorem retokenize_no_match (a b t : Nat)
    (text_table : List text_chunk_node) (ws : List (List Nat × Nat))
    (h : table_repr text_table ws) (hpc : ∀ w ∈ ws, pair_count a b (w.1 ++ [0]) = 0) :
    ∀ tbl : bigram_table, retokenize text_table a b tbl t = (text_table, tbl) := by
  induction h with
  | nil => intro tbl; rfl
  | @cons node w tt ws2 hd _ ih =>
    intro tbl
    have e := word_retokenize_no_match node w.1 a b t tbl hd.1
      (hpc w (List.mem_cons_self _ _))
    simp only [retokenize, e, ih (fun w2 hw2 => hpc w2 (List.mem_cons_of_mem _ hw2)) tbl]

/-- In a NUL-free word that does not end in `a` the pair `(a, 0)` matches
nowhere, the terminator included. -/
theorem pair_count_terminator (a : Nat) :
    ∀ w : List Nat, (∀ x ∈ w, x ≠ 0) → w.getLast? ≠ some a →
      pair_count a 0 (w ++ [0]) = 0 := by
  intro w
  induction w with
  | nil => intro _ _; rfl
  | cons x rest ih =>
    intro hnz hl
    cases rest with
    | nil =>
      have hx : x ≠ a := by
        intro e
        apply hl
        simp [e]
      simp [pair_count, hx]
    | cons y tail =>
      have hy : y ≠ 0 := hnz y (by simp)
      have h2 := ih (fun z hz => hnz z (List.mem_cons_of_mem _ hz))
        (by simpa [List.getLast?_cons_cons] using hl)
      simp only [List.cons_append, pair_count] at h2 ⊢
      simp only [hy, and_false, if_false, Nat.zero_add]
      exact h2

theorem pair_count_zero_second (a : Nat) :
    ∀ w : List Nat, (∀ x ∈ w, x ≠ 0) → pair_count a 0 w = 0 := by
  intro w hnz
  by_contra hne
  obtain ⟨_, hb⟩ := pair_count_pos_mem a 0 w (by omega)
  exact hnz 0 hb rfl

/-- A step at which no entry of the pair index is positive, `*max_node` is
still `init_max_node` and its bigram matches nowhere in the word table: the
token records that bigram and nothing else changes. -/
theorem merge_step_static (s : train_state) (ws : List (List Nat × Nat))
    (hin : s.max_node.in_table = false)
    (hex : ∀ n ∈ scan_order s.tbl, n.freq ≤ 0)
    (hrepr : table_repr s.text_table ws)
    (hpc : ∀ w ∈ ws, pair_count s.max_node.bigram0 s.max_node.bigram1 (w.1 ++ [0]) = 0) :
    merge_step s =
      { text_table := s.text_table
        tbl := s.tbl
        max_node := s.max_node
        tt := fun i => if i = s.token_idx then some (create_token s.max_node) else s.tt i
        token_idx := (s.token_idx + 1) % 65536 } := by
  have hreset : reset_max_freq s.max_node s.tbl = s.tbl := by
    unfold reset_max_freq
    simp [hin]
  have hm : (scan_max (scan_order s.tbl) s.max_node 0).1 = s.max_node := by
    rcases scan_max_spec (scan_order s.tbl) s.max_node 0 with
      ⟨h1, _⟩ | ⟨l1, n, l2, h1, _, h3, _, _⟩
    · rw [h1]
    · have := hex n (by rw [h1]; simp)
      omega
  rw [merge_step_eq, hreset]
  simp only [hm, retokenize_no_match s.max_node.bigram0 s.max_node.bigram1 s.token_idx
    s.text_table ws hrepr hpc s.tbl]

/-- A run that starts with no positive entry in the pair index and an
uninitialised bigram that matches nowhere stands still: every step mints the
uninitialised bigram and leaves the word table and the pair index as built. -/
theorem train_merges_static (init_bigram : Nat × Nat) (words : List (List Nat × Nat))
    (ws : List (List Nat × Nat))
    (hrepr : table_repr (build_text_table words) ws)
    (hex : ∀ n ∈ scan_order (build_bigram_table (build_text_table words)), n.freq ≤ 0)
    (hpc : ∀ w ∈ ws, pair_count init_bigram.1 init_bigram.2 (w.1 ++ [0]) = 0) :
    ∀ k : Nat, k ≤ 65279 →
      (train_merges init_bigram words k).text_table = build_text_table words ∧
      (train_merges init_bigram words k).tbl = build_bigram_table (build_text_table words) ∧
      (train_merges init_bigram words k).max_node =
        { in_table := false, bigram0 := init_bigram.1, bigram1 := init_bigram.2 } ∧
      (train_merges init_bigram words k).token_idx = 256 + k ∧
      (1 ≤ k → (train_merges init_bigram words k).tt (256 + k - 1) =
        some { token0 := init_bigram.1, token1 := init_bigram.2 }) := by
  intro k
  induction k with
  | zero =>
    intro _
    exact ⟨rfl, rfl, rfl, rfl, fun h => by omega⟩
  | succ k ih =>
    intro hk
    obtain ⟨h1, h2, h3, h4, _⟩ := ih (by omega)
    rw [train_merges_succ]
    generalize train_merges init_bigram words k = s at *
    have hstep := merge_step_static s ws (by rw [h3]) (by rw [h2]; exact hex)
      (by rw [h1]; exact hrepr) (by rw [h3]; exact hpc)
    rw [hstep]
    refine ⟨h1, h2, h3, ?_, ?_⟩
    · show (s.token_idx + 1) % 65536 = 256 + (k + 1)
      rw [h4]
      omega
    · intro _
      show (if 256 + (k + 1) - 1 = s.token_idx then some (create_token s.max_node)
        else s.tt (256 + (k + 1) - 1)) = _
      rw [h4, h3]
      simp [create_token]

/-- The start condition of a run, as a fact about the input: some entry of the
pair index built from the words is positive, or the second symbol of the
uninitialised bigram of `init_max_node` is non-zero, or no word ends in its
first symbol. In the remaining runs the first step matches the uninitialised
bigram at the terminator of a word and hands `memmove` a length of
`2^64 - 2` bytes. -/
theorem run_cases (init_bigram : Nat × Nat) (words : List (List Nat × Nat))
    (hv : nul_free_words words)
    (hg : (∃ n ∈ scan_order (build_bigram_table (build_text_table words)), 0 < n.freq) ∨
      init_bigram.2 ≠ 0 ∨ ∀ w ∈ words, w.1.getLast? ≠ some init_bigram.1) :
    ((∃ n ∈ scan_order (build_bigram_table (build_text_table words)), 0 < n.freq) ∨
      init_bigram.2 ≠ 0) ∨
    ((∀ n ∈ scan_order (build_bigram_table (build_text_table words)), n.freq ≤ 0) ∧
      ∀ w ∈ words.map (fun w => (w.1, stored_count w.2)),
        pair_count init_bigram.1 init_bigram.2 (w.1 ++ [0]) = 0) := by
  by_cases h1 : ∃ n ∈ scan_order (build_bigram_table (build_text_table words)), 0 < n.freq
  · exact Or.inl (Or.inl h1)
  by_cases h2 : init_bigram.2 ≠ 0
  · exact Or.inl (Or.inr h2)
  right
  rcases hg with h | h | h
  · exact absurd h h1
  · exact absurd h h2
  · refine ⟨fun n hn => ?_, ?_⟩
    · by_contra hc
      exact h1 ⟨n, hn, by omega⟩
    · intro w hw
      obtain ⟨w1, hw1, rfl⟩ := List.mem_map.1 hw
      have e : init_bigram.2 = 0 := by omega
      rw [e]
      exact pair_count_terminator _ w1.1
        (fun x hx => by have := ((hv w1 hw1).1 x hx).1; omega) (h w1 hw1)

theorem train_merges_zero (init_bigram : Nat × Nat) (words : List (List Nat × Nat)) :
    train_merges init_bigram words 0 =
      { text_table := build_text_table words
        tbl := build_bigram_table (build_text_table words)
        max_node := { in_table := false, bigram0 := init_bigram.1, bigram1 := init_bigram.2 }
        tt := fun _ => none
        token_idx := 256 } := rfl

theorem run_start (init_bigram : Nat × Nat) (words : List (List Nat × Nat)) (k : Nat)
    (hg : (∃ n ∈ scan_order (build_bigram_table (build_text_table words)), 0 < n.freq) ∨
      init_bigram.2 ≠ 0) :
    k = 0 → (∃ n ∈ scan_order (train_merges init_bigram words k).tbl, 0 < n.freq) ∨
      (train_merges init_bigram words k).max_node.bigram1 ≠ 0 := by
  intro hk
  subst hk
  rw [train_merges_zero]
  exact hg

theorem pair_count_append_zero (a b : Nat) :
    ∀ w : List Nat, pair_count a b (w ++ [0]) = 0 → pair_count a b w = 0 := by
  intro w
  induction w with
  | nil => intro _; rfl
  | cons x rest ih =>
    intro h
    cases rest with
    | nil => rfl
    | cons y tail =>
      simp only [List.cons_append, pair_count] at h ih ⊢
      rw [(Nat.add_eq_zero_iff.1 h).1, ih (Nat.add_eq_zero_iff.1 h).2]

/-- The step of a run that stands still (no positive entry, the uninitialised
bigram matches nowhere): the corpus and the index stay as they are, so an
index that was exact stays exact. -/
theorem pair_index_static_step (init_bigram : Nat × Nat) (words : List (List Nat × Nat))
    (k : Nat) (hv : nul_free_words words)
    (hex : ∀ n ∈ scan_order (build_bigram_table (build_text_table words)), n.freq ≤ 0)
    (hpc : ∀ w ∈ words.map (fun w => (w.1, stored_count w.2)),
      pair_count init_bigram.1 init_bigram.2 (w.1 ++ [0]) = 0)
    (hk : k ≤ 65278) (ws : List (List Nat × Nat))
    (hws : table_repr (train_merges init_bigram words k).text_table ws)
    (hpre : ∀ x y, ¬ ((train_merges init_bigram words k).max_node.in_table = true ∧
          (train_merges init_bigram words k).max_node.bigram0 = x ∧
          (train_merges init_bigram words k).max_node.bigram1 = y) →
        get_freq (train_merges init_bigram words k).tbl x y = weighted_freq ws x y) :
    train_merges init_bigram words (k + 1) =
      merge_step (train_merges init_bigram words k) ∧
    (merge_step (train_merges init_bigram words k)).tt (256 + k) =
      some { token0 := (merge_step (train_merges init_bigram words k)).max_node.bigram0
             token1 := (merge_step (train_merges init_bigram words k)).max_node.bigram1 } ∧
    table_repr (merge_step (train_merges init_bigram words k)).text_table
      (ws.map (fun w =>
        (merge_symbols (merge_step (train_merges init_bigram words k)).max_node.bigram0
          (merge_step (train_merges init_bigram words k)).max_node.bigram1 (256 + k) w.1,
          w.2))) ∧
    (∀ x y, ¬ ((merge_step (train_merges init_bigram words k)).max_node.bigram0 = x ∧
          (merge_step (train_merges init_bigram words k)).max_node.bigram1 = y) →
        get_freq (merge_step (train_merges init_bigram words k)).tbl x y =
          weighted_freq (ws.map (fun w =>
            (merge_symbols (merge_step (train_merges init_bigram words k)).max_node.bigram0
              (merge_step (train_merges init_bigram words k)).max_node.bigram1 (256 + k) w.1,
              w.2))) x y) ∧
    ∀ w ∈ ws, pair_count (merge_step (train_merges init_bigram words k)).max_node.bigram0
      (merge_step (train_merges init_bigram words k)).max_node.bigram1
      (merge_symbols (merge_step (train_merges init_bigram words k)).max_node.bigram0
        (merge_step (train_merges init_bigram words k)).max_node.bigram1 (256 + k) w.1) = 0 := by
  have hrepr0 := build_text_table_repr_stored words hv
  obtain ⟨h1, h2, h3, h4, _⟩ :=
    train_merges_static init_bigram words _ hrepr0 hex hpc k (by omega)
  have hsucc := train_merges_succ init_bigram words k
  generalize train_merges init_bigram words k = s at *
  rw [h1] at hws
  have hu := table_repr_unique _ ws hws _ hrepr0
  have hpc2 : ∀ w ∈ ws, pair_count s.max_node.bigram0 s.max_node.bigram1 (w.1 ++ [0]) = 0 := by
    rw [h3, hu]
    exact hpc
  have hstep := merge_step_static s ws (by rw [h3]) (by rw [h2]; exact hex)
    (by rw [h1]; exact hws) hpc2
  have e0 : (merge_step s).max_node = s.max_node := by rw [hstep]
  have e1 : (merge_step s).text_table = s.text_table := by rw [hstep]
  have e2 : (merge_step s).tbl = s.tbl := by rw [hstep]
  have e3 : (merge_step s).tt (256 + k) = some (create_token s.max_node) := by
    rw [hstep]
    simp [h4]
  have hgone : ∀ w ∈ ws, pair_count s.max_node.bigram0 s.max_node.bigram1 w.1 = 0 :=
    fun w hw => pair_count_append_zero _ _ _ (hpc2 w hw)
  have hid : ws.map (fun w =>
      (merge_symbols s.max_node.bigram0 s.max_node.bigram1 (256 + k) w.1, w.2)) = ws := by
    have : ∀ w ∈ ws, (fun w : List Nat × Nat =>
        (merge_symbols s.max_node.bigram0 s.max_node.bigram1 (256 + k) w.1, w.2)) w = id w := by
      intro w hw
      show (merge_symbols s.max_node.bigram0 s.max_node.bigram1 (256 + k) w.1, w.2) = w
      rw [merge_symbols_no_occurrence _ _ _ w.1.length w.1 (le_refl _) (hgone w hw)]
    rw [List.map_congr_left this, List.map_id]
  rw [e0, e1, e2, hid]
  refine ⟨hsucc, ?_, ?_, ?_, ?_⟩
  · rw [e3]
    rfl
  · rw [h1]
    exact hws
  · intro x y _
    exact hpre x y (by rw [h3]; simp)
  · intro w hw
    rw [merge_symbols_no_occurrence _ _ _ w.1.length w.1 (le_refl _) (hgone w hw)]
    exact hgone w hw

/-- The pair-index invariant across a merge step. In a run of `train` on
NUL-free words that fit their records (at most 32766 bytes) in which the pair
index holds a positive frequency at the start, or the second symbol of the
uninitialised bigram of `init_max_node` is non-zero, or no word ends in its
first symbol, at every merge step: if the pair index holds, for every pair
other than the previous winner, exactly the weighted multiplicity in the corpus
`ws` the word table holds, then after `update_max_node` and `retokenize` the
word table holds `ws` with the selected pair `(a, b)` merged, the index stores
for every pair other than `(a, b)` the weighted multiplicity in the rewritten
corpus (0 when it has no entry), and `(a, b)` has no occurrence left in any
word. The runs left out are those of `run_cases`. -/
theorem pair_index_across_step (init_bigram : Nat × Nat) (words : List (List Nat × Nat))
    (k : Nat) (hv : nul_free_words words)
    (hg : (∃ n ∈ scan_order (build_bigram_table (build_text_table words)), 0 < n.freq) ∨
      init_bigram.2 ≠ 0 ∨ ∀ w ∈ words, w.1.getLast? ≠ some init_bigram.1)
    (hk : k ≤ 65278) (ws : List (List Nat × Nat))
    (hws : table_repr (train_merges init_bigram words k).text_table ws)
    (hpre : ∀ x y, ¬ ((train_merges init_bigram words k).max_node.in_table = true ∧
          (train_merges init_bigram words k).max_node.bigram0 = x ∧
          (train_merges init_bigram words k).max_node.bigram1 = y) →
        get_freq (train_merges init_bigram words k).tbl x y = weighted_freq ws x y) :
    train_merges init_bigram words (k + 1) =
      merge_step (train_merges init_bigram words k) ∧
    (merge_step (train_merges init_bigram words k)).tt (256 + k) =
      some { token0 := (merge_step (train_merges init_bigram words k)).max_node.bigram0
             token1 := (merge_step (train_merges init_bigram words k)).max_node.bigram1 } ∧
    table_repr (merge_step (train_merges init_bigram words k)).text_table
      (ws.map (fun w =>
        (merge_symbols (merge_step (train_merges init_bigram words k)).max_node.bigram0
          (merge_step (train_merges init_bigram words k)).max_node.bigram1 (256 + k) w.1,
          w.2))) ∧
    (∀ x y, ¬ ((merge_step (train_merges init_bigram words k)).max_node.bigram0 = x ∧
          (merge_step (train_merges init_bigram words k)).max_node.bigram1 = y) →
        get_freq (merge_step (train_merges init_bigram words k)).tbl x y =
          weighted_freq (ws.map (fun w =>
            (merge_symbols (merge_step (train_merges init_bigram words k)).max_node.bigram0
              (merge_step (train_merges init_bigram words k)).max_node.bigram1 (256 + k) w.1,
              w.2))) x y) ∧
    ∀ w ∈ ws, pair_count (merge_step (train_merges init_bigram words k)).max_node.bigram0
      (merge_step (train_merges init_bigram words k)).max_node.bigram1
      (merge_symbols (merge_step (train_merges init_bigram words k)).max_node.bigram0
        (merge_step (train_merges init_bigram words k)).max_node.bigram1 (256 + k) w.1) = 0 := by
  rcases run_cases init_bigram words hv hg with hg1 | ⟨hex, hpc⟩
  swap
  · exact pair_index_static_step init_bigram words k hv hex hpc hk ws hws hpre
  obtain ⟨ws1, h⟩ := train_merges_run_inv init_bigram words k hv hg1 (by omega)
  have hu := table_repr_unique _ ws1 h.repr ws hws
  subst hu
  have hstart := run_start init_bigram words k hg1
  have hsucc := train_merges_succ init_bigram words k
  generalize train_merges init_bigram words k = s at *
  have h2 := run_inv_step k s ws1 h hstart hk
  have hb0 := h2.second (by omega)
  have ht0 : 256 + k ≠ 0 := by omega
  have hrange1 := reset_max_freq_range s.max_node s.tbl h.range
  have hf1 : ∀ x y, get_freq (reset_max_freq s.max_node s.tbl) x y = weighted_freq ws1 x y := by
    intro x y
    rw [get_freq_reset]
    by_cases hc : s.max_node.in_table = true ∧ x = s.max_node.bigram0 ∧ y = s.max_node.bigram1
    · obtain ⟨h1, h3, h4⟩ := hc
      simp only [h1, h3, h4, and_self, if_true]
      exact (weighted_freq_zero_of_gone ws1 _ _ (h.gone (h.started h1))).symm
    · simp only [hc, if_false]
      exact hpre x y (fun e => hc ⟨e.1, e.2.1.symm, e.2.2.symm⟩)
  have hr := (retokenize_eq (merge_step s).max_node.bigram0 (merge_step s).max_node.bigram1
    (256 + k) hb0 ht0 s.text_table ws1 h.repr (reset_max_freq s.max_node s.tbl)).1
  have htbl : (merge_step s).tbl =
      (retokenize s.text_table (merge_step s).max_node.bigram0
        (merge_step s).max_node.bigram1 (reset_max_freq s.max_node s.tbl) (256 + k)).2 := by
    rw [← h.token_idx]
    rfl
  refine ⟨hsucc, ?_, h2.repr, ?_, ?_⟩
  · have := h2.last (by omega)
    simpa using this
  · intro x y hne
    rw [htbl, hr]
    have hc := merge_corpus_freq (merge_step s).max_node.bigram0 (merge_step s).max_node.bigram1
      (256 + k) x y hne ws1 (reset_max_freq s.max_node s.tbl)
    rw [hf1] at hc
    have hc2 : ((get_freq (merge_corpus (merge_step s).max_node.bigram0
          (merge_step s).max_node.bigram1 (256 + k) ws1
          (reset_max_freq s.max_node s.tbl)).2 x y : Int) : ZMod 4294967296) =
        ((weighted_freq (ws1.map (fun w => (merge_symbols (merge_step s).max_node.bigram0
          (merge_step s).max_node.bigram1 (256 + k) w.1, w.2))) x y : Int) :
          ZMod 4294967296) := by
      rw [hc]
      push_cast
      ring
    have hrg := get_freq_range _ (merge_corpus_range (merge_step s).max_node.bigram0
      (merge_step s).max_node.bigram1 (256 + k) ws1 _ hrange1) x y
    have hn := weighted_freq_nonneg
      (ws1.map (fun w => (merge_symbols (merge_step s).max_node.bigram0
        (merge_step s).max_node.bigram1 (256 + k) w.1, w.2))) x y
    have hle := weighted_freq_merge_le (merge_step s).max_node.bigram0
      (merge_step s).max_node.bigram1 (256 + k) x y ws1
      (fun w hw t ht => by have := (h.symbols w hw t ht).2; omega)
    rw [← hf1] at hle
    have hold := get_freq_range _ hrange1
      (if x = 256 + k then (merge_step s).max_node.bigram1 else x)
      (if y = 256 + k then (merge_step s).max_node.bigram0 else y)
    exact eq_of_cast_eq _ _ hc2 hrg.1 hrg.2 (by omega) (by omega)
  · intro w hw
    exact pair_count_merge_gone _ _ _ _ (fun x hx => (h.symbols w hw x hx).2)

theorem pair_index_across_step_witness :
    nul_free_words [([97, 97, 97, 97], 1)] ∧
    ((∃ n ∈ scan_order (build_bigram_table (build_text_table [([97, 97, 97, 97], 1)])),
        0 < n.freq) ∨ ((0, 0) : Nat × Nat).2 ≠ 0 ∨
      ∀ w ∈ [([97, 97, 97, 97], 1)], w.1.getLast? ≠ some ((0, 0) : Nat × Nat).1) ∧
    table_repr (train_merges (0, 0) [([97, 97, 97, 97], 1)] 0).text_table
      [([97, 97, 97, 97], 1)] ∧
    (∀ x y, ¬ ((train_merges (0, 0) [([97, 97, 97, 97], 1)] 0).max_node.in_table = true ∧
          (train_merges (0, 0) [([97, 97, 97, 97], 1)] 0).max_node.bigram0 = x ∧
          (train_merges (0, 0) [([97, 97, 97, 97], 1)] 0).max_node.bigram1 = y) →
        get_freq (train_merges (0, 0) [([97, 97, 97, 97], 1)] 0).tbl x y =
          weighted_freq [([97, 97, 97, 97], 1)] x y) ∧
    (merge_step (train_merges (0, 0) [([97, 97, 97, 97], 1)] 0)).tt (256 + 0) =
      some { token0 := (merge_step (train_merges (0, 0) [([97, 97, 97, 97], 1)] 0)).max_node.bigram0
             token1 :=
               (merge_step (train_merges (0, 0) [([97, 97, 97, 97], 1)] 0)).max_node.bigram1 } ∧
    (merge_step (train_merges (0, 0) [([97, 97, 97, 97], 1)] 0)).max_node.bigram0 = 97 ∧
    (merge_step (train_merges (0, 0) [([97, 97, 97, 97], 1)] 0)).text_table.map live_symbols =
      [[256, 256]] :=
  ⟨by unfold nul_free_words; decide,
    Or.inl ⟨{ bigram0 := 97, bigram1 := 97, freq := 3 }, by decide, by decide⟩,
    build_text_table_repr _ (by unfold valid_words; decide),
    fun x y _ => get_freq_build_bigram_table _ _
      (build_text_table_repr _ (by unfold valid_words; decide)) (by decide) x y,
    (pair_index_across_step (0, 0) [([97, 97, 97, 97], 1)] 0 (by unfold nul_free_words; decide)
      (Or.inl ⟨{ bigram0 := 97, bigram1 := 97, freq := 3 }, by decide, by decide⟩) (by decide)
      [([97, 97, 97, 97], 1)] (build_text_table_repr _ (by unfold valid_words; decide))
      (fun x y _ => get_freq_build_bigram_table _ _
        (build_text_table_repr _ (by unfold valid_words; decide)) (by decide) x y)).2.1,
    by decide, by decide⟩

/-- At a match `word_retokenize` reads `*unigram_R`, two elements after
`unigram_1`. -/
theorem step_indices_read_R (max0 max1 : Nat) (s : retokenize_state)
    (h1 : s.node.bytes.getD (s.element - 1) 0 = max0)
    (h2 : s.node.bytes.getD (s.element - 1 + 1) 0 = max1) :
    ((s.element : Int) - 1 + 1 + 1) ∈ word_retokenize_step_indices max0 max1 s := by
  unfold word_retokenize_step_indices
  simp only [h1, h2, and_self, if_true, List.mem_append, List.mem_singleton, true_or, or_true]

/-- At a match the `memmove` of `word_retokenize` reads `remaining_bytes / 2`
elements from `unigram_R` on, with `remaining_bytes` computed in `size_t`. -/
theorem step_indices_memmove_src (max0 max1 : Nat) (s : retokenize_state)
    (h1 : s.node.bytes.getD (s.element - 1) 0 = max0)
    (h2 : s.node.bytes.getD (s.element - 1 + 1) 0 = max1) (j : Nat)
    (hj : j < ((s.node.num_elements + 18446744073709551616 - s.element - 2) %
      18446744073709551616 * 2) % 18446744073709551616 / 2)
    (x : Int) (hx : x = (s.element : Int) - 1 + 1 + 1 + (j : Int)) :
    x ∈ word_retokenize_step_indices max0 max1 s := by
  subst hx
  unfold word_retokenize_step_indices
  simp only [h1, h2, and_self, if_true, List.mem_append, List.mem_singleton, List.mem_map,
    List.mem_range]
  left
  left
  right
  exact ⟨(j : Int), ⟨j, hj, rfl⟩, rfl⟩

theorem loop_indices_second_pass (max0 max1 token_idx : Nat) (fuel : Nat) (s : retokenize_state)
    (x : Int) (h1 : s.element < s.node.num_elements)
    (h2 : (word_retokenize_step max0 max1 token_idx s).element <
      (word_retokenize_step max0 max1 token_idx s).node.num_elements)
    (hx : x ∈ word_retokenize_step_indices max0 max1 (word_retokenize_step max0 max1 token_idx s)) :
    x ∈ word_retokenize_loop_indices max0 max1 token_idx (fuel + 2) s := by
  simp only [word_retokenize_loop_indices, if_pos h1, if_pos h2, List.mem_append]
  exact Or.inr (Or.inl hx)

/-- The array offsets `word_retokenize` touches on the record of "ab" (three
elements, offsets 0..2) when the pair is `(98, 0)`: the match on the last symbol
and the terminator reads `*unigram_R` at offset 3, and its `memmove`, whose
length is `(3 - 2 - 2) * 2` in `size_t`, reads on from there, offset 1000000
included. -/
theorem terminator_match_offsets (tbl : bigram_table) :
    (3 : Int) ∈ word_retokenize_indices
      { count := 0, array_size := 6, num_elements := 3, bytes := [97, 98, 0] } 98 0 tbl 256 ∧
    (1000000 : Int) ∈ word_retokenize_indices
      { count := 0, array_size := 6, num_elements := 3, bytes := [97, 98, 0] } 98 0 tbl 256 := by
  have hs : word_retokenize_step 98 0 256
      { node := { count := 0, array_size := 6, num_elements := 3, bytes := [97, 98, 0] },
        tbl := tbl, element := 1, unigram_L := 0 } =
      { node := { count := 0, array_size := 6, num_elements := 3, bytes := [97, 98, 0] },
        tbl := tbl, element := 2, unigram_L := 0 } := by
    simp [word_retokenize_step]
  constructor
  · apply loop_indices_second_pass 98 0 256 1 _ _ (by simp) (by rw [hs]; simp)
    rw [hs]
    exact step_indices_read_R 98 0 _ (by simp) (by simp)
  · apply loop_indices_second_pass 98 0 256 1 _ _ (by simp) (by rw [hs]; simp)
    rw [hs]
    exact step_indices_memmove_src 98 0 _ (by simp) (by simp) 999997 (by norm_num) _
      (by norm_num)

/-- C14, where the code departs from the claim: `train({"ab": 0}, 1)` with the
uninitialised bigram of `init_max_node` holding `(98, 0)`. Before the first
step the pair index is exact (its one entry `(97, 98)` holds 0, the weighted
multiplicity), so the premise of the claim holds. No entry is positive,
`update_max_node` keeps `init_max_node` and the step works with `(98, 0)`:
`word_retokenize` matches it on the last symbol and the terminator, reads
`*unigram_R` at offset 3 of the three-element array, writes the token over the
`b`, and `num_elements - element - 2` is `3 - 2 - 2`, which the `size_t` of the
source turns into a `memmove` of `2^64 - 2` bytes that reads on past the array
(offset 1000000 included). Here, with that length cut to 0, the record is left
with `num_elements = 2` and the symbols `[97, 256, 0]`: no NUL stands after its
one live symbol, so the word table holds no corpus any more, rewritten or
other. -/
theorem pair_index_step_uninitialised_bigram :
    nul_free_words [([97, 98], 0)] ∧
    table_repr (train_merges (98, 0) [([97, 98], 0)] 0).text_table [([97, 98], 0)] ∧
    (∀ x y, get_freq (train_merges (98, 0) [([97, 98], 0)] 0).tbl x y =
      weighted_freq [([97, 98], 0)] x y) ∧
    (train_merges (98, 0) [([97, 98], 0)] 0).text_table =
      [{ count := 0, array_size := 6, num_elements := 3, bytes := [97, 98, 0] }] ∧
    (scan_order (train_merges (98, 0) [([97, 98], 0)] 0).tbl).map (fun n => n.freq) = [0] ∧
    (merge_step (train_merges (98, 0) [([97, 98], 0)] 0)).max_node =
      { in_table := false, bigram0 := 98, bigram1 := 0 } ∧
    (merge_step (train_merges (98, 0) [([97, 98], 0)] 0)).tt 256 =
      some { token0 := 98, token1 := 0 } ∧
    (3 : Int) ∈ word_retokenize_indices
      { count := 0, array_size := 6, num_elements := 3, bytes := [97, 98, 0] } 98 0
      (train_merges (98, 0) [([97, 98], 0)] 0).tbl 256 ∧
    (1000000 : Int) ∈ word_retokenize_indices
      { count := 0, array_size := 6, num_elements := 3, bytes := [97, 98, 0] } 98 0
      (train_merges (98, 0) [([97, 98], 0)] 0).tbl 256 ∧
    (merge_step (train_merges (98, 0) [([97, 98], 0)] 0)).text_table =
      [{ count := 0, array_size := 4, num_elements := 2, bytes := [97, 256, 0] }] ∧
    ¬ ∃ ws, table_repr (merge_step (train_merges (98, 0) [([97, 98], 0)] 0)).text_table ws := by
  have ht : (merge_step (train_merges (98, 0) [([97, 98], 0)] 0)).text_table =
      [{ count := 0, array_size := 4, num_elements := 2, bytes := [97, 256, 0] }] := by
    decide
  refine ⟨by unfold nul_free_words; decide,
    build_text_table_repr _ (by unfold valid_words; decide),
    fun x y => get_freq_build_bigram_table _ _
      (build_text_table_repr _ (by unfold valid_words; decide)) (by decide) x y,
    by decide, by decide, by decide, by decide, (terminator_match_offsets _).1,
    (terminator_match_offsets _).2, ht, ?_⟩
  rintro ⟨ws, h⟩
  rw [ht] at h
  cases h with
  | @cons _ w _ _ hd _ =>
    have h1 := hd.1.2.1
    have h2 := node_repr_terminator _ _ hd.1
    have hl : w.1.length = 1 := by
      simp only at h1
      omega
    rw [hl] at h2
    simp at h2

/-- C21, where the code departs from the claim: `train({"ab": 0}, 1)` with the
uninitialised bigram of `init_max_node` holding `(98, 0)`. No entry of the pair
index is positive, the step works with `(98, 0)`, and `word_retokenize`
matches it on the last symbol and the terminator: it reads `*unigram_R` at
offset 3 of the three-element array and its `memmove` gets `2^64 - 2` bytes in
the source, reading on past the array (offset 1000000 included). Here, with
that length cut to 0, the record of "ab" has `num_elements = 2` after the step:
its live symbols are `[97]`, which expand to "a", not to "ab", and at index
`length = 1` stands the token 256, not a NUL. -/
theorem rewriting_loses_symbol_on_uninitialised_bigram :
    nul_free_words [([97, 98], 0)] ∧
    (train_merges (98, 0) [([97, 98], 0)] 1).tt 256 = some { token0 := 98, token1 := 0 } ∧
    (train_merges (98, 0) [([97, 98], 0)] 1).text_table =
      [{ count := 0, array_size := 4, num_elements := 2, bytes := [97, 256, 0] }] ∧
    (train_merges (98, 0) [([97, 98], 0)] 1).text_table.map live_symbols = [[97]] ∧
    (train_merges (98, 0) [([97, 98], 0)] 1).text_table.map
      (fun node => expand_word (train_merges (98, 0) [([97, 98], 0)] 1).tt (live_symbols node)) =
      [[97]] ∧
    ([97] : List Nat) ≠ [97, 98] ∧
    (train_merges (98, 0) [([97, 98], 0)] 1).text_table.map
      (fun node => node.bytes[(live_symbols node).length]?) = [some 256] ∧
    (train_merges (98, 0) [([97, 98], 0)] 0).text_table =
      [{ count := 0, array_size := 6, num_elements := 3, bytes := [97, 98, 0] }] ∧
    (3 : Int) ∈ word_retokenize_indices
      { count := 0, array_size := 6, num_elements := 3, bytes := [97, 98, 0] } 98 0
      (train_merges (98, 0) [([97, 98], 0)] 0).tbl 256 ∧
    (1000000 : Int) ∈ word_retokenize_indices
      { count := 0, array_size := 6, num_elements := 3, bytes := [97, 98, 0] } 98 0
      (train_merges (98, 0) [([97, 98], 0)] 0).tbl 256 := by
  refine ⟨by unfold nul_free_words; decide, by decide, by decide, by decide, by decide,
    by decide, by decide, by decide, (terminator_match_offsets _).1,
    (terminator_match_offsets _).2⟩

/-- The premise of C14 holds at every step of a run on valid words of total
weighted pair count below 2^31 in which some pair has positive weighted
frequency: the pair index stores, for every pair other than the previous
winner, exactly the weighted multiplicity in the corpus the word table holds. -/
theorem pair_index_exact_in_run (init_bigram : Nat × Nat) (words : List (List Nat × Nat))
    (k : Nat) (hv : valid_words words) (htotal : total_pair_weight words < 2147483648)
    (hpos : ∃ x y, 0 < weighted_freq words x y) (hk : k ≤ 65279) :
    ∃ ws : List (List Nat × Nat),
      table_repr (train_merges init_bigram words k).text_table ws ∧
      ∀ x y, ¬ ((train_merges init_bigram words k).max_node.in_table = true ∧
            (train_merges init_bigram words k).max_node.bigram0 = x ∧
            (train_merges init_bigram words k).max_node.bigram1 = y) →
          get_freq (train_merges init_bigram words k).tbl x y = weighted_freq ws x y := by
  obtain ⟨ws, h, _⟩ := train_inv_before_step init_bigram words k hv htotal hpos hk
  exact ⟨ws, h.repr, h.freq⟩

/-- C22 (exhausted corpus). In a run of `train` on NUL-free words that fit their
records (at most 32766 bytes), at a merge step after the first (the step from
the state after `k >= 1` steps, `k <= 65278`): when no entry of the pair index
has positive frequency once the previous winner's entry is reset to 0,
`update_max_node` keeps the previous winner as `*max_node`, the token minted at
this step records the same two children as the token of the previous step, and
`retokenize` returns every word record and the table as it got them, so every
frequency stays what the reset left. The run is one in which the pair index
holds a positive frequency at the start, or the second symbol of the
uninitialised bigram of `init_max_node` is non-zero, or no word ends in its
first symbol; in any other run the first step has matched the uninitialised
bigram at the terminator of a word and handed `memmove` a length of
`2^64 - 2` bytes, so there is no later step to speak of. -/
theorem exhausted_corpus_repeats (init_bigram : Nat × Nat) (words : List (List Nat × Nat))
    (k : Nat) (hv : nul_free_words words)
    (hg : (∃ n ∈ scan_order (build_bigram_table (build_text_table words)), 0 < n.freq) ∨
      init_bigram.2 ≠ 0 ∨ ∀ w ∈ words, w.1.getLast? ≠ some init_bigram.1)
    (hk1 : 1 ≤ k) (hk : k ≤ 65278)
    (hex : ∀ n ∈ scan_order (reset_max_freq (train_merges init_bigram words k).max_node
      (train_merges init_bigram words k).tbl), n.freq ≤ 0) :
    (update_max_node (train_merges init_bigram words k).max_node
        (train_merges init_bigram words k).tbl (train_merges init_bigram words k).tt
        (train_merges init_bigram words k).token_idx).1 =
      (train_merges init_bigram words k).max_node ∧
    train_merges init_bigram words (k + 1) = merge_step (train_merges init_bigram words k) ∧
    (∃ node, (train_merges init_bigram words k).tt (256 + k - 1) = some node ∧
      (merge_step (train_merges init_bigram words k)).tt (256 + k) = some node) ∧
    retokenize (train_merges init_bigram words k).text_table
        (train_merges init_bigram words k).max_node.bigram0
        (train_merges init_bigram words k).max_node.bigram1
        (reset_max_freq (train_merges init_bigram words k).max_node
          (train_merges init_bigram words k).tbl)
        (train_merges init_bigram words k).token_idx =
      ((train_merges init_bigram words k).text_table,
        reset_max_freq (train_merges init_bigram words k).max_node
          (train_merges init_bigram words k).tbl) ∧
    (merge_step (train_merges init_bigram words k)).text_table =
      (train_merges init_bigram words k).text_table ∧
    (merge_step (train_merges init_bigram words k)).tbl =
      reset_max_freq (train_merges init_bigram words k).max_node
        (train_merges init_bigram words k).tbl ∧
    ∀ x y, get_freq (merge_step (train_merges init_bigram words k)).tbl x y =
      get_freq (reset_max_freq (train_merges init_bigram words k).max_node
        (train_merges init_bigram words k).tbl) x y := by
  have hfacts : (train_merges init_bigram words k).token_idx = 256 + k ∧
      (train_merges init_bigram words k).tt (256 + k - 1) =
        some { token0 := (train_merges init_bigram words k).max_node.bigram0
               token1 := (train_merges init_bigram words k).max_node.bigram1 } ∧
      ∀ tbl : bigram_table, retokenize (train_merges init_bigram words k).text_table
        (train_merges init_bigram words k).max_node.bigram0
        (train_merges init_bigram words k).max_node.bigram1 tbl
        (train_merges init_bigram words k).token_idx =
          ((train_merges init_bigram words k).text_table, tbl) := by
    rcases run_cases init_bigram words hv hg with hg1 | ⟨hex0, hpc⟩
    · obtain ⟨ws, h⟩ := train_merges_run_inv init_bigram words k hv hg1 (by omega)
      exact ⟨h.token_idx, h.last hk1, retokenize_no_occurrence _ _ _ (h.second hk1) _ ws
        h.repr (h.gone hk1)⟩
    · have hrepr0 := build_text_table_repr_stored words hv
      obtain ⟨h1, _, h3, h4, h5⟩ :=
        train_merges_static init_bigram words _ hrepr0 hex0 hpc k (by omega)
      refine ⟨h4, ?_, ?_⟩
      · rw [h5 hk1, h3]
      · rw [h1, h3]
        exact retokenize_no_match _ _ _ _ _ hrepr0 hpc
  have hsucc := train_merges_succ init_bigram words k
  generalize train_merges init_bigram words k = s at *
  obtain ⟨htok, hlast, hretok⟩ := hfacts
  have hm : (scan_max (scan_order (reset_max_freq s.max_node s.tbl)) s.max_node 0).1 =
      s.max_node := by
    rcases scan_max_spec (scan_order (reset_max_freq s.max_node s.tbl)) s.max_node 0 with
      ⟨h1, _⟩ | ⟨l1, n, l2, h1, _, h3, _, _⟩
    · rw [h1]
    · have := hex n (by rw [h1]; simp)
      omega
  have hret := hretok (reset_max_freq s.max_node s.tbl)
  have hstep : merge_step s =
      { text_table := s.text_table
        tbl := reset_max_freq s.max_node s.tbl
        max_node := s.max_node
        tt := fun i => if i = s.token_idx then some (create_token s.max_node) else s.tt i
        token_idx := (s.token_idx + 1) % 65536 } := by
    rw [merge_step_eq]
    simp only [hm, hret]
  refine ⟨hm, ?_, ?_, hret, ?_, ?_, ?_⟩
  · exact hsucc
  · refine ⟨_, hlast, ?_⟩
    rw [hstep]
    simp only [htok, if_true, create_token]
  · rw [hstep]
  · rw [hstep]
  · intro x y
    rw [hstep]

theorem exhausted_corpus_repeats_witness :
    nul_free_words [([97, 97], 5)] ∧
    ((∃ n ∈ scan_order (build_bigram_table (build_text_table [([97, 97], 5)])), 0 < n.freq) ∨
      ((0, 0) : Nat × Nat).2 ≠ 0 ∨
      ∀ w ∈ [([97, 97], 5)], w.1.getLast? ≠ some ((0, 0) : Nat × Nat).1) ∧
    (∀ n ∈ scan_order (reset_max_freq (train_merges (0, 0) [([97, 97], 5)] 1).max_node
      (train_merges (0, 0) [([97, 97], 5)] 1).tbl), n.freq ≤ 0) ∧
    (merge_step (train_merges (0, 0) [([97, 97], 5)] 1)).text_table =
      (train_merges (0, 0) [([97, 97], 5)] 1).text_table ∧
    ∃ node, (train_merges (0, 0) [([97, 97], 5)] 1).tt (256 + 1 - 1) = some node ∧
      (merge_step (train_merges (0, 0) [([97, 97], 5)] 1)).tt (256 + 1) = some node :=
  ⟨by unfold nul_free_words; decide,
    Or.inl ⟨{ bigram0 := 97, bigram1 := 97, freq := 5 }, by decide, by decide⟩, by decide,
    (exhausted_corpus_repeats (0, 0) [([97, 97], 5)] 1 (by unfold nul_free_words; decide)
      (Or.inl ⟨{ bigram0 := 97, bigram1 := 97, freq := 5 }, by decide, by decide⟩)
      (by decide) (by decide) (by decide)).2.2.2.2.1,
    (exhausted_corpus_repeats (0, 0) [([97, 97], 5)] 1 (by unfold nul_free_words; decide)
      (Or.inl ⟨{ bigram0 := 97, bigram1 := 97, freq := 5 }, by decide, by decide⟩)
      (by decide) (by decide) (by decide)).2.2.1⟩

/-- The exhausted corpus in a run on zero counts: with the uninitialised bigram
`(0, 0)` every step of `train({"ab": 0}, 3)` keeps `init_max_node`, mints
`(0, 0)` again and leaves the word table and the index alone. -/
theorem exhausted_corpus_zero_counts :
    (train_merges (0, 0) [([97, 98], 0)] 2).tt 256 = some { token0 := 0, token1 := 0 } ∧
    (train_merges (0, 0) [([97, 98], 0)] 2).tt 257 = some { token0 := 0, token1 := 0 } ∧
    (train_merges (0, 0) [([97, 98], 0)] 3).tt 258 = some { token0 := 0, token1 := 0 } ∧
    (train_merges (0, 0) [([97, 98], 0)] 3).text_table =
      (train_merges (0, 0) [([97, 98], 0)] 2).text_table ∧
    (train_merges (0, 0) [([97, 98], 0)] 3).tbl =
      (train_merges (0, 0) [([97, 98], 0)] 2).tbl := by
  decide

theorem pair_count_replicate_self (a : Nat) :
    ∀ n : Nat, pair_count a a (List.replicate (n + 1) a) = n := by
  intro n
  induction n with
  | zero => rfl
  | succ n ih =>
    have e : List.replicate (n + 1 + 1) a = a :: a :: List.replicate n a := rfl
    have e2 : List.replicate (n + 1) a = a :: List.replicate n a := rfl
    rw [e, pair_count, ← e2, ih]
    simp
    omega

theorem replicate_bytes (n b : Nat) (h1 : 1 ≤ b) (h2 : b ≤ 255) :
    ∀ x ∈ List.replicate n b, 1 ≤ x ∧ x ≤ 255 := by
  intro x hx
  rw [List.eq_of_mem_replicate hx]
  exact ⟨h1, h2⟩

theorem weighted_freq_one (w : List Nat) (c : Nat) (x y : Nat) :
    weighted_freq [(w, c)] x y = (c : Int) * (pair_count x y w : Int) := by
  simp [weighted_freq]

theorem weighted_freq_cons (w : List Nat × Nat) (rest : List (List Nat × Nat)) (x y : Nat) :
    weighted_freq (w :: rest) x y =
      (w.2 : Int) * (pair_count x y w.1 : Int) + weighted_freq rest x y := by
  simp [weighted_freq]

/-- The two words of the overflow inputs are valid: 32766 bytes `a` and 5 bytes
`a`, each with count 65535. -/
theorem overflow_words_valid (rest : List (List Nat × Nat)) (h : valid_words rest) :
    valid_words ((List.replicate 32766 97, 65535) :: ([97, 97, 97, 97, 97], 65535) :: rest) := by
  intro w hw
  rcases List.mem_cons.1 hw with e | hw
  · subst e
    exact ⟨replicate_bytes _ _ (by decide) (by decide), (List.length_replicate _ _).le, le_refl _⟩
  rcases List.mem_cons.1 hw with e | hw
  · subst e
    exact ⟨by decide, by decide, le_refl _⟩
  · exact h w hw

theorem pair_count_five (x y : Nat) :
    pair_count x y [97, 97, 97, 97, 97] = if x = 97 ∧ y = 97 then 4 else 0 := by
  by_cases h : x = 97 ∧ y = 97
  · simp [pair_count, h]
  · simp only [pair_count, h, if_false]
    have : ¬ (97 = x ∧ 97 = y) := fun e => h ⟨e.1.symm, e.2.symm⟩
    simp [this]

/-- C15, the claim as written fails: two word records, 32766 symbols `a` and 5
symbols `a`, each with count 65535, as `train` builds them from the words. The
sum of count times occurrences of `(97, 97)` is `65535 * 32769 = 2147516415`;
the `int freq` of the pair index holds `-2147450881`. -/
theorem initial_stats_wrap :
    table_repr
      (build_text_table [(List.replicate 32766 97, 65535), ([97, 97, 97, 97, 97], 65535)])
      [(List.replicate 32766 97, 65535), ([97, 97, 97, 97, 97], 65535)] ∧
    (([(List.replicate 32766 97, 65535), ([97, 97, 97, 97, 97], 65535)] :
        List (List Nat × Nat)).map
      (fun w => (w.2 : Int) * (pair_count 97 97 w.1 : Int))).sum = 2147516415 ∧
    get_freq (build_bigram_table
      (build_text_table [(List.replicate 32766 97, 65535), ([97, 97, 97, 97, 97], 65535)]))
      97 97 = -2147450881 := by
  have hr := build_text_table_repr _ (overflow_words_valid [] (by intro w hw; cases hw))
  have hs : weighted_freq [(List.replicate 32766 97, 65535), ([97, 97, 97, 97, 97], 65535)]
      97 97 = 2147516415 := by
    rw [weighted_freq_cons, weighted_freq_one, pair_count_replicate_self 97 32765,
      pair_count_five]
    norm_num
  refine ⟨hr, hs, ?_⟩
  rw [get_freq_build_bigram_table_wrap _ _ hr, hs]
  decide

theorem met_before_append (seq : List (Nat × Nat)) (p q : Nat × Nat) (more : List (Nat × Nat))
    (h : met_before seq p q) : met_before (seq ++ more) p q := by
  obtain ⟨l1, l2, e, hq⟩ := h
  exact ⟨l1, l2 ++ more, by rw [e]; simp, hq⟩

theorem met_before_new (seq : List (Nat × Nat)) (p q : Nat × Nat) (hp : p ∈ seq)
    (hq : q ∉ seq) : met_before (seq ++ [q]) p q := by
  obtain ⟨l1, l2, e⟩ := List.append_of_mem hp
  refine ⟨l1, l2 ++ [q], by rw [e]; simp, ?_⟩
  intro h
  exact hq (by rw [e]; exact List.mem_append_left _ h)

theorem chain_order_nil : chain_order [] [] := by
  intro h
  simp [bucket_get]

/-- One call of `update_bigram_table` keeps the chains in the order in which
the pairs were first met. -/
theorem chain_order_update (seq : List (Nat × Nat)) (tbl : bigram_table) (a b : Nat) (d : Int)
    (h : chain_order seq tbl) :
    chain_order (seq ++ [(a, b)]) (update_bigram_table a b d tbl) := by
  intro i
  obtain ⟨h1, h2, h3⟩ := h i
  unfold update_bigram_table
  by_cases hi : i = hash_text a b
  · subst hi
    rw [bucket_get_set_same, chain_update_keys]
    by_cases hm : (a, b) ∈ (bucket_get tbl (hash_text a b)).map node_key
    · simp only [hm, if_true]
      refine ⟨h1.imp (fun hpq => met_before_append _ _ _ _ hpq),
        fun k hk => List.mem_append_left _ (h2 k hk), ?_⟩
      intro k hk hh
      rcases List.mem_append.1 hk with hk | hk
      · exact h3 k hk hh
      · rw [List.mem_singleton.1 hk]
        exact hm
    · simp only [hm, if_false]
      have hns : (a, b) ∉ seq := fun hs => hm (h3 (a, b) hs rfl)
      refine ⟨?_, ?_, ?_⟩
      · rw [List.pairwise_append]
        refine ⟨h1.imp (fun hpq => met_before_append _ _ _ _ hpq), List.pairwise_singleton _ _,
          ?_⟩
        intro p hp q hq
        rw [List.mem_singleton.1 hq]
        exact met_before_new seq p (a, b) (h2 p hp) hns
      · intro k hk
        rcases List.mem_append.1 hk with hk | hk
        · exact List.mem_append_left _ (h2 k hk)
        · exact List.mem_append_right _ hk
      · intro k hk hh
        rcases List.mem_append.1 hk with hk | hk
        · exact List.mem_append_left _ (h3 k hk hh)
        · exact List.mem_append_right _ hk
  · rw [bucket_get_set_other _ _ _ _ hi]
    refine ⟨h1.imp (fun hpq => met_before_append _ _ _ _ hpq),
      fun k hk => List.mem_append_left _ (h2 k hk), ?_⟩
    intro k hk hh
    rcases List.mem_append.1 hk with hk | hk
    · exact h3 k hk hh
    · rw [List.mem_singleton.1 hk] at hh
      exact absurd hh.symm hi

theorem chain_order_stats_pairs (count : Int) :
    ∀ (n : Nat) (w : List Nat) (seq : List (Nat × Nat)) (tbl : bigram_table), w.length ≤ n →
      chain_order seq tbl → chain_order (seq ++ word_pairs w) (stats_pairs count w tbl) := by
  intro n
  induction n with
  | zero =>
    intro w seq tbl hl h
    have : w = [] := List.length_eq_zero.1 (by omega)
    subst this
    simpa [word_pairs, stats_pairs] using h
  | succ n ih =>
    intro w seq tbl hl h
    cases w with
    | nil => simpa [word_pairs, stats_pairs] using h
    | cons x r =>
      cases r with
      | nil => simpa [word_pairs, stats_pairs] using h
      | cons y r2 =>
        have h2 := ih (y :: r2) (seq ++ [(x, y)]) (update_bigram_table x y count tbl)
          (by simp only [List.length_cons] at hl ⊢; omega) (chain_order_update seq tbl x y count h)
        simp only [word_pairs, stats_pairs]
        simpa using h2

theorem input_pairs_cons (w : List Nat × Nat) (rest : List (List Nat × Nat)) :
    input_pairs (w :: rest) = word_pairs w.1 ++ input_pairs rest := by
  simp [input_pairs]

theorem chain_order_foldl (text_table : List text_chunk_node) (ws : List (List Nat × Nat))
    (h : table_repr text_table ws) :
    ∀ (seq : List (Nat × Nat)) (tbl : bigram_table), chain_order seq tbl →
      chain_order (seq ++ input_pairs ws)
        (text_table.foldl (fun tbl node => init_stats node tbl) tbl) := by
  induction h with
  | nil =>
    intro seq tbl hc
    simpa [input_pairs] using hc
  | @cons node w tt ws2 hd _ ih =>
    intro seq tbl hc
    simp only [List.foldl_cons]
    rw [input_pairs_cons, ← List.append_assoc]
    apply ih
    rw [init_stats_eq node w.1 hd.1]
    exact chain_order_stats_pairs _ w.1.length w.1 seq tbl (le_refl _) hc

/-- The chains of the pair index `build_bigram_table` builds hold their pairs
in the order in which the input meets them first. -/
theorem chain_order_build (text_table : List text_chunk_node) (ws : List (List Nat × Nat))
    (h : table_repr text_table ws) :
    chain_order (input_pairs ws) (build_bigram_table text_table) := by
  have := chain_order_foldl text_table ws h [] [] chain_order_nil
  simpa [build_bigram_table] using this

/-- The scan of `update_max_node` visits the entries by ascending bucket, and
inside a bucket in the order in which the pairs were first met. -/
theorem scan_order_met (seq : List (Nat × Nat)) :
    ∀ tbl : bigram_table, (tbl.map Prod.fst).Pairwise (fun i j => i < j) →
      (∀ e ∈ tbl, (∀ n ∈ e.2, hash_text n.bigram0 n.bigram1 = e.1) ∧
        (e.2.map node_key).Pairwise (met_before seq)) →
      (scan_order tbl).Pairwise (fun p q =>
        hash_text p.bigram0 p.bigram1 < hash_text q.bigram0 q.bigram1 ∨
        (hash_text p.bigram0 p.bigram1 = hash_text q.bigram0 q.bigram1 ∧
          met_before seq (node_key p) (node_key q))) := by
  intro tbl
  induction tbl with
  | nil => intro _ _; simp [scan_order]
  | cons e rest ih =>
    intro hs hc
    have hso : scan_order (e :: rest) = e.2 ++ scan_order rest := by
      simp [scan_order]
    simp only [List.map_cons, List.pairwise_cons] at hs
    rw [hso, List.pairwise_append]
    obtain ⟨he1, he2⟩ := hc e (List.mem_cons_self _ _)
    refine ⟨?_, ih hs.2 (fun e2 he => hc e2 (List.mem_cons_of_mem _ he)), ?_⟩
    · rw [List.pairwise_map] at he2
      exact he2.imp_of_mem (fun hp hq hpq => Or.inr ⟨by rw [he1 _ hp, he1 _ hq], hpq⟩)
    · intro p hp q hq
      obtain ⟨e2, hmem, hq2⟩ := (mem_scan_order rest q).1 hq
      have h4 := hs.1 e2.1 (List.mem_map.2 ⟨e2, hmem, rfl⟩)
      have h5 := (hc e2 (List.mem_cons_of_mem _ hmem)).1 q hq2
      left
      rw [he1 p hp, h5]
      exact h4

theorem scan_order_build (text_table : List text_chunk_node) (ws : List (List Nat × Nat))
    (h : table_repr text_table ws) :
    (scan_order (build_bigram_table text_table)).Pairwise (fun p q =>
      hash_text p.bigram0 p.bigram1 < hash_text q.bigram0 q.bigram1 ∨
      (hash_text p.bigram0 p.bigram1 = hash_text q.bigram0 q.bigram1 ∧
        met_before (input_pairs ws) (node_key p) (node_key q))) := by
  have hwf := build_bigram_table_wf text_table ws h
  have hco := chain_order_build text_table ws h
  apply scan_order_met _ _ hwf.1
  intro e he
  refine ⟨(hwf.2 e he).1, ?_⟩
  have := (hco e.1).1
  rw [bucket_get_of_mem _ hwf.1 e he] at this
  exact this

/-- The winner of the first merge step comes first, in the order of the scan,
among the pairs of its weighted frequency: its bucket is smaller, or the bucket
is the same and the input meets the winner first. -/
theorem first_token_order (init_bigram : Nat × Nat) (words : List (List Nat × Nat))
    (hv : valid_words words) (hb : total_pair_weight words < 2147483648)
    (hpos : ∃ x y, 0 < weighted_freq words x y) :
    ∃ node, (train_merges init_bigram words 1).tt 256 = some node ∧
      ∀ x y, weighted_freq words x y = weighted_freq words node.token0 node.token1 →
        (x, y) ≠ (node.token0, node.token1) →
        hash_text node.token0 node.token1 < hash_text x y ∨
        (hash_text node.token0 node.token1 = hash_text x y ∧
          met_before (input_pairs words) (node.token0, node.token1) (x, y)) := by
  have hr := build_text_table_repr words hv
  have hwf0 := build_bigram_table_wf _ _ hr
  have hf0 : ∀ x y, get_freq (build_bigram_table (build_text_table words)) x y =
      weighted_freq words x y := fun x y => get_freq_build_bigram_table _ _ hr hb x y
  have hP := scan_order_build _ _ hr
  rw [train_merges_succ, train_merges_zero, merge_step_eq]
  generalize build_bigram_table (build_text_table words) = tbl0 at *
  have hreset : reset_max_freq
      { in_table := false, bigram0 := init_bigram.1, bigram1 := init_bigram.2 } tbl0 = tbl0 := by
    simp [reset_max_freq]
  simp only [hreset]
  rcases scan_max_spec (scan_order tbl0)
      { in_table := false, bigram0 := init_bigram.1, bigram1 := init_bigram.2 } 0 with
    ⟨_, h2⟩ | ⟨l1, n, l2, h1, h2, h3, h4, h5⟩
  · obtain ⟨x, y, hxy⟩ := hpos
    have := get_freq_le_of_scan tbl0 0 (le_refl _) h2 x y
    rw [hf0] at this
    omega
  · have hn : n ∈ scan_order tbl0 := by rw [h1]; simp
    have hgn := get_freq_of_mem_scan tbl0 hwf0 n hn
    refine ⟨{ token0 := n.bigram0, token1 := n.bigram1 }, ?_, ?_⟩
    · simp [h2, create_token]
    · intro x y htie hne
      simp only at htie hne ⊢
      have hgx : get_freq tbl0 x y = n.freq := by rw [hf0, htie, ← hf0, hgn]
      unfold get_freq at hgx
      cases hfm : find_node tbl0 x y with
      | none =>
        rw [hfm] at hgx
        simp only at hgx
        omega
      | some m =>
        rw [hfm] at hgx
        simp only at hgx
        obtain ⟨hm1, hm2, hm3⟩ := chain_find_key _ _ _ _ hfm
        have hm : m ∈ scan_order tbl0 :=
          (mem_scan_order tbl0 m).2 ⟨_, mem_of_bucket_get tbl0 _ m hm1, hm1⟩
        rw [h1] at hm hP
        have hR := List.pairwise_cons.1 (List.pairwise_append.1 hP).2.1
        rcases List.mem_append.1 hm with hm | hm
        · have := h4 m hm
          omega
        rcases List.mem_cons.1 hm with hm | hm
        · exfalso
          apply hne
          rw [← hm2, ← hm3, hm]
        · have := hR.1 m hm
          simp only [node_key, hm2, hm3] at this
          exact this

/-- C6 (tie-break), as amended. On NUL-free words of at most 32766 bytes with
counts in 0..65535 and total weighted pair count below 2^31, in which some pair
has positive weighted frequency, `train` with one merge returns exactly one
token, the expansion `[a, b]` of a pair of highest weighted frequency, and
among the pairs of that frequency `(a, b)` is the first the scan of
`update_max_node` visits: every other such pair lies in a bucket of larger
`hash_text` index, or in the same bucket and then the input (word by word, left
to right) meets `(a, b)` before it. The order of the input decides only inside
a bucket: `[("ab", 3), ("cd", 3)]` and `[("cd", 3), ("ab", 3)]` both yield
`[97, 98]`, while (the pairs `(98, 89)` and `(97, 122)` share bucket 620352)
`[("bY", 3), ("az", 3)]` yields `[98, 89]` and `[("az", 3), ("bY", 3)]` yields
`[97, 122]`. -/
theorem tie_break_scan_order (init_bigram : Nat × Nat) (words : List (List Nat × Nat))
    (hv : valid_words words) (htotal : total_pair_weight words < 2147483648)
    (hpos : ∃ a b, 0 < weighted_freq words a b) :
    (∃ a b, train init_bigram words 1 = some [[a, b]] ∧
      (∀ x y, weighted_freq words x y ≤ weighted_freq words a b) ∧
      ∀ x y, weighted_freq words x y = weighted_freq words a b → (x, y) ≠ (a, b) →
        hash_text a b < hash_text x y ∨
        (hash_text a b = hash_text x y ∧ met_before (input_pairs words) (a, b) (x, y))) ∧
    train (0, 0) [([97, 98], 3), ([99, 100], 3)] 1 = some [[97, 98]] ∧
    train (0, 0) [([99, 100], 3), ([97, 98], 3)] 1 = some [[97, 98]] ∧
    hash_text 98 89 = 620352 ∧ hash_text 97 122 = 620352 ∧
    train (0, 0) [([98, 89], 3), ([97, 122], 3)] 1 = some [[98, 89]] ∧
    train (0, 0) [([97, 122], 3), ([98, 89], 3)] 1 = some [[97, 122]] := by
  obtain ⟨node, hnode, hp, hmax, _⟩ :=
    first_token init_bigram words 1 hv htotal hpos (le_refl _) (by omega)
  obtain ⟨node2, hnode2, hord⟩ := first_token_order init_bigram words hv htotal hpos
  have e : node2 = node := Option.some.inj (hnode2.symm.trans hnode)
  subst e
  obtain ⟨ws, h⟩ := train_merges_inv init_bigram words 1 hv htotal hpos (by omega)
  obtain ⟨ha, hb⟩ := weighted_freq_pos_byte words hv _ _ hp
  refine ⟨⟨node2.token0, node2.token1, ?_, hmax, hord⟩, by decide, by decide, by decide,
    by decide, by decide, by decide⟩
  rw [train_eq init_bigram words 1 hv htotal hpos (by omega)]
  have : expansion (train_merges init_bigram words 1).tt 256 = [node2.token0, node2.token1] := by
    rw [expansion_token _ _ h.ttwf 256 node2 hnode, expansion_byte _ _ ha, expansion_byte _ _ hb]
    rfl
  simp [List.range', this]

theorem tie_break_scan_order_witness :
    valid_words [([97, 122], 3), ([98, 89], 3)] ∧
    total_pair_weight [([97, 122], 3), ([98, 89], 3)] < 2147483648 ∧
    (∃ a b, 0 < weighted_freq [([97, 122], 3), ([98, 89], 3)] a b) ∧
    ∃ a b, train (0, 0) [([97, 122], 3), ([98, 89], 3)] 1 = some [[a, b]] ∧
      (∀ x y, weighted_freq [([97, 122], 3), ([98, 89], 3)] x y ≤
        weighted_freq [([97, 122], 3), ([98, 89], 3)] a b) ∧
      ∀ x y, weighted_freq [([97, 122], 3), ([98, 89], 3)] x y =
          weighted_freq [([97, 122], 3), ([98, 89], 3)] a b → (x, y) ≠ (a, b) →
        hash_text a b < hash_text x y ∨
        (hash_text a b = hash_text x y ∧
          met_before (input_pairs [([97, 122], 3), ([98, 89], 3)]) (a, b) (x, y)) :=
  ⟨by unfold valid_words; decide, by decide, ⟨97, 122, by decide⟩,
    (tie_break_scan_order (0, 0) [([97, 122], 3), ([98, 89], 3)]
      (by unfold valid_words; decide) (by decide) ⟨97, 122, by decide⟩).1⟩

end Bytephase
